import Mathlib

/-! # TaskScheduler: a shallow embedding of `lib/scheduler.h`

The header defines a type-erased value box (`MyAny`), task records of arity
0, 1 and 2 (`Task_zero_args`, `Task_one_args`, `Task_two_args`), placeholders
for the future output of a task (`FutureResult`) and the scheduler
(`TTaskScheduler`) with `add`, `getFutureResult`, `getResult` and `executeAll`.

Modelling conventions.

* `std::vector` is a `List`; `operator[]` is the checked lookup `xs[i]?`, and an
  out-of-range access (undefined behaviour in C++) is the fault `outOfRange`.
* Task ids are `int` in the source and natural numbers here; a negative id is
  out of range for every vector just as an id beyond the size is.  Task counts
  are assumed to fit in `int`, so `tasks.size() - 1` converts exactly.
* A C++ value of some static type is a `Value`; its constructor is the type.
  `double` values are idealised as rationals.
* A callable is a function into `Except String _`: `.error what` is a thrown
  exception.  Every invocation is recorded in the ghost field `log`.
* `getResult -> execute -> FutureResult::get -> getResult` is recursive and need
  not terminate; the model bounds the recursion depth by a fuel argument and
  reports exhaustion as the fault `diverged`.
* The two `resolve_argument` calls of a two-argument task are evaluated left to
  right (C++ leaves the order open for the free-function branch).
-/

namespace TaskScheduler

/-! ## Values and the type-erased box -/

/-- Static C++ types that a stored value may have. -/
inductive Ty where
  | int
  | double
  | string
  deriving DecidableEq, Repr

/-- A C++ value together with its static type (`Derived<T>` holding `T value`). -/
inductive Value where
  | int (n : Int)
  | double (x : Rat)
  | string (s : String)
  deriving DecidableEq, Repr

/-- The static type `T` of the `Derived<T>` that holds the value. -/
def Value.ty : Value → Ty
  | .int _ => .int
  | .double _ => .double
  | .string _ => .string

/-- Model of `class MyAny`: an owning pointer to a `Derived<T>`. -/
structure MyAny where
  ptr : Value
  deriving DecidableEq, Repr

/-- Model of `MyAny::get<T>`: `dynamic_cast<Derived<T>*>(ptr.get())` followed by
`derived->value`.  The cast yields a null pointer when the stored type is not
`T`; the dereference is then undefined, which is the result `none`. -/
def MyAny.get (a : MyAny) (T : Ty) : Option Value :=
  if a.ptr.ty = T then some a.ptr else none

/-! ## Faults -/

/-- Ways in which a call into the scheduler fails to return normally. -/
inductive Fault where
  /-- an exception thrown by a task callable, propagated to the caller -/
  | thrown (what : String)
  /-- the `std::runtime_error` thrown by `executeAll` when `order.size() != tasks.size()` -/
  | cyclic
  /-- undefined behaviour: dereference of the null result of `dynamic_cast` in `MyAny::get` -/
  | nullDeref
  /-- undefined behaviour: `operator[]` with an index outside the vector -/
  | outOfRange
  /-- the recursion did not return within the fuel (unbounded recursion in the source) -/
  | diverged
  deriving DecidableEq, Repr

/-! ## Task records -/

/-- A captured argument: a concrete value, or a `FutureResult<TResult>` with
its `task_id` (the `scheduler` pointer is the scheduler itself). -/
inductive Arg where
  | value (v : Value)
  | future (task_id : Nat) (TResult : Ty)

/-- Model of `TaskBase::collect_dependency`: push the task id of a placeholder. -/
def collect_dependency (dependencies : List Nat) : Arg → List Nat
  | .value _ => dependencies
  | .future task_id _ => dependencies ++ [task_id]

/-- The three task classes with their callable and captured arguments.  Only a
zero-argument callable may return `void` (`.ok none`). -/
inductive Body where
  | zero_args (func : Unit → Except String (Option Value))
  | one_args (func : Value → Except String Value) (arg1 : Arg)
  | two_args (func : Value → Value → Except String Value) (arg1 arg2 : Arg)

/-- Model of `TaskBase` with the derived class in `body`. -/
structure Task where
  body : Body
  result : MyAny
  completed : Bool

/-- Model of `TaskBase::getDependencies`: the vector filled by the constructor of the
task class and never written afterwards. -/
def Task.getDependencies (t : Task) : List Nat :=
  match t.body with
  | .zero_args _ => []
  | .one_args _ arg1 => collect_dependency [] arg1
  | .two_args _ arg1 arg2 => collect_dependency (collect_dependency [] arg1) arg2

/-- A freshly constructed task: `MyAny result = 0; bool completed = false;`. -/
def Task.fresh (b : Body) : Task :=
  { body := b, result := ⟨.int 0⟩, completed := false }

/-- One invocation of a task callable: which task, and what the call produced. -/
structure Call where
  id : Nat
  outcome : Except String (Option Value)

/-- Model of `class TTaskScheduler`: the vector of tasks, and the ghost log of callable
invocations in the order they happened. -/
structure TTaskScheduler where
  tasks : List Task
  log : List Call

/-- A scheduler right after construction. -/
def TTaskScheduler.empty : TTaskScheduler := { tasks := [], log := [] }

/-! ## Kahn's algorithm as written in `executeAll` -/

/-- Body of the inner loop of the graph construction:
`adj[dep].push_back(i); in_degree[i]++;`. -/
def addEdge (i : Nat) (st : List (List Nat) × List Int) (dep : Nat) :
    Except Fault (List (List Nat) × List Int) :=
  match st.1[dep]?, st.2[i]? with
  | some row, some d => .ok (st.1.set dep (row ++ [i]), st.2.set i (d + 1))
  | _, _ => .error .outOfRange

/-- Run `for (int dep : tasks[i]->getDependencies())` for one `i`. -/
def addEdges (i : Nat) (deps : List Nat) (st : List (List Nat) × List Int) :
    Except Fault (List (List Nat) × List Int) :=
  match deps with
  | [] => .ok st
  | dep :: rest =>
    match addEdge i st dep with
    | .error e => .error e
    | .ok st1 => addEdges i rest st1

/-- Run the outer loop `for (int i = 0; i < tasks.size(); ++i)` from index `i`
over the remaining tasks. -/
def buildFrom (i : Nat) (ts : List Task) (st : List (List Nat) × List Int) :
    Except Fault (List (List Nat) × List Int) :=
  match ts with
  | [] => .ok st
  | t :: rest =>
    match addEdges i t.getDependencies st with
    | .error e => .error e
    | .ok st1 => buildFrom (i + 1) rest st1

/-- Lines 181-189: `adj` and `in_degree` after the construction loops. -/
def buildGraph (ts : List Task) : Except Fault (List (List Nat) × List Int) :=
  buildFrom 0 ts (List.replicate ts.length [], List.replicate ts.length 0)

/-- Lines 190-193: the queue seeded with the ids of in-degree zero, ascending. -/
def seedQueue (in_degree : List Int) : List Nat :=
  (List.range in_degree.length).filter (fun i => in_degree[i]? = some 0)

/-- Body of the inner loop of the main loop: `if (--in_degree[v] == 0) q.push(v);`. -/
def relax (st : List Int × List Nat) (v : Nat) : Except Fault (List Int × List Nat) :=
  match st.1[v]? with
  | none => .error .outOfRange
  | some d => .ok (st.1.set v (d - 1), if d - 1 = 0 then st.2 ++ [v] else st.2)

/-- Run `for (int v : adj[u])`. -/
def relaxAll (vs : List Nat) (st : List Int × List Nat) : Except Fault (List Int × List Nat) :=
  match vs with
  | [] => .ok st
  | v :: rest =>
    match relax st v with
    | .error e => .error e
    | .ok st1 => relaxAll rest st1

/-- Lines 194-201: `while (!q.empty())`, at most `fuel` iterations. -/
def kahnLoop (fuel : Nat) (adj : List (List Nat)) (in_degree : List Int) (q order : List Nat) :
    Except Fault (List Nat) :=
  match q with
  | [] => .ok order
  | u :: q1 =>
    match fuel with
    | 0 => .error .diverged
    | fuel + 1 =>
      match adj[u]? with
      | none => .error .outOfRange
      | some vs =>
        match relaxAll vs (in_degree, q1) with
        | .error e => .error e
        | .ok (in_degree1, q2) => kahnLoop fuel adj in_degree1 q2 (order ++ [u])

/-- Lines 180-201 of `executeAll`: the vector `order`.  The main loop is given
`tasks.size()` iterations, which `kahnOrder_total` shows to be enough. -/
def kahnOrder (ts : List Task) : Except Fault (List Nat) :=
  match buildGraph ts with
  | .error e => .error e
  | .ok (adj, in_degree) => kahnLoop ts.length adj in_degree (seedQueue in_degree) []

/-! ## Executing a task -/

/-- The assignments that end every `execute`: `result = ...` (skipped by a
`void` callable) and `completed = true`. -/
def Task.complete (out : Option Value) (t : Task) : Task :=
  match out with
  | none => { t with completed := true }
  | some v => { t with result := ⟨v⟩, completed := true }

/-- The callable of task `id` has been invoked with outcome `r`: record the
call; if it threw, the exception leaves `execute` before any assignment,
otherwise the task stores the output and becomes completed. -/
def finish (s : TTaskScheduler) (id : Nat) (r : Except String (Option Value)) :
    Except Fault Unit × TTaskScheduler :=
  match r with
  | .error what => (.error (.thrown what), { s with log := s.log ++ [⟨id, r⟩] })
  | .ok out =>
    (.ok (), { tasks := s.tasks.modify (Task.complete out) id, log := s.log ++ [⟨id, r⟩] })

/-- Model of `TaskBase::resolve_argument`: a placeholder is resolved by
`FutureResult<TResult>::get`, that is `scheduler->getResult<TResult>(task_id)`
(passed in as `get`); any other argument is forwarded. -/
def resolve_argument (get : TTaskScheduler → Ty → Nat → Except Fault Value × TTaskScheduler)
    (s : TTaskScheduler) : Arg → Except Fault Value × TTaskScheduler
  | .value v => (.ok v, s)
  | .future task_id TResult => get s TResult task_id

/-- The virtual `execute()` of the task `t` stored at `id`, for the three task
classes.  The member-function branch of `Task_two_args` calls `(obj.*func)(param)`
on the same two resolved arguments. -/
def execute (get : TTaskScheduler → Ty → Nat → Except Fault Value × TTaskScheduler)
    (s : TTaskScheduler) (id : Nat) (t : Task) : Except Fault Unit × TTaskScheduler :=
  match t.body with
  | .zero_args func => finish s id (func ())
  | .one_args func arg1 =>
    match resolve_argument get s arg1 with
    | (.error e, s1) => (.error e, s1)
    | (.ok a1, s1) => finish s1 id ((func a1).map some)
  | .two_args func arg1 arg2 =>
    match resolve_argument get s arg1 with
    | (.error e, s1) => (.error e, s1)
    | (.ok a1, s1) =>
      match resolve_argument get s1 arg2 with
      | (.error e, s2) => (.error e, s2)
      | (.ok a2, s2) => finish s2 id ((func a1 a2).map some)

/-- Model of `TTaskScheduler::getResult<TResult>(task_id)`, with recursion depth at most `fuel`. -/
def getResult (fuel : Nat) (s : TTaskScheduler) (TResult : Ty) (task_id : Nat) :
    Except Fault Value × TTaskScheduler :=
  match fuel with
  | 0 => (.error .diverged, s)
  | fuel + 1 =>
    match s.tasks[task_id]? with
    | none => (.error .outOfRange, s)
    | some task =>
      match (if task.completed then (.ok (), s) else execute (getResult fuel) s task_id task) with
      | (.error e, s1) => (.error e, s1)
      | (.ok _, s1) =>
        match s1.tasks[task_id]? with
        | none => (.error .outOfRange, s1)
        | some task1 =>
          match task1.result.get TResult with
          | none => (.error .nullDeref, s1)
          | some v => (.ok v, s1)

/-- Model of `TTaskScheduler::getFutureResult<TResult>(task_id)`. -/
def getFutureResult (TResult : Ty) (task_id : Nat) : Arg :=
  .future task_id TResult

/-- Lines 205-209 of `executeAll`: `for (int id : order)`. -/
def runOrder (fuel : Nat) (order : List Nat) (s : TTaskScheduler) :
    Except Fault Unit × TTaskScheduler :=
  match order with
  | [] => (.ok (), s)
  | id :: rest =>
    match s.tasks[id]? with
    | none => (.error .outOfRange, s)
    | some t =>
      if t.completed then runOrder fuel rest s
      else
        match execute (getResult fuel) s id t with
        | (.error e, s1) => (.error e, s1)
        | (.ok _, s1) => runOrder fuel rest s1

/-- Model of `TTaskScheduler::executeAll`; `fuel` bounds the depth of the `getResult`
calls made while resolving placeholders. -/
def executeAll (fuel : Nat) (s : TTaskScheduler) : Except Fault Unit × TTaskScheduler :=
  match kahnOrder s.tasks with
  | .error e => (.error e, s)
  | .ok order =>
    if order.length ≠ s.tasks.length then (.error .cyclic, s)
    else runOrder fuel order s

/-! ## Registration -/

/-- Model of `tasks.emplace_back(std::move(task)); return tasks.size() - 1;`. -/
def emplace (s : TTaskScheduler) (b : Body) : Nat × TTaskScheduler :=
  let s1 : TTaskScheduler := { s with tasks := s.tasks ++ [Task.fresh b] }
  (s1.tasks.length - 1, s1)

/-- Model of `TTaskScheduler::add(func)`. -/
def add (s : TTaskScheduler) (func : Unit → Except String (Option Value)) :
    Nat × TTaskScheduler :=
  emplace s (.zero_args func)

/-- Model of `TTaskScheduler::add(func, arg1)`. -/
def add1 (s : TTaskScheduler) (func : Value → Except String Value) (arg1 : Arg) :
    Nat × TTaskScheduler :=
  emplace s (.one_args func arg1)

/-- Model of `TTaskScheduler::add(func, arg1, arg2)`. -/
def add2 (s : TTaskScheduler) (func : Value → Value → Except String Value) (arg1 arg2 : Arg) :
    Nat × TTaskScheduler :=
  emplace s (.two_args func arg1 arg2)

/-! ## Specification vocabulary -/

/-- Row `u` of the adjacency lists contributed by the tasks `ts` numbered from `i`. -/
def rowOf (u : Nat) : Nat → List Task → List Nat
  | _, [] => []
  | i, t :: rest => List.replicate (t.getDependencies.count u) i ++ rowOf u (i + 1) rest

/-- The dependency list of the task stored at `v` (empty when there is none). -/
def depsOf (ts : List Task) (v : Nat) : List Nat :=
  (ts[v]?.map Task.getDependencies).getD []

/-- Every dependency id refers to a registered task. -/
def InRange (ts : List Task) : Prop :=
  ∀ t ∈ ts, ∀ d ∈ t.getDependencies, d < ts.length

/-- The edge `a -> b` of the dependency graph: `a` is a dependency of `b`. -/
def Edge (ts : List Task) (a b : Nat) : Prop := a ∈ depsOf ts b

/-- The dependency graph has a directed cycle (a self-reference is one). -/
def HasCycle (ts : List Task) : Prop := ∃ v, Relation.TransGen (Edge ts) v v

/-- Number of dependencies of `v`, with multiplicity, that are not yet in `order`. -/
def remaining (ts : List Task) (order : List Nat) (v : Nat) : Nat :=
  (depsOf ts v).countP (fun d => decide (d ∉ order))

/-- What the construction loops establish about `adj` and `in_degree`. -/
structure GraphOk (ts : List Task) (adj : List (List Nat)) (in_degree : List Int) : Prop where
  adj_len : adj.length = ts.length
  deg_len : in_degree.length = ts.length
  adj_count : ∀ u, u < ts.length → ∀ v, (adj[u]?.getD []).count v = (depsOf ts v).count u
  deg_eq : ∀ v, v < ts.length → in_degree[v]? = some ((depsOf ts v).length : Int)

/-- Invariant of the main loop of Kahn's algorithm. -/
structure LoopInv (ts : List Task) (in_degree : List Int) (q order : List Nat) : Prop where
  len : in_degree.length = ts.length
  nodup : (order ++ q).Nodup
  lt : ∀ x ∈ order ++ q, x < ts.length
  deg : ∀ v, v < ts.length → in_degree[v]? = some (remaining ts order v : Int)
  ready : ∀ v, v < ts.length → (v ∈ order ++ q ↔ remaining ts order v = 0)
  topo : ∀ i x, order[i]? = some x → ∀ d ∈ depsOf ts x, d ∈ order.take i

/-- Invariant of the inner loop over `adj[u]`, after the prefix `done`. -/
structure InnerInv (ts : List Task) (order done : List Nat) (in_degree : List Int)
    (pushed : List Nat) : Prop where
  len : in_degree.length = ts.length
  deg : ∀ v, v < ts.length → in_degree[v]? = some ((remaining ts order v : Int) - done.count v)
  nodup : pushed.Nodup
  mem : ∀ v, v ∈ pushed ↔ v ∈ done ∧ remaining ts order v = done.count v

/-- What the vector `order` satisfies when the main loop ends. -/
structure OrderOk (ts : List Task) (order : List Nat) : Prop where
  nodup : order.Nodup
  lt : ∀ x ∈ order, x < ts.length
  ready : ∀ v, v < ts.length → (v ∈ order ↔ ∀ d ∈ depsOf ts v, d ∈ order)
  topo : ∀ i x, order[i]? = some x → ∀ d ∈ depsOf ts x, d ∈ order.take i

/-- The task stored at `id` exists and is completed. -/
def Done (s : TTaskScheduler) (id : Nat) : Prop :=
  ∃ t, s.tasks[id]? = some t ∧ t.completed = true

/-- The task stored at `id` exists and is not completed. -/
def Pending (s : TTaskScheduler) (id : Nat) : Prop :=
  ∃ t, s.tasks[id]? = some t ∧ t.completed = false

/-- One invocation of the callable of task `id`, as a transition of the scheduler:
the task was not completed and all its dependencies were; either the callable
returned and the task stored its output, or it threw and only the log grew. -/
inductive Step (id : Nat) : TTaskScheduler → TTaskScheduler → Prop where
  | returned (s : TTaskScheduler) (t : Task) (out : Option Value) :
      s.tasks[id]? = some t → t.completed = false →
      (∀ d ∈ t.getDependencies, Done s d) →
      Step id s { tasks := s.tasks.modify (Task.complete out) id,
                  log := s.log ++ [⟨id, .ok out⟩] }
  | threw (s : TTaskScheduler) (t : Task) (what : String) :
      s.tasks[id]? = some t → t.completed = false →
      (∀ d ∈ t.getDependencies, Done s d) →
      Step id s { tasks := s.tasks, log := s.log ++ [⟨id, .error what⟩] }

/-- A finite run of invocations, all of tasks satisfying `P`. -/
def StepsIn (P : Nat → Prop) : TTaskScheduler → TTaskScheduler → Prop :=
  Relation.ReflTransGen (fun a b => ∃ id, P id ∧ Step id a b)

/-- An edge between two not-completed tasks, from dependent to dependency. -/
def PEdge (s : TTaskScheduler) (a b : Nat) : Prop :=
  Pending s a ∧ b ∈ depsOf s.tasks a ∧ Pending s b

/-- The task `x` is not completed and is reached from the not-completed task `j`
through dependency edges between not-completed tasks. -/
def Reach (s : TTaskScheduler) (j x : Nat) : Prop :=
  Pending s j ∧ Relation.ReflTransGen (PEdge s) j x

/-- The callable returned normally in this call. -/
def Call.returned (c : Call) : Bool :=
  match c.outcome with
  | .ok _ => true
  | .error _ => false

/-- The calls logged after the first `n` entries. -/
def TTaskScheduler.callsSince (s1 : TTaskScheduler) (s : TTaskScheduler) : List Call :=
  s1.log.drop s.log.length

/-- The log of a run: it only grows, by one entry per transition. -/
structure LogOk (P : Nat → Prop) (s s1 : TTaskScheduler) : Prop where
  ext : s1.log = s.log ++ s1.callsSince s
  inP : ∀ c ∈ s1.callsSince s, P c.id
  pending : ∀ c ∈ s1.callsSince s, Pending s c.id
  done : ∀ c ∈ s1.callsSince s, c.returned = true → Done s1 c.id
  once : ∀ (i j : Nat) (c c' : Call), i < j → (s1.callsSince s)[i]? = some c →
    (s1.callsSince s)[j]? = some c' → c.returned = true → c'.id ≠ c.id

/-- A callable that throws ends the run: the exception is the result of the
run and the throwing call is the last one logged. -/
def FailedLast {α : Type} (s s1 : TTaskScheduler) (r : Except Fault α) : Prop :=
  ∀ c ∈ s1.callsSince s, ∀ e, c.outcome = .error e →
    r = .error (.thrown e) ∧ ∃ l, s1.log = l ++ [c]

/-- A run that ends in an exception: the last transition is the throwing
invocation of some task in `P`. -/
def ThrownBy (P : Nat → Prop) (s s1 : TTaskScheduler) (e : String) : Prop :=
  ∃ s' x, StepsIn P s s' ∧ P x ∧ Step x s' s1 ∧
    s1 = { tasks := s'.tasks, log := s'.log ++ [⟨x, .error e⟩] }

/-- What a call `getResult<T>(j)` from state `s` with result `r` and final state `s1` satisfies. -/
structure GetOk (s : TTaskScheduler) (T : Ty) (j : Nat) (r : Except Fault Value)
    (s1 : TTaskScheduler) : Prop where
  steps : StepsIn (Reach s j) s s1
  not_cyclic : r ≠ .error .cyclic
  value : ∀ v, r = .ok v →
    ∃ t1, s1.tasks[j]? = some t1 ∧ t1.completed = true ∧ t1.result.get T = some v
  last : ∀ v, r = .ok v → Pending s j → ∃ s', StepsIn (Reach s j) s s' ∧ Step j s' s1
  thrown : ∀ e, r = .error (.thrown e) → ThrownBy (Reach s j) s s1 e
  failed : FailedLast s s1 r

/-- What `execute()` of the not-completed task at `id` satisfies. -/
structure ExecOk (s : TTaskScheduler) (id : Nat) (r : Except Fault Unit)
    (s1 : TTaskScheduler) : Prop where
  steps : StepsIn (Reach s id) s s1
  not_cyclic : r ≠ .error .cyclic
  ok : r = .ok () → (∃ s', StepsIn (Reach s id) s s' ∧ Step id s' s1) ∧ Done s1 id
  thrown : ∀ e, r = .error (.thrown e) → ThrownBy (Reach s id) s s1 e
  failed : FailedLast s s1 r

/-- Every dependency of task `i` has an id smaller than `i`: every placeholder
referred to a task registered before. -/
def Backward (ts : List Task) : Prop :=
  ∀ i, i < ts.length → ∀ d ∈ depsOf ts i, d < i

instance (ts : List Task) : Decidable (Backward ts) := by
  unfold Backward; infer_instance

instance (ts : List Task) : Decidable (InRange ts) := by
  unfold InRange; infer_instance

/-- Register a task of any of the three classes through the matching `add` overload. -/
def register (s : TTaskScheduler) : Body → Nat × TTaskScheduler
  | .zero_args func => add s func
  | .one_args func arg1 => add1 s func arg1
  | .two_args func arg1 arg2 => add2 s func arg1 arg2

/-- Register a sequence of tasks, collecting the returned ids. -/
def registerAll (s : TTaskScheduler) : List Body → List Nat × TTaskScheduler
  | [] => ([], s)
  | b :: rest =>
    let r := register s b
    let rs := registerAll r.2 rest
    (r.1 :: rs.1, rs.2)

/-- The callable `[](int a, int b) { return a * b; }`. -/
def mulInt : Value → Value → Except String Value
  | .int a, .int b => .ok (.int (a * b))
  | a, _ => .ok a

/-- The callable `[](int a, int b) { return a + b; }`. -/
def addInt : Value → Value → Except String Value
  | .int a, .int b => .ok (.int (a + b))
  | a, _ => .ok a

/-- The scheduler of the test `MultipleDependencies`. -/
def multipleDependencies : TTaskScheduler :=
  let s0 := TTaskScheduler.empty
  let r1 := add s0 (fun _ => .ok (some (.int 1)))
  let r2 := add r1.2 (fun _ => .ok (some (.int 2)))
  let r3 := add2 r2.2 mulInt (getFutureResult .int r1.1) (getFutureResult .int r2.1)
  let r4 := add2 r3.2 addInt (getFutureResult .int r3.1) (getFutureResult .int r2.1)
  r4.2

/-- The scheduler of the test `CircularDependency`. -/
def circularDependency : TTaskScheduler :=
  let s0 := TTaskScheduler.empty
  let r1 := add1 s0 (fun a => .ok a) (getFutureResult .int 1)
  let r2 := add1 r1.2 (fun a => .ok a) (getFutureResult .int 0)
  r2.2

/-- The scheduler of the test `TaskWithNoDependencies`. -/
def taskWithNoDependencies : TTaskScheduler :=
  (add TTaskScheduler.empty (fun _ => .ok (some (.int 42)))).2

/-- What holds when the loop over `order` ends with the exception `e` raised at position `k`. -/
structure FailedAt (s0 s1 : TTaskScheduler) (order : List Nat) (e : String) (k id : Nat)
    (t : Task) : Prop where
  pos : order[k]? = some id
  task0 : s0.tasks[id]? = some t
  pending0 : t.completed = false
  last_call : ∃ l, s1.log = l ++ [⟨id, .error e⟩]
  steps : StepsIn (fun x => x ∈ order.take (k + 1)) s0 s1
  earlier : ∀ x ∈ order.take k, Done s1 x
  others : ∀ x, x ∉ order.take k → s1.tasks[x]? = s0.tasks[x]?

/-- A scheduler with a completed task, a throwing task and a task after it. -/
def failingBatch : TTaskScheduler :=
  let s0 := TTaskScheduler.empty
  let r1 := add s0 (fun _ => .ok (some (.int 1)))
  let r2 := add1 r1.2 (fun _ => .error "Error") (getFutureResult .int r1.1)
  let r3 := add1 r2.2 (fun a => .ok a) (getFutureResult .int r2.1)
  r3.2

/-- The static type of an argument slot: the type of a concrete value, or the
`TResult` of a placeholder. -/
def Arg.ty : Arg → Ty
  | .value v => v.ty
  | .future _ TResult => TResult

/-- The value an argument stands for in state `s`: a concrete value as it is, a
placeholder replaced by the stored output of its target task. -/
def Arg.valueIn (s : TTaskScheduler) : Arg → Option Value
  | .value v => some v
  | .future task_id _ => s.tasks[task_id]?.map (fun t => t.result.ptr)

/-- The stored output of `t` is its callable applied to its arguments as they
stand in `s` (a `void` callable leaves the initial `MyAny result = 0`). -/
def Task.outputOk (s : TTaskScheduler) (t : Task) : Prop :=
  match t.body with
  | .zero_args func =>
    func () = .ok (some t.result.ptr) ∨ (func () = .ok none ∧ t.result = ⟨.int 0⟩)
  | .one_args func arg1 =>
    ∃ v1, arg1.valueIn s = some v1 ∧ func v1 = .ok t.result.ptr
  | .two_args func arg1 arg2 =>
    ∃ v1 v2, arg1.valueIn s = some v1 ∧ arg2.valueIn s = some v2 ∧
      func v1 v2 = .ok t.result.ptr

/-- A freshly built scheduler: no task has run. -/
def Fresh (s : TTaskScheduler) : Prop :=
  ∀ t ∈ s.tasks, t.completed = false ∧ t.result = ⟨.int 0⟩

/-- A placeholder expects the type `τ` assigns to its target. -/
def Arg.typed (τ : Nat → Ty) : Arg → Prop
  | .value _ => True
  | .future task_id TResult => TResult = τ task_id

/-- Correctly typed placeholders: with `τ i` the type of what task `i` stores,
every placeholder expects the type of its target. -/
def PlaceholdersTyped (τ : Nat → Ty) (ts : List Task) : Prop :=
  ∀ t ∈ ts,
    match t.body with
    | .zero_args _ => True
    | .one_args _ arg1 => arg1.typed τ
    | .two_args _ arg1 arg2 => arg1.typed τ ∧ arg2.typed τ

/-- Callables that do not fail: applied to arguments of the static types of its
argument slots, the callable of task `i` returns a value of type `τ i` (a `void`
callable returns, and the box keeps the initial `int`). -/
def CallablesTotal (τ : Nat → Ty) (ts : List Task) : Prop :=
  ∀ (i : Nat) (t : Task), ts[i]? = some t →
    match t.body with
    | .zero_args func =>
      (∃ v, func () = .ok (some v) ∧ v.ty = τ i) ∨ (func () = .ok none ∧ τ i = .int)
    | .one_args func arg1 =>
      ∀ v1, v1.ty = arg1.ty → ∃ v, func v1 = .ok v ∧ v.ty = τ i
    | .two_args func arg1 arg2 =>
      ∀ v1 v2, v1.ty = arg1.ty → v2.ty = arg2.ty → ∃ v, func v1 v2 = .ok v ∧ v.ty = τ i

/-- Invariant of the execution loop on a fresh scheduler: the tasks in `pre`
have run and hold outputs of the expected type and value. -/
structure RanOk (τ : Nat → Ty) (s0 s : TTaskScheduler) (pre : List Nat) : Prop where
  steps : StepsIn (fun x => x ∈ pre) s0 s
  ran : ∀ x ∈ pre, ∃ t, s.tasks[x]? = some t ∧ t.completed = true ∧
    t.result.ptr.ty = τ x ∧ t.outputOk s

instance (s : TTaskScheduler) : Decidable (Fresh s) := by
  unfold Fresh; infer_instance

/-- The callable `[](double a, double b) { return a * b; }` (other argument
types do not arise for it). -/
def mulDouble : Value → Value → Except String Value
  | .double a, .double b => .ok (.double (a * b))
  | a, _ => .ok a

/-- The callable `[](double a) { return a + 1.0; }`. -/
def succDouble : Value → Except String Value
  | .double a => .ok (.double (a + 1))
  | a => .ok a

/-- The scheduler of the test `ComplexOperations`. -/
def complexOperations : TTaskScheduler :=
  let s0 := TTaskScheduler.empty
  let r1 := add s0 (fun _ => .ok (some (.double 3)))
  let r2 := add r1.2 (fun _ => .ok (some (.double 4)))
  let r3 := add2 r2.2 mulDouble (getFutureResult .double r1.1) (getFutureResult .double r2.1)
  let r4 := add1 r3.2 succDouble (getFutureResult .double r3.1)
  r4.2

/-- A task registered with a placeholder for its own future output:
`add([](int a) { return a; }, getFutureResult<int>(0))` on an empty scheduler. -/
def selfReference : TTaskScheduler :=
  (add1 TTaskScheduler.empty (fun a => .ok a) (getFutureResult .int 0)).2

/-- Two tasks that both take the future output of task 0 twice over
(duplicate dependency ids), registered after it. -/
def duplicateDependency : TTaskScheduler :=
  let s0 := TTaskScheduler.empty
  let r1 := add s0 (fun _ => .ok (some (.int 2)))
  let r2 := add2 r1.2 addInt (getFutureResult .int r1.1) (getFutureResult .int r1.1)
  let r3 := add2 r2.2 mulInt (getFutureResult .int r2.1) (getFutureResult .int r2.1)
  r3.2

/-- The states a user can bring a scheduler into: construction, registration
through `add`, and `getResult` and `executeAll` calls, whatever their outcome. -/
inductive Reachable : TTaskScheduler → Prop where
  | empty : Reachable TTaskScheduler.empty
  | add (s : TTaskScheduler) (b : Body) : Reachable s → Reachable (register s b).2
  | getResult (s : TTaskScheduler) (fuel : Nat) (TResult : Ty) (task_id : Nat) :
      Reachable s → Reachable (getResult fuel s TResult task_id).2
  | executeAll (s : TTaskScheduler) (fuel : Nat) :
      Reachable s → Reachable (executeAll fuel s).2

/-- The completed tasks are closed under dependencies. -/
def DepsClosed (s : TTaskScheduler) : Prop :=
  ∀ (i : Nat) (t : Task), s.tasks[i]? = some t → t.completed = true →
    ∀ d ∈ t.getDependencies, Done s d

/-- The vectors `in_degree` that occur during `for (int v : adj[u])`, one after
each `--in_degree[v]`. -/
def relaxAllStates (vs : List Nat) (st : List Int × List Nat) : List (List Int) :=
  match vs with
  | [] => []
  | v :: rest =>
    match relax st v with
    | .error _ => []
    | .ok st1 => st1.1 :: relaxAllStates rest st1

/-- The vectors `in_degree` that occur during the main loop of `executeAll`,
in the order they occur. -/
def kahnLoopStates (fuel : Nat) (adj : List (List Nat)) (in_degree : List Int) (q : List Nat) :
    List (List Int) :=
  match q with
  | [] => []
  | u :: q1 =>
    match fuel with
    | 0 => []
    | fuel + 1 =>
      match adj[u]? with
      | none => []
      | some vs =>
        match relaxAll vs (in_degree, q1) with
        | .error _ => relaxAllStates vs (in_degree, q1)
        | .ok (in_degree1, q2) =>
          relaxAllStates vs (in_degree, q1) ++ kahnLoopStates fuel adj in_degree1 q2

/-- Every value the vector `in_degree` takes from the end of the construction
loops to the end of the main loop of `executeAll`. -/
def inDegreeStates (ts : List Task) : List (List Int) :=
  match buildGraph ts with
  | .error _ => []
  | .ok (adj, in_degree) =>
    in_degree :: kahnLoopStates ts.length adj in_degree (seedQueue in_degree)

/-- The ids of the tasks without dependencies, ascending. -/
def noDependencies (ts : List Task) : List Nat :=
  (List.range ts.length).filter (fun v => decide (depsOf ts v = []))

/-- The ids, ascending, of the tasks that have `u` among their dependencies and
all their dependencies among `processed`. -/
def readyWith (ts : List Task) (processed : List Nat) (u : Nat) : List Nat :=
  (List.range ts.length).filter
    (fun v => decide (u ∈ depsOf ts v ∧ ∀ d ∈ depsOf ts v, d ∈ processed))

/-- The tasks that become ready when the task at position `k` of `order` is
dequeued: those that depend on it and have all their dependencies among the
first `k + 1` entries of `order`; ascending. -/
def readyAfter (ts : List Task) (order : List Nat) (k : Nat) : List Nat :=
  match order[k]? with
  | none => []
  | some u => readyWith ts (order.take (k + 1)) u

/-- The state `s1` holds, for every task of the fresh scheduler `s`, a completed
record with the same callable and arguments whose output has type `τ` and is
the callable applied to the arguments as they stand in `s1`. -/
structure AllRan (τ : Nat → Ty) (s s1 : TTaskScheduler) : Prop where
  len : s1.tasks.length = s.tasks.length
  ran : ∀ (j : Nat) (t : Task), s.tasks[j]? = some t →
    ∃ t1, s1.tasks[j]? = some t1 ∧ t1.body = t.body ∧ t1.completed = true ∧
      t1.result.ptr.ty = τ j ∧ t1.outputOk s1

/-- A state between the fresh scheduler `s` and the fully executed `s1`: every
record is either still the one of `s` or already the one of `s1`. -/
structure Between (s s1 s' : TTaskScheduler) : Prop where
  len : s'.tasks.length = s.tasks.length
  done : ∀ (i : Nat) (t' : Task), s'.tasks[i]? = some t' → t'.completed = true →
    s1.tasks[i]? = some t'
  pending : ∀ (i : Nat) (t' : Task), s'.tasks[i]? = some t' → t'.completed = false →
    s.tasks[i]? = some t'

/-- What a stored record gives to `getResult<T>`: the value, or the null dereference. -/
def MyAny.fetch (a : MyAny) (T : Ty) : Except Fault Value :=
  match a.get T with
  | none => .error .nullDeref
  | some v => .ok v

/-- The outcome `c` is what the callable of `t` produces on some arguments. -/
def Task.produces (t : Task) (c : Except String (Option Value)) : Prop :=
  match t.body with
  | .zero_args func => c = func ()
  | .one_args func _ => ∃ v1, c = (func v1).map some
  | .two_args func _ _ => ∃ v1 v2, c = (func v1 v2).map some

/-- One invocation of a callable with its effect on the scheduler: the task at
`id` is not completed, its callable produces `c`, and the state changes as
the end of `execute` prescribes. -/
def Invoke (s s1 : TTaskScheduler) : Prop :=
  ∃ (id : Nat) (t : Task) (c : Except String (Option Value)),
    s.tasks[id]? = some t ∧ t.completed = false ∧ t.produces c ∧ s1 = (finish s id c).2

/-- The scheduler of the test `VoidTask`: one task whose callable returns `void`. -/
def voidTask : TTaskScheduler :=
  (add TTaskScheduler.empty (fun _ => .ok none)).2

/-- The task at `id`, with record `t` in the state `s`, is either untouched or
completed with the same output after a call of its callable that returned
`void` has been logged. -/
def VoidRan (s : TTaskScheduler) (id : Nat) (t : Task) (s1 : TTaskScheduler) : Prop :=
  ∃ calls, s1.log = s.log ++ calls ∧
    (s1.tasks[id]? = some t ∨
      (s1.tasks[id]? = some { t with completed := true } ∧
        ∃ c ∈ calls, c.id = id ∧ c.outcome = .ok none))

theorem addEdges_ok (n i : Nat) (hi : i < n) (deps : List Nat) :
    ∀ (st : List (List Nat) × List Int), st.1.length = n → st.2.length = n →
      (∀ d ∈ deps, d < n) →
      ∃ st1, addEdges i deps st = .ok st1 ∧ st1.1.length = n ∧ st1.2.length = n ∧
        (∀ u, u < n → st1.1[u]?.getD [] = st.1[u]?.getD [] ++ List.replicate (deps.count u) i) ∧
        (∀ v, v < n → st1.2[v]?.getD 0 = st.2[v]?.getD 0 + if v = i then (deps.length : Int) else 0) := by
  induction deps with
  | nil =>
    intro st h1 h2 _
    exact ⟨st, rfl, h1, h2, by simp, by simp⟩
  | cons d rest ih =>
    intro st h1 h2 hd
    have hdn : d < n := hd d (List.mem_cons_self _ _)
    obtain ⟨row, hrow⟩ : ∃ row, st.1[d]? = some row :=
      ⟨st.1[d], List.getElem?_eq_getElem (by omega)⟩
    obtain ⟨c, hc⟩ : ∃ c, st.2[i]? = some c :=
      ⟨st.2[i], List.getElem?_eq_getElem (by omega)⟩
    have hstep : addEdge i st d = .ok (st.1.set d (row ++ [i]), st.2.set i (c + 1)) := by
      simp [addEdge, hrow, hc]
    obtain ⟨st1, e1, l1, l2, hadj, hdeg⟩ :=
      ih (st.1.set d (row ++ [i]), st.2.set i (c + 1)) (by simp [h1]) (by simp [h2])
        (fun x hx => hd x (List.mem_cons_of_mem _ hx))
    refine ⟨st1, by simp [addEdges, hstep, e1], l1, l2, ?_, ?_⟩
    · intro u hu
      rw [hadj u hu]
      by_cases hud : d = u
      · subst hud
        simp only [List.getElem?_set, h1, hdn, hrow, if_true, Option.getD_some, List.count_cons_self,
          List.append_assoc, List.replicate_succ', List.singleton_append]
        rw [← List.replicate_succ, List.replicate_succ']
      · have : (d == u) = false := by simpa using hud
        simp [List.getElem?_set, hud, List.count_cons, this]
    · intro v hv
      rw [hdeg v hv]
      by_cases hvi : i = v
      · subst hvi
        simp [List.getElem?_set, h2, hi, hc]
        ring
      · have : ¬ v = i := fun h => hvi h.symm
        simp [List.getElem?_set, hvi, this]

theorem buildFrom_ok (n : Nat) (ts : List Task) :
    ∀ (i : Nat) (st : List (List Nat) × List Int), st.1.length = n → st.2.length = n →
      i + ts.length ≤ n → (∀ t ∈ ts, ∀ d ∈ t.getDependencies, d < n) →
      ∃ st1, buildFrom i ts st = .ok st1 ∧ st1.1.length = n ∧ st1.2.length = n ∧
        (∀ u, u < n → st1.1[u]?.getD [] = st.1[u]?.getD [] ++ rowOf u i ts) ∧
        (∀ v, v < n → st1.2[v]?.getD 0 = st.2[v]?.getD 0 +
          ((ts[v - i]?.map (fun t => (t.getDependencies.length : Int))).getD 0) * (if i ≤ v then 1 else 0)) := by
  induction ts with
  | nil =>
    intro i st h1 h2 _ _
    exact ⟨st, rfl, h1, h2, by simp [rowOf], by simp⟩
  | cons t rest ih =>
    intro i st h1 h2 hlen hd
    simp only [List.length_cons] at hlen
    obtain ⟨st1, e1, l1, l2, hadj1, hdeg1⟩ :=
      addEdges_ok n i (by omega) t.getDependencies st h1 h2 (hd t (List.mem_cons_self _ _))
    obtain ⟨st2, e2, m1, m2, hadj2, hdeg2⟩ :=
      ih (i + 1) st1 l1 l2 (by omega) (fun x hx => hd x (List.mem_cons_of_mem _ hx))
    refine ⟨st2, by simp [buildFrom, e1, e2], m1, m2, ?_, ?_⟩
    · intro u hu
      rw [hadj2 u hu, hadj1 u hu]
      simp [rowOf]
    · intro v hv
      rw [hdeg2 v hv, hdeg1 v hv]
      by_cases h1 : v = i
      · subst h1
        simp
      · by_cases h2 : i ≤ v
        · have h3 : i + 1 ≤ v := by omega
          obtain ⟨k, rfl⟩ : ∃ k, v = i + 1 + k := ⟨v - (i + 1), by omega⟩
          have e1 : i + 1 + k - (i + 1) = k := by omega
          have e2 : i + 1 + k - i = k + 1 := by omega
          simp [h1, h2, h3, e1, e2]
        · have h3 : ¬ i + 1 ≤ v := by omega
          simp [h1, h2, h3]

theorem count_rowOf (u v : Nat) (ts : List Task) :
    ∀ i, (rowOf u i ts).count v =
      if i ≤ v then ((ts[v - i]?.map (fun t => t.getDependencies.count u)).getD 0) else 0 := by
  induction ts with
  | nil => intro i; simp [rowOf]
  | cons t rest ih =>
    intro i
    simp only [rowOf, List.count_append, ih, List.count_replicate]
    by_cases h1 : v = i
    · subst h1; simp
    · by_cases h2 : i ≤ v
      · have h3 : i + 1 ≤ v := by omega
        obtain ⟨k, rfl⟩ : ∃ k, v = i + 1 + k := ⟨v - (i + 1), by omega⟩
        have e1 : i + 1 + k - (i + 1) = k := by omega
        have e2 : i + 1 + k - i = k + 1 := by omega
        have : (i == i + 1 + k) = false := by simp; omega
        simp [h2, h3, e1, e2, this]
      · have h3 : ¬ i + 1 ≤ v := by omega
        have : (i == v) = false := by simp; omega
        simp [h2, h3, this]

theorem mem_rowOf_lt (u v : Nat) (ts : List Task) :
    ∀ i, v ∈ rowOf u i ts → i ≤ v ∧ v < i + ts.length := by
  induction ts with
  | nil => intro i h; simp [rowOf] at h
  | cons t rest ih =>
    intro i h
    simp only [rowOf, List.mem_append] at h
    rcases h with h | h
    · have := List.eq_of_mem_replicate h
      simp; omega
    · have := ih (i + 1) h
      simp; omega

theorem depsOf_lt {ts : List Task} {v d : Nat} (h : d ∈ depsOf ts v) : v < ts.length := by
  by_contra hv
  have : ts[v]? = none := List.getElem?_eq_none (by omega)
  simp [depsOf, this] at h

theorem depsOf_inRange {ts : List Task} (hr : InRange ts) {v d : Nat} (h : d ∈ depsOf ts v) :
    d < ts.length := by
  have hv := depsOf_lt h
  have e : ts[v]? = some ts[v] := List.getElem?_eq_getElem hv
  simp only [depsOf, e, Option.map_some', Option.getD_some] at h
  exact hr _ (List.getElem_mem _) d h

theorem remaining_nil (ts : List Task) (v : Nat) : remaining ts [] v = (depsOf ts v).length := by
  simp [remaining]

theorem countP_snoc_aux (u : Nat) (order : List Nat) (hu : u ∉ order) (l : List Nat) :
    l.countP (fun d => decide (d ∉ order ++ [u])) + l.count u
      = l.countP (fun d => decide (d ∉ order)) := by
  induction l with
  | nil => simp
  | cons x rest ih =>
    by_cases hx : x = u
    · subst hx
      simp [List.countP_cons, hu] at ih ⊢
      omega
    · have h1 : (x == u) = false := by simpa using hx
      by_cases hxo : x ∈ order
      · simp [List.countP_cons, List.count_cons, hx, hxo, h1] at ih ⊢
        omega
      · simp [List.countP_cons, List.count_cons, hx, hxo, h1] at ih ⊢
        omega

theorem remaining_snoc (ts : List Task) (order : List Nat) (u v : Nat) (hu : u ∉ order) :
    remaining ts (order ++ [u]) v + (depsOf ts v).count u = remaining ts order v :=
  countP_snoc_aux u order hu _

theorem remaining_eq_zero {ts : List Task} {order : List Nat} {v : Nat} :
    remaining ts order v = 0 ↔ ∀ d ∈ depsOf ts v, d ∈ order := by
  simp [remaining, List.countP_eq_zero]

theorem buildGraph_ok (ts : List Task) (hr : InRange ts) :
    ∃ adj in_degree, buildGraph ts = .ok (adj, in_degree) ∧ GraphOk ts adj in_degree := by
  obtain ⟨st1, e, l1, l2, hadj, hdeg⟩ :=
    buildFrom_ok ts.length ts 0 (List.replicate ts.length [], List.replicate ts.length 0)
      (by simp) (by simp) (by simp) hr
  refine ⟨st1.1, st1.2, by simpa [buildGraph] using e, l1, l2, ?_, ?_⟩
  · intro u hu v
    rw [hadj u hu, List.count_append, count_rowOf]
    have : ((List.replicate ts.length ([] : List Nat))[u]?).getD [] = [] := by
      simp [List.getElem?_replicate, hu]
    simp only [this, List.count_nil, Nat.zero_add, Nat.zero_le, if_true, Nat.sub_zero, depsOf]
    cases ts[v]? <;> simp
  · intro v hv
    have h := hdeg v hv
    have e1 : st1.2[v]? = some st1.2[v] := List.getElem?_eq_getElem (by omega)
    have e2 : ts[v]? = some ts[v] := List.getElem?_eq_getElem hv
    rw [e1] at h ⊢
    simp [List.getElem?_replicate, hv, e2] at h
    simp [depsOf, e2, h]

theorem relaxAll_inv (ts : List Task) (order q1 vs : List Nat)
    (hlt : ∀ v ∈ vs, v < ts.length)
    (hcount : ∀ v, vs.count v ≤ remaining ts order v) :
    ∀ (rest done : List Nat) (in_degree : List Int) (pushed : List Nat),
      done ++ rest = vs → InnerInv ts order done in_degree pushed →
      ∃ in_degree1 pushed1, relaxAll rest (in_degree, q1 ++ pushed) = .ok (in_degree1, q1 ++ pushed1) ∧
        InnerInv ts order vs in_degree1 pushed1 := by
  intro rest
  induction rest with
  | nil =>
    intro done in_degree pushed hd hinv
    simp at hd
    subst hd
    exact ⟨in_degree, pushed, rfl, hinv⟩
  | cons v rest ih =>
    intro done in_degree pushed hd hinv
    have hv : v < ts.length := hlt v (by rw [← hd]; simp)
    have hdeg := hinv.deg v hv
    have hc1 : (done ++ [v]).count v = done.count v + 1 := by simp
    have hc2 : (done ++ [v]).count v ≤ vs.count v := by
      have e : vs.count v = (done ++ [v]).count v + rest.count v := by
        rw [← hd, show done ++ v :: rest = (done ++ [v]) ++ rest by simp]
        exact List.count_append _ _ _
      omega
    have hc3 := hcount v
    have hnp : v ∉ pushed := by
      intro h
      have := ((hinv.mem v).1 h).2
      omega
    have hstep : relax (in_degree, q1 ++ pushed) v =
        .ok (in_degree.set v ((remaining ts order v : Int) - done.count v - 1),
          q1 ++ (if remaining ts order v = done.count v + 1 then pushed ++ [v] else pushed)) := by
      simp only [relax, hdeg]
      by_cases hz : remaining ts order v = done.count v + 1
      · have : ((remaining ts order v : Int) - done.count v - 1 = 0) := by omega
        simp [hz, this]
      · have : ¬ ((remaining ts order v : Int) - done.count v - 1 = 0) := by omega
        simp [hz, this]
    have hinv1 : InnerInv ts order (done ++ [v])
        (in_degree.set v ((remaining ts order v : Int) - done.count v - 1))
        (if remaining ts order v = done.count v + 1 then pushed ++ [v] else pushed) := by
      refine ⟨by simp [hinv.len], ?_, ?_, ?_⟩
      · intro w hw
        by_cases hwv : v = w
        · subst hwv
          rw [hc1]
          simp [List.getElem?_set, hinv.len, hv]
          omega
        · have : (v == w) = false := by simpa using hwv
          have hwv2 : ¬ w = v := fun h => hwv h.symm
          simp [List.getElem?_set, hwv, hinv.deg w hw, List.count_append, List.count_cons, this]
      · split
        · exact List.Nodup.append hinv.nodup (List.nodup_singleton v) (by simpa using hnp)
        · exact hinv.nodup
      · intro w
        by_cases hwv : w = v
        · subst hwv
          rw [hc1]
          split
          · simp_all
          · simp only [List.mem_append, List.mem_singleton, or_true, true_and]
            constructor
            · intro h; exact absurd h hnp
            · intro h; omega
        · have : (v == w) = false := by simpa using (fun h : v = w => hwv h.symm)
          have hcw : (done ++ [v]).count w = done.count w := by
            simp [List.count_append, List.count_cons, this]
          rw [hcw]
          split
          · simp [hwv, hinv.mem w]
          · simp [hwv, hinv.mem w]
    obtain ⟨d1, p1, e1, i1⟩ := ih (done ++ [v]) _ _ (by simp [← hd]) hinv1
    exact ⟨d1, p1, by simp [relaxAll, hstep, e1], i1⟩

theorem loop_step (ts : List Task) (adj : List (List Nat)) (in_degree : List Int)
    (hg : ∀ u, u < ts.length → ∀ v, (adj[u]?.getD []).count v = (depsOf ts v).count u)
    (hlen : adj.length = ts.length)
    (u : Nat) (q1 order : List Nat) (hinv : LoopInv ts in_degree (u :: q1) order) :
    ∃ vs in_degree1 q2, adj[u]? = some vs ∧ relaxAll vs (in_degree, q1) = .ok (in_degree1, q2) ∧
      LoopInv ts in_degree1 q2 (order ++ [u]) := by
  have hu : u < ts.length := hinv.lt u (by simp)
  have huo : u ∉ order := by
    have := hinv.nodup
    rw [List.nodup_append] at this
    intro h
    exact this.2.2 h (List.mem_cons_self _ _)
  have hvs : adj[u]? = some adj[u] := List.getElem?_eq_getElem (by omega)
  have hcnt : ∀ v, (adj[u]).count v = (depsOf ts v).count u := by
    intro v
    have := hg u hu v
    rwa [hvs] at this
  have hlt : ∀ v ∈ adj[u], v < ts.length := by
    intro v hv
    have h1 : 0 < (adj[u]).count v := List.count_pos_iff.2 hv
    rw [hcnt v] at h1
    exact depsOf_lt (List.count_pos_iff.1 h1)
  have hcount : ∀ v, (adj[u]).count v ≤ remaining ts order v := by
    intro v
    have := remaining_snoc ts order u v huo
    rw [hcnt v]
    omega
  have h0 : InnerInv ts order [] in_degree [] :=
    ⟨hinv.len, by intro v hv; simpa using hinv.deg v hv, List.nodup_nil, by simp⟩
  obtain ⟨d1, p1, e1, i1⟩ := relaxAll_inv ts order q1 adj[u] hlt hcount adj[u] [] in_degree []
    (by simp) h0
  simp only [List.append_nil] at e1
  refine ⟨adj[u], d1, q1 ++ p1, hvs, e1, i1.len, ?_, ?_, ?_, ?_, ?_⟩
  · -- nodup
    have hn := hinv.nodup
    have e : order ++ [u] ++ (q1 ++ p1) = (order ++ u :: q1) ++ p1 := by simp
    rw [e]
    refine List.Nodup.append hn i1.nodup ?_
    intro x hx hxp
    have hxm := (i1.mem x).1 hxp
    have hxl := hlt x hxm.1
    have hz := (hinv.ready x hxl).1 hx
    have hpos : 0 < (adj[u]).count x := List.count_pos_iff.2 hxm.1
    omega
  · intro x hx
    have e : order ++ [u] ++ (q1 ++ p1) = (order ++ u :: q1) ++ p1 := by simp
    rw [e, List.mem_append] at hx
    rcases hx with hx | hx
    · exact hinv.lt x hx
    · exact hlt x ((i1.mem x).1 hx).1
  · intro v hv
    rw [i1.deg v hv]
    have := remaining_snoc ts order u v huo
    rw [hcnt v]
    congr 1
    omega
  · intro v hv
    have e : order ++ [u] ++ (q1 ++ p1) = (order ++ u :: q1) ++ p1 := by simp
    have hs := remaining_snoc ts order u v huo
    rw [e, List.mem_append, hinv.ready v hv, i1.mem v, hcnt v]
    constructor
    · rintro (h | ⟨_, h⟩) <;> omega
    · intro h
      by_cases hz : (depsOf ts v).count u = 0
      · left; omega
      · right
        refine ⟨?_, by omega⟩
        have : 0 < (adj[u]).count v := by rw [hcnt v]; omega
        exact List.count_pos_iff.1 this
  · intro i x hix d hd
    by_cases hi : i < order.length
    · have e1 : (order ++ [u])[i]? = order[i]? := List.getElem?_append_left hi
      rw [e1] at hix
      have := hinv.topo i x hix d hd
      rw [List.take_append_of_le_length (by omega)]
      exact this
    · have hle : order.length ≤ i := by omega
      have hlt2 : i < (order ++ [u]).length := by
        by_contra hc
        rw [List.getElem?_eq_none (by omega)] at hix
        exact Option.noConfusion hix
      simp at hlt2
      have hieq : i = order.length := by omega
      subst hieq
      simp at hix
      subst hix
      have hz := (hinv.ready u hu).1 (by simp)
      have := remaining_eq_zero.1 hz d hd
      simp [this]

theorem kahnLoop_inv (ts : List Task) (adj : List (List Nat))
    (hg : ∀ u, u < ts.length → ∀ v, (adj[u]?.getD []).count v = (depsOf ts v).count u)
    (hlen : adj.length = ts.length) :
    ∀ (fuel : Nat) (in_degree : List Int) (q order : List Nat),
      LoopInv ts in_degree q order → ts.length ≤ fuel + order.length →
      ∃ final in_degree1, kahnLoop fuel adj in_degree q order = .ok final ∧
        LoopInv ts in_degree1 [] final := by
  intro fuel
  induction fuel with
  | zero =>
    intro in_degree q order hinv hf
    cases q with
    | nil => exact ⟨order, in_degree, by simp [kahnLoop], hinv⟩
    | cons u q1 =>
      exfalso
      have h1 : (order ++ u :: q1).length ≤ ts.length := by
        have hsub : (order ++ u :: q1) ⊆ List.range ts.length := by
          intro x hx; exact List.mem_range.2 (hinv.lt x hx)
        have := (List.subperm_of_subset hinv.nodup hsub).length_le
        simpa using this
      simp at h1
      omega
  | succ fuel ih =>
    intro in_degree q order hinv hf
    cases q with
    | nil => exact ⟨order, in_degree, by simp [kahnLoop], hinv⟩
    | cons u q1 =>
      obtain ⟨vs, d1, q2, hvs, e1, i1⟩ := loop_step ts adj in_degree hg hlen u q1 order hinv
      obtain ⟨final, d2, e2, i2⟩ := ih d1 q2 (order ++ [u]) i1 (by simp; omega)
      exact ⟨final, d2, by simp [kahnLoop, hvs, e1, e2], i2⟩

theorem seedQueue_inv (ts : List Task) (adj : List (List Nat)) (in_degree : List Int)
    (hg : GraphOk ts adj in_degree) : LoopInv ts in_degree (seedQueue in_degree) [] := by
  refine ⟨hg.deg_len, ?_, ?_, ?_, ?_, ?_⟩
  · simpa [seedQueue] using List.Nodup.filter _ (List.nodup_range _)
  · intro x hx
    simp [seedQueue, List.mem_filter] at hx
    have := hx.1
    rw [hg.deg_len] at this
    exact this
  · intro v hv
    rw [hg.deg_eq v hv, remaining_nil]
  · intro v hv
    simp only [List.nil_append, seedQueue, List.mem_filter, List.mem_range, hg.deg_len, hv, true_and,
      hg.deg_eq v hv, remaining_nil]
    simp
  · intro i x h
    simp at h

theorem kahnOrder_ok (ts : List Task) (hr : InRange ts) :
    ∃ order, kahnOrder ts = .ok order ∧ OrderOk ts order := by
  obtain ⟨adj, in_degree, hb, hg⟩ := buildGraph_ok ts hr
  obtain ⟨final, d1, e, inv⟩ := kahnLoop_inv ts adj hg.adj_count hg.adj_len ts.length in_degree
    (seedQueue in_degree) [] (seedQueue_inv ts adj in_degree hg) (by simp)
  refine ⟨final, by simp [kahnOrder, hb, e], ?_, ?_, ?_, inv.topo⟩
  · simpa using inv.nodup
  · simpa using inv.lt
  · intro v hv
    have := inv.ready v hv
    rw [remaining_eq_zero] at this
    simpa using this

theorem OrderOk.length_le {ts : List Task} {order : List Nat} (h : OrderOk ts order) :
    order.length ≤ ts.length := by
  have hsub : order ⊆ List.range ts.length := fun x hx => List.mem_range.2 (h.lt x hx)
  simpa using (List.subperm_of_subset h.nodup hsub).length_le

theorem OrderOk.perm_of_length {ts : List Task} {order : List Nat} (h : OrderOk ts order)
    (hl : order.length = ts.length) : order.Perm (List.range ts.length) := by
  have hsub : order ⊆ List.range ts.length := fun x hx => List.mem_range.2 (h.lt x hx)
  exact (List.subperm_of_subset h.nodup hsub).perm_of_length_le (by simp [hl])

/-- In `order` every ancestor of a member sits at a strictly smaller index. -/
theorem OrderOk.transGen_index {ts : List Task} {order : List Nat} (h : OrderOk ts order)
    {a b : Nat} (hab : Relation.TransGen (Edge ts) a b) :
    ∀ j : Nat, order[j]? = some b → ∃ i : Nat, i < j ∧ order[i]? = some a := by
  induction hab with
  | single hab =>
    intro j hj
    have hm := h.topo j _ hj a hab
    obtain ⟨i, hi, e⟩ := List.getElem_of_mem hm
    have hi' : i < j ∧ i < order.length := by simpa using hi
    refine ⟨i, hi'.1, ?_⟩
    rw [List.getElem?_eq_getElem hi'.2]
    rw [List.getElem_take] at e
    exact congrArg some e
  | @tail b c _ hbc ih =>
    intro j hj
    have hm := h.topo j _ hj _ hbc
    obtain ⟨i, hi, e⟩ := List.getElem_of_mem hm
    have hi' : i < j ∧ i < order.length := by simpa using hi
    have e2 : order[i]? = some b := by
      rw [List.getElem?_eq_getElem hi'.2]
      rw [List.getElem_take] at e
      exact congrArg some e
    obtain ⟨i0, h0, e0⟩ := ih i e2
    exact ⟨i0, by omega, e0⟩

theorem OrderOk.not_mem_of_cycle {ts : List Task} {order : List Nat} (h : OrderOk ts order)
    {v : Nat} (hc : Relation.TransGen (Edge ts) v v) : v ∉ order := by
  intro hv
  obtain ⟨j, hj, e⟩ := List.getElem_of_mem hv
  have hstrict : ∀ k : Nat, ∀ j : Nat, j ≤ k → order[j]? = some v → False := by
    intro k
    induction k with
    | zero =>
      intro j hj0 hjv
      obtain ⟨i, hi, _⟩ := h.transGen_index hc j hjv
      omega
    | succ k ih =>
      intro j hjk hjv
      obtain ⟨i, hi, hiv⟩ := h.transGen_index hc j hjv
      exact ih i (by omega) hiv
  exact hstrict j j (le_refl _) (by rw [List.getElem?_eq_getElem hj, e])

theorem edge_target_lt {ts : List Task} {a b : Nat} (h : Edge ts a b) : b < ts.length :=
  depsOf_lt h

theorem transGen_target_lt {ts : List Task} {a b : Nat} (h : Relation.TransGen (Edge ts) a b) :
    b < ts.length := by
  cases h with
  | single h => exact edge_target_lt h
  | tail _ h => exact edge_target_lt h

/-- A vertex all of whose ancestors are in `order` is in `order`, when no cycle exists. -/
theorem OrderOk.mem_of_acyclic {ts : List Task} {order : List Nat} (h : OrderOk ts order)
    (hr : InRange ts) (hac : ¬ HasCycle ts) : ∀ v, v < ts.length → v ∈ order := by
  have hirr : ∀ v, ¬ Relation.TransGen (Edge ts) v v := fun v hv => hac ⟨v, hv⟩
  let r : Fin ts.length → Fin ts.length → Prop := fun a b => Relation.TransGen (Edge ts) a.1 b.1
  haveI : IsTrans (Fin ts.length) r := ⟨fun a b c hab hbc => Relation.TransGen.trans hab hbc⟩
  haveI : IsIrrefl (Fin ts.length) r := ⟨fun a => hirr a.1⟩
  have hwf : WellFounded r := Finite.wellFounded_of_trans_of_irrefl r
  have key : ∀ a : Fin ts.length, a.1 ∈ order := by
    intro a
    induction a using hwf.induction with
    | _ a ih =>
      rw [h.ready a.1 a.2]
      intro d hd
      exact ih ⟨d, depsOf_inRange hr hd⟩ (Relation.TransGen.single hd)
  intro v hv
  exact key ⟨v, hv⟩

theorem OrderOk.length_eq_iff {ts : List Task} {order : List Nat} (h : OrderOk ts order)
    (hr : InRange ts) : order.length = ts.length ↔ ¬ HasCycle ts := by
  constructor
  · intro hl hc
    obtain ⟨v, hv⟩ := hc
    have hp := h.perm_of_length hl
    have hvl := transGen_target_lt hv
    exact h.not_mem_of_cycle hv (hp.mem_iff.2 (List.mem_range.2 hvl))
  · intro hac
    have hsub : List.range ts.length ⊆ order := fun x hx =>
      h.mem_of_acyclic hr hac x (List.mem_range.1 hx)
    have := (List.subperm_of_subset (List.nodup_range _) hsub).length_le
    have h2 := h.length_le
    simp at this
    omega

theorem addEdges_error (i : Nat) (deps : List Nat) :
    ∀ (st : List (List Nat) × List Int) (e : Fault), addEdges i deps st = .error e →
      e = .outOfRange := by
  induction deps with
  | nil => intro st e h; simp [addEdges] at h
  | cons d rest ih =>
    intro st e h
    simp only [addEdges] at h
    cases h1 : addEdge i st d with
    | error e1 =>
      rw [h1] at h
      simp only [Except.error.injEq] at h
      subst h
      unfold addEdge at h1
      split at h1
      · exact Except.noConfusion h1
      · simpa using h1.symm
    | ok st1 =>
      rw [h1] at h
      exact ih st1 e h

theorem buildFrom_error (ts : List Task) :
    ∀ (i : Nat) (st : List (List Nat) × List Int) (e : Fault), buildFrom i ts st = .error e →
      e = .outOfRange := by
  induction ts with
  | nil => intro i st e h; simp [buildFrom] at h
  | cons t rest ih =>
    intro i st e h
    simp only [buildFrom] at h
    cases h1 : addEdges i t.getDependencies st with
    | error e1 =>
      rw [h1] at h
      simp only [Except.error.injEq] at h
      subst h
      exact addEdges_error i _ st _ h1
    | ok st1 =>
      rw [h1] at h
      exact ih (i + 1) st1 e h

theorem addEdges_inRange (i : Nat) (deps : List Nat) :
    ∀ (st st1 : List (List Nat) × List Int), addEdges i deps st = .ok st1 →
      st1.1.length = st.1.length ∧ ∀ d ∈ deps, d < st.1.length := by
  induction deps with
  | nil =>
    intro st st1 h
    simp only [addEdges, Except.ok.injEq] at h
    subst h
    exact ⟨rfl, by simp⟩
  | cons d rest ih =>
    intro st st1 h
    simp only [addEdges] at h
    cases h1 : addEdge i st d with
    | error e1 => rw [h1] at h; exact Except.noConfusion h
    | ok st2 =>
      rw [h1] at h
      obtain ⟨hl, hd⟩ := ih st2 st1 h
      unfold addEdge at h1
      split at h1
      · rename_i row c hrow hc
        simp only [Except.ok.injEq] at h1
        subst h1
        simp only [List.length_set] at hl hd
        have hdl : d < st.1.length := by
          by_contra hcon
          rw [List.getElem?_eq_none (by omega)] at hrow
          exact Option.noConfusion hrow
        refine ⟨hl, ?_⟩
        intro x hx
        rcases List.mem_cons.1 hx with rfl | hx
        · exact hdl
        · exact hd x hx
      · exact Except.noConfusion h1

theorem buildFrom_inRange (ts : List Task) :
    ∀ (i : Nat) (st st1 : List (List Nat) × List Int), buildFrom i ts st = .ok st1 →
      ∀ t ∈ ts, ∀ d ∈ t.getDependencies, d < st.1.length := by
  induction ts with
  | nil => intro i st st1 _ t ht; simp at ht
  | cons t rest ih =>
    intro i st st1 h
    simp only [buildFrom] at h
    cases h1 : addEdges i t.getDependencies st with
    | error e1 => rw [h1] at h; exact Except.noConfusion h
    | ok st2 =>
      rw [h1] at h
      obtain ⟨hl, hd⟩ := addEdges_inRange i _ st st2 h1
      have := ih (i + 1) st2 st1 h
      intro t' ht' d hdm
      rcases List.mem_cons.1 ht' with rfl | ht'
      · exact hd d hdm
      · rw [← hl]; exact this t' ht' d hdm

/-- The vector `order` is computed unless a dependency id is out of range, in
which case the construction loops index `adj` out of range; the main loop
always ends within `tasks.size()` iterations. -/
theorem kahnOrder_total (ts : List Task) :
    (InRange ts ∧ ∃ order, kahnOrder ts = .ok order) ∨
    (¬ InRange ts ∧ kahnOrder ts = .error .outOfRange) := by
  by_cases hr : InRange ts
  · obtain ⟨order, h, _⟩ := kahnOrder_ok ts hr
    exact Or.inl ⟨hr, order, h⟩
  · refine Or.inr ⟨hr, ?_⟩
    cases hb : buildGraph ts with
    | error e =>
      have : e = .outOfRange := buildFrom_error ts 0 _ e hb
      subst this
      simp [kahnOrder, hb]
    | ok st =>
      exfalso
      apply hr
      have := buildFrom_inRange ts 0 _ st hb
      simpa [InRange] using this

theorem not_done_of_pending {s : TTaskScheduler} {i : Nat} (hp : Pending s i) : ¬ Done s i := by
  rintro ⟨t, ht, hc⟩
  obtain ⟨t', ht', hc'⟩ := hp
  rw [ht] at ht'
  cases ht'
  rw [hc] at hc'
  exact Bool.noConfusion hc'

theorem Task.complete_body (out : Option Value) (t : Task) : (t.complete out).body = t.body := by
  cases out <;> rfl

theorem Task.complete_completed (out : Option Value) (t : Task) :
    (t.complete out).completed = true := by
  cases out <;> rfl

theorem getDependencies_congr {t t' : Task} (h : t'.body = t.body) :
    t'.getDependencies = t.getDependencies := by
  simp [Task.getDependencies, h]

theorem Step.tasks_ne {id : Nat} {s s' : TTaskScheduler} (h : Step id s s') {i : Nat}
    (hi : i ≠ id) : s'.tasks[i]? = s.tasks[i]? := by
  cases h with
  | returned t out h1 h2 h3 => simp [List.getElem?_modify, Ne.symm hi]
  | threw t what h1 h2 h3 => rfl

theorem Step.was_pending {id : Nat} {s s' : TTaskScheduler} (h : Step id s s') : Pending s id := by
  cases h with
  | returned t out h1 h2 h3 => exact ⟨t, h1, h2⟩
  | threw t what h1 h2 h3 => exact ⟨t, h1, h2⟩

theorem Step.deps_done {id : Nat} {s s' : TTaskScheduler} (h : Step id s s') {t : Task}
    (ht : s.tasks[id]? = some t) : ∀ d ∈ t.getDependencies, Done s d := by
  cases h with
  | returned t1 out h1 h2 h3 => rw [h1] at ht; cases ht; exact h3
  | threw t1 what h1 h2 h3 => rw [h1] at ht; cases ht; exact h3

/-- A transition keeps every task record, except that the invoked task may have
become completed; its callable and arguments stay. -/
theorem Step.task_after {id : Nat} {s s' : TTaskScheduler} (h : Step id s s') {i : Nat} {t : Task}
    (ht : s.tasks[i]? = some t) :
    ∃ t', s'.tasks[i]? = some t' ∧ t'.body = t.body ∧ (t.completed = true → t' = t) ∧
      (t' = t ∨ t'.completed = true) := by
  by_cases hi : i = id
  · subst hi
    cases h with
    | returned t1 out h1 h2 h3 =>
      rw [h1] at ht; cases ht
      refine ⟨t.complete out, by simp [List.getElem?_modify, h1], Task.complete_body _ _, ?_,
        Or.inr (Task.complete_completed _ _)⟩
      intro hc; rw [hc] at h2; exact Bool.noConfusion h2
    | threw t1 what h1 h2 h3 => exact ⟨t, ht, rfl, fun _ => rfl, Or.inl rfl⟩
  · exact ⟨t, by rw [h.tasks_ne hi]; exact ht, rfl, fun _ => rfl, Or.inl rfl⟩

theorem Step.length_eq {id : Nat} {s s' : TTaskScheduler} (h : Step id s s') :
    s'.tasks.length = s.tasks.length := by
  cases h with
  | returned t out h1 h2 h3 => simp
  | threw t what h1 h2 h3 => rfl

theorem StepsIn.task {P : Nat → Prop} {s s' : TTaskScheduler} (h : StepsIn P s s') :
    ∀ {i : Nat} {t : Task}, s.tasks[i]? = some t →
    ∃ t', s'.tasks[i]? = some t' ∧ t'.body = t.body ∧ (t.completed = true → t' = t) ∧
      (t' = t ∨ t'.completed = true) := by
  induction h with
  | refl => intro i t ht; exact ⟨t, ht, rfl, fun _ => rfl, Or.inl rfl⟩
  | tail _ hstep ih =>
    intro i t ht
    obtain ⟨t1, h1, hb1, hc1, hd1⟩ := ih ht
    obtain ⟨id, _, hs⟩ := hstep
    obtain ⟨t2, h2, hb2, hc2, hd2⟩ := hs.task_after h1
    refine ⟨t2, h2, hb2.trans hb1, ?_, ?_⟩
    · intro hc
      have e1 := hc1 hc
      subst e1
      exact hc2 hc
    · rcases hd2 with e | e
      · subst e
        exact hd1
      · exact Or.inr e

theorem StepsIn.tasks_length {P : Nat → Prop} {s s' : TTaskScheduler} (h : StepsIn P s s') :
    s'.tasks.length = s.tasks.length := by
  induction h with
  | refl => rfl
  | tail _ hstep ih =>
    obtain ⟨id, _, hs⟩ := hstep
    rw [hs.length_eq, ih]

theorem StepsIn.done {P : Nat → Prop} {s s' : TTaskScheduler} (h : StepsIn P s s') {i : Nat}
    (hd : Done s i) : Done s' i := by
  obtain ⟨t, ht, hc⟩ := hd
  obtain ⟨t', ht', _, he, _⟩ := h.task ht
  exact ⟨t', ht', by rw [he hc]; exact hc⟩

theorem StepsIn.tasks_none {P : Nat → Prop} {s s' : TTaskScheduler} (h : StepsIn P s s')
    {i : Nat} (hn : s'.tasks[i]? = some t') : ∃ t, s.tasks[i]? = some t := by
  have hl := h.tasks_length
  have : i < s'.tasks.length := by
    by_contra hc
    rw [List.getElem?_eq_none (by omega)] at hn
    exact Option.noConfusion hn
  exact ⟨s.tasks[i], List.getElem?_eq_getElem (by omega)⟩

theorem StepsIn.pending_before {P : Nat → Prop} {s s' : TTaskScheduler} (h : StepsIn P s s') {i : Nat}
    (hp : Pending s' i) : Pending s i := by
  obtain ⟨t', ht', hc'⟩ := hp
  obtain ⟨t, ht⟩ := h.tasks_none ht'
  obtain ⟨t2, ht2, _, he, _⟩ := h.task ht
  rw [ht'] at ht2
  cases ht2
  refine ⟨t, ht, ?_⟩
  cases hc : t.completed with
  | false => rfl
  | true => rw [he hc] at hc'; rw [hc] at hc'; exact Bool.noConfusion hc'

theorem StepsIn.depsOf {P : Nat → Prop} {s s' : TTaskScheduler} (h : StepsIn P s s') (i : Nat) :
    depsOf s'.tasks i = depsOf s.tasks i := by
  cases hi : s.tasks[i]? with
  | none =>
    have : s'.tasks[i]? = none := by
      have hl := h.tasks_length
      have : ¬ i < s.tasks.length := by
        intro hc
        rw [List.getElem?_eq_getElem hc] at hi
        exact Option.noConfusion hi
      exact List.getElem?_eq_none (by omega)
    simp [TaskScheduler.depsOf, hi, this]
  | some t =>
    obtain ⟨t', ht', hb, _, _⟩ := h.task hi
    simp [TaskScheduler.depsOf, hi, ht', getDependencies_congr hb]

theorem StepsIn.mono {P Q : Nat → Prop} (hPQ : ∀ x, P x → Q x) {s s' : TTaskScheduler}
    (h : StepsIn P s s') : StepsIn Q s s' := by
  induction h with
  | refl => exact Relation.ReflTransGen.refl
  | tail _ hstep ih =>
    obtain ⟨id, hp, hs⟩ := hstep
    exact Relation.ReflTransGen.tail ih ⟨id, hPQ id hp, hs⟩

theorem StepsIn.trans {P : Nat → Prop} {a b c : TTaskScheduler} (h1 : StepsIn P a b)
    (h2 : StepsIn P b c) : StepsIn P a c :=
  Relation.ReflTransGen.trans h1 h2

theorem StepsIn.single {P : Nat → Prop} {a b : TTaskScheduler} {id : Nat} (hp : P id)
    (h : Step id a b) : StepsIn P a b :=
  Relation.ReflTransGen.single ⟨id, hp, h⟩

/-- While a dependency `j` of the task at `id` stays not completed, the record at `id`
is not touched. -/
theorem StepsIn.keeps_dependent {P : Nat → Prop} {s s' : TTaskScheduler} (h : StepsIn P s s')
    {id j : Nat} {t : Task} (ht : s.tasks[id]? = some t) (hj : j ∈ t.getDependencies)
    (hp : Pending s' j) : s'.tasks[id]? = some t := by
  induction h with
  | refl => exact ht
  | @tail m s2 hsm hstep ih =>
    obtain ⟨x, _, hs⟩ := hstep
    have hpm : Pending m j := by
      have : StepsIn P m s2 := Relation.ReflTransGen.single ⟨x, ‹_›, hs⟩
      exact this.pending_before hp
    have hm := ih hpm
    by_cases hx : id = x
    · subst hx
      exact absurd (hs.deps_done hm j hj) (not_done_of_pending hpm)
    · rw [hs.tasks_ne hx]; exact hm

theorem Reach.target_pending {s : TTaskScheduler} {j x : Nat} (h : Reach s j x) : Pending s x := by
  obtain ⟨hp, hr⟩ := h
  cases hr with
  | refl => exact hp
  | tail _ he => exact he.2.2

theorem Reach.of_steps {P : Nat → Prop} {s s' : TTaskScheduler} (h : StepsIn P s s') {j x : Nat}
    (hr : Reach s' j x) : Reach s j x := by
  refine ⟨h.pending_before hr.1, ?_⟩
  refine Relation.ReflTransGen.mono ?_ hr.2
  intro a b hab
  exact ⟨h.pending_before hab.1, by rw [← h.depsOf a]; exact hab.2.1, h.pending_before hab.2.2⟩

theorem Reach.of_dep {s : TTaskScheduler} {id j x : Nat} {t : Task} (ht : s.tasks[id]? = some t)
    (hc : t.completed = false) (hj : j ∈ t.getDependencies) (hr : Reach s j x) : Reach s id x := by
  have hp : Pending s id := ⟨t, ht, hc⟩
  refine ⟨hp, Relation.ReflTransGen.head ⟨hp, ?_, hr.1⟩ hr.2⟩
  simp [TaskScheduler.depsOf, ht, hj]

theorem StepsIn.eq_of_forall_not {P : Nat → Prop} {s s' : TTaskScheduler} (h : StepsIn P s s')
    (hn : ∀ x, ¬ P x) : s' = s := by
  cases h with
  | refl => rfl
  | tail _ hstep =>
    obtain ⟨x, hp, _⟩ := hstep
    exact absurd hp (hn x)

theorem Step.log {id : Nat} {s s' : TTaskScheduler} (h : Step id s s') :
    ∃ c, s'.log = s.log ++ [c] ∧ c.id = id ∧ (c.returned = true → Done s' id) := by
  cases h with
  | returned t out h1 h2 h3 =>
    refine ⟨⟨id, .ok out⟩, rfl, rfl, fun _ => ⟨t.complete out, ?_, Task.complete_completed _ _⟩⟩
    simp [List.getElem?_modify, h1]
  | threw t what h1 h2 h3 =>
    exact ⟨⟨id, .error what⟩, rfl, rfl, fun h => by simp [Call.returned] at h⟩

theorem StepsIn.logOk {P : Nat → Prop} {s s1 : TTaskScheduler} (h : StepsIn P s s1) :
    LogOk P s s1 := by
  induction h with
  | refl =>
    refine ⟨by simp [TTaskScheduler.callsSince], ?_, ?_, ?_, ?_⟩ <;>
      simp [TTaskScheduler.callsSince]
  | @tail m s2 hsm hstep ih =>
    obtain ⟨x, hx, hs⟩ := hstep
    obtain ⟨c, hc, hcid, hcd⟩ := hs.log
    have hcalls : s2.callsSince s = m.callsSince s ++ [c] := by
      have e := ih.ext
      simp only [TTaskScheduler.callsSince] at e ⊢
      rw [hc, e]
      simp
    have hstep1 : StepsIn P m s2 := StepsIn.single hx hs
    refine ⟨?_, ?_, ?_, ?_, ?_⟩
    · rw [hcalls, hc, ih.ext]; simp
    · intro c' hc'
      rw [hcalls, List.mem_append] at hc'
      rcases hc' with h1 | h1
      · exact ih.inP c' h1
      · simp at h1; subst h1; rw [hcid]; exact hx
    · intro c' hc'
      rw [hcalls, List.mem_append] at hc'
      rcases hc' with h1 | h1
      · exact ih.pending c' h1
      · simp at h1; subst h1; rw [hcid]; exact StepsIn.pending_before hsm hs.was_pending
    · intro c' hc' hr
      rw [hcalls, List.mem_append] at hc'
      rcases hc' with h1 | h1
      · exact hstep1.done (ih.done c' h1 hr)
      · simp at h1; subst h1; rw [hcid]; exact hcd hr
    · intro i j c1 c2 hij h1 h2 hr
      rw [hcalls] at h1 h2
      have hj : j < (m.callsSince s ++ [c]).length := by
        by_contra hcon
        rw [List.getElem?_eq_none (by omega)] at h2
        exact Option.noConfusion h2
      simp at hj
      have hi : i < (m.callsSince s).length := by omega
      rw [List.getElem?_append_left hi] at h1
      by_cases hjl : j < (m.callsSince s).length
      · rw [List.getElem?_append_left hjl] at h2
        exact ih.once i j c1 c2 hij h1 h2 hr
      · have hje : j = (m.callsSince s).length := by omega
        subst hje
        simp at h2
        subst h2
        rw [hcid]
        intro heq
        have hd : Done m c1.id := ih.done c1 (List.getElem?_mem h1) hr
        rw [← heq] at hd
        exact not_done_of_pending hs.was_pending hd

theorem callsSince_trans {P Q : Nat → Prop} {s s1 s2 : TTaskScheduler} (h1 : StepsIn P s s1)
    (h2 : StepsIn Q s1 s2) : s2.callsSince s = s1.callsSince s ++ s2.callsSince s1 := by
  have e1 := h1.logOk.ext
  have e2 := h2.logOk.ext
  have : s2.log = s.log ++ (s1.callsSince s ++ s2.callsSince s1) := by
    rw [e2, e1]; simp
  conv_lhs => rw [TTaskScheduler.callsSince, this]
  simp

theorem FailedLast.refl {α : Type} (s : TTaskScheduler) (r : Except Fault α) :
    FailedLast s s r := by
  intro c hc
  simp [TTaskScheduler.callsSince] at hc

theorem FailedLast.after {α β : Type} {P Q : Nat → Prop} {s s1 s2 : TTaskScheduler} {a : α}
    {r : Except Fault β} (h1 : StepsIn P s s1) (h2 : StepsIn Q s1 s2)
    (f1 : FailedLast s s1 (Except.ok a : Except Fault α)) (f2 : FailedLast s1 s2 r) :
    FailedLast s s2 r := by
  intro c hc e he
  rw [callsSince_trans h1 h2, List.mem_append] at hc
  rcases hc with hc | hc
  · have := (f1 c hc e he).1
    exact Except.noConfusion this
  · exact f2 c hc e he

theorem FailedLast.error_congr {α β : Type} {s s1 : TTaskScheduler} {e : Fault}
    (f : FailedLast s s1 (Except.error e : Except Fault α)) :
    FailedLast s s1 (Except.error e : Except Fault β) := by
  intro c hc e' he'
  obtain ⟨h1, h2⟩ := f c hc e' he'
  refine ⟨?_, h2⟩
  have : e = .thrown e' := by simpa using h1
  rw [this]

theorem ThrownBy.weaken {P Q : Nat → Prop} (hPQ : ∀ x, P x → Q x) {s s1 : TTaskScheduler}
    {e : String} (h : ThrownBy P s s1 e) : ThrownBy Q s s1 e := by
  obtain ⟨s', x, h1, h2, h3, h4⟩ := h
  exact ⟨s', x, h1.mono hPQ, hPQ x h2, h3, h4⟩

theorem ThrownBy.prepend {P : Nat → Prop} {s s0 s1 : TTaskScheduler} {e : String}
    (h0 : StepsIn P s s0) (h : ThrownBy P s0 s1 e) : ThrownBy P s s1 e := by
  obtain ⟨s', x, h1, h2, h3, h4⟩ := h
  exact ⟨s', x, h0.trans h1, h2, h3, h4⟩

theorem reach_self {s : TTaskScheduler} {id : Nat} {t : Task} (ht : s.tasks[id]? = some t)
    (hc : t.completed = false) : Reach s id id :=
  ⟨⟨t, ht, hc⟩, Relation.ReflTransGen.refl⟩

theorem finish_ok (s0 s : TTaskScheduler) (id : Nat) (t : Task) (h0 : StepsIn (Reach s0 id) s0 s)
    (hr0 : Reach s0 id id) (hf0 : FailedLast s0 s (Except.ok () : Except Fault Unit))
    (ht : s.tasks[id]? = some t) (hc : t.completed = false)
    (hd : ∀ d ∈ t.getDependencies, Done s d) (c : Except String (Option Value))
    (r : Except Fault Unit) (s1 : TTaskScheduler) (h : finish s id c = (r, s1)) :
    ExecOk s0 id r s1 := by
  cases c with
  | error what =>
    simp only [finish, Prod.mk.injEq] at h
    obtain ⟨rfl, rfl⟩ := h
    have hs : Step id s { tasks := s.tasks, log := s.log ++ [⟨id, .error what⟩] } :=
      Step.threw s t what ht hc hd
    have hlast : FailedLast s ⟨s.tasks, s.log ++ [⟨id, .error what⟩]⟩
        (Except.error (.thrown what) : Except Fault Unit) := by
      intro c hc e he
      have hc' : c = ⟨id, .error what⟩ := by
        simpa [TTaskScheduler.callsSince] using hc
      subst hc'
      have : what = e := by simpa using he
      subst this
      exact ⟨rfl, s.log, rfl⟩
    refine ⟨h0.trans (StepsIn.single hr0 hs), by simp, by simp, ?_,
      FailedLast.after h0 (StepsIn.single hr0 hs) hf0 hlast⟩
    intro e he
    have : what = e := by simpa using he
    subst this
    exact ⟨s, id, h0, hr0, hs, rfl⟩
  | ok out =>
    simp only [finish, Prod.mk.injEq] at h
    obtain ⟨rfl, rfl⟩ := h
    have hs := Step.returned s t out ht hc hd
    have hlast : FailedLast s ⟨s.tasks.modify (Task.complete out) id, s.log ++ [⟨id, .ok out⟩]⟩
        (Except.ok () : Except Fault Unit) := by
      intro c hc e he
      have hc' : c = ⟨id, .ok out⟩ := by
        simpa [TTaskScheduler.callsSince] using hc
      subst hc'
      exact Except.noConfusion he
    refine ⟨h0.trans (StepsIn.single hr0 hs), by simp, ?_, by simp,
      FailedLast.after h0 (StepsIn.single hr0 hs) hf0 hlast⟩
    intro _
    refine ⟨⟨s, h0, hs⟩, t.complete out, ?_, Task.complete_completed _ _⟩
    simp [List.getElem?_modify, ht]

/-- Resolving one argument of the not-completed task `t` stored at `id`. -/
theorem resolve_ok (fuel : Nat)
    (ih : ∀ s T j r s1, getResult fuel s T j = (r, s1) → GetOk s T j r s1)
    (s : TTaskScheduler) (id : Nat) (t : Task) (ht : s.tasks[id]? = some t)
    (hc : t.completed = false) (a : Arg)
    (ha : ∀ j T, a = .future j T → j ∈ t.getDependencies)
    (r : Except Fault Value) (s1 : TTaskScheduler)
    (h : resolve_argument (getResult fuel) s a = (r, s1)) :
    StepsIn (Reach s id) s s1 ∧ r ≠ .error .cyclic ∧
      (∀ v, r = .ok v → s1.tasks[id]? = some t ∧ ∀ j T, a = .future j T → Done s1 j) ∧
      (∀ e, r = .error (.thrown e) → ThrownBy (Reach s id) s s1 e) ∧ FailedLast s s1 r := by
  cases a with
  | value v =>
    simp only [resolve_argument, Prod.mk.injEq] at h
    obtain ⟨rfl, rfl⟩ := h
    exact ⟨Relation.ReflTransGen.refl, by simp, fun _ _ => ⟨ht, by simp⟩, by simp,
      FailedLast.refl _ _⟩
  | future j T =>
    simp only [resolve_argument] at h
    have g := ih s T j r s1 h
    have hj : j ∈ t.getDependencies := ha j T rfl
    have hmono : ∀ x, Reach s j x → Reach s id x := fun x hx => Reach.of_dep ht hc hj hx
    refine ⟨g.steps.mono hmono, g.not_cyclic, ?_, fun e he => (g.thrown e he).weaken hmono,
      g.failed⟩
    intro v hv
    obtain ⟨t1, h1, h2, _⟩ := g.value v hv
    refine ⟨?_, ?_⟩
    · by_cases hp : Pending s j
      · obtain ⟨s', hs', hstep⟩ := g.last v hv hp
        have hk := hs'.keeps_dependent ht hj hstep.was_pending
        have hne : id ≠ j := by
          rintro rfl
          exact not_done_of_pending hstep.was_pending (hstep.deps_done hk id hj)
        rw [hstep.tasks_ne hne]
        exact hk
      · have : s1 = s := g.steps.eq_of_forall_not (fun x hx => hp hx.1)
        rw [this]; exact ht
    · intro j' T' e
      cases e
      exact ⟨t1, h1, h2⟩

theorem execute_ok (fuel : Nat)
    (ih : ∀ s T j r s1, getResult fuel s T j = (r, s1) → GetOk s T j r s1)
    (s : TTaskScheduler) (id : Nat) (t : Task) (ht : s.tasks[id]? = some t)
    (hc : t.completed = false) (r : Except Fault Unit) (s1 : TTaskScheduler)
    (h : execute (getResult fuel) s id t = (r, s1)) : ExecOk s id r s1 := by
  have hself := reach_self ht hc
  cases hb : t.body with
  | zero_args func =>
    simp only [execute, hb] at h
    exact finish_ok s s id t Relation.ReflTransGen.refl hself (FailedLast.refl _ _) ht hc
      (by simp [Task.getDependencies, hb]) _ r s1 h
  | one_args func arg1 =>
    simp only [execute, hb] at h
    cases h1 : resolve_argument (getResult fuel) s arg1 with
    | mk r1 sa =>
      obtain ⟨st1, nc1, ok1, th1, fl1⟩ := resolve_ok fuel ih s id t ht hc arg1
        (by intro j T e; subst e; simp [Task.getDependencies, hb, collect_dependency]) r1 sa h1
      rw [h1] at h
      cases r1 with
      | error e =>
        simp only [Prod.mk.injEq] at h
        obtain ⟨rfl, rfl⟩ := h
        refine ⟨st1, ?_, by simp, ?_, fl1.error_congr⟩
        · intro hcy; apply nc1; simpa using hcy
        · intro e' he'
          exact th1 e' (by simpa using he')
      | ok a1 =>
        simp only at h
        obtain ⟨hta, hda⟩ := ok1 a1 rfl
        have fl1' : FailedLast s sa (Except.ok () : Except Fault Unit) := fun c hc e he =>
          ⟨Except.noConfusion (fl1 c hc e he).1, (fl1 c hc e he).2⟩
        refine finish_ok s sa id t st1 hself fl1' hta hc ?_ _ r s1 h
        intro d hd
        cases arg1 with
        | value v => simp [Task.getDependencies, hb, collect_dependency] at hd
        | future j T =>
          simp [Task.getDependencies, hb, collect_dependency] at hd
          subst hd
          exact hda _ T rfl
  | two_args func arg1 arg2 =>
    simp only [execute, hb] at h
    cases h1 : resolve_argument (getResult fuel) s arg1 with
    | mk r1 sa =>
      obtain ⟨st1, nc1, ok1, th1, fl1⟩ := resolve_ok fuel ih s id t ht hc arg1
        (by intro j T e; subst e; cases arg2 <;> simp [Task.getDependencies, hb, collect_dependency])
        r1 sa h1
      rw [h1] at h
      cases r1 with
      | error e =>
        simp only [Prod.mk.injEq] at h
        obtain ⟨rfl, rfl⟩ := h
        refine ⟨st1, ?_, by simp, ?_, fl1.error_congr⟩
        · intro hcy; apply nc1; simpa using hcy
        · intro e' he'
          exact th1 e' (by simpa using he')
      | ok a1 =>
        simp only at h
        obtain ⟨hta, hda⟩ := ok1 a1 rfl
        cases h2 : resolve_argument (getResult fuel) sa arg2 with
        | mk r2 sb =>
          obtain ⟨st2, nc2, ok2, th2, fl2⟩ := resolve_ok fuel ih sa id t hta hc arg2
            (by intro j T e; subst e; cases arg1 <;> simp [Task.getDependencies, hb, collect_dependency])
            r2 sb h2
          have hmono : ∀ x, Reach sa id x → Reach s id x := fun x hx => Reach.of_steps st1 hx
          have st2' : StepsIn (Reach s id) sa sb := st2.mono hmono
          rw [h2] at h
          cases r2 with
          | error e =>
            simp only [Prod.mk.injEq] at h
            obtain ⟨rfl, rfl⟩ := h
            refine ⟨st1.trans st2', ?_, by simp, ?_, (FailedLast.after st1 st2 fl1 fl2).error_congr⟩
            · intro hcy; apply nc2; simpa using hcy
            · intro e' he'
              exact ((th2 e' (by simpa using he')).weaken hmono).prepend st1
          | ok a2 =>
            simp only at h
            obtain ⟨htb, hdb⟩ := ok2 a2 rfl
            have fl12 := FailedLast.after st1 st2 fl1 fl2
            have fl12' : FailedLast s sb (Except.ok () : Except Fault Unit) := fun c hc e he =>
              ⟨Except.noConfusion (fl12 c hc e he).1, (fl12 c hc e he).2⟩
            refine finish_ok s sb id t (st1.trans st2') hself fl12' htb hc ?_ _ r s1 h
            intro d hd
            have hd' : (∃ T, arg1 = .future d T) ∨ (∃ T, arg2 = .future d T) := by
              cases arg1 <;> cases arg2 <;>
                simp [Task.getDependencies, hb, collect_dependency] at hd ⊢
              · exact hd.symm
              · exact hd.symm
              · rcases hd with hd | hd
                · exact Or.inl hd.symm
                · exact Or.inr hd.symm
            rcases hd' with ⟨T, e⟩ | ⟨T, e⟩
            · exact st2.done (hda d T e)
            · exact hdb d T e

/-- Every call of `getResult` is a finite run of callable invocations of tasks
reached from `j`, never raises the cyclic-dependency error, and returns the
stored output of the then completed task `j`. -/
theorem getResult_ok : ∀ (fuel : Nat) (s : TTaskScheduler) (T : Ty) (j : Nat)
    (r : Except Fault Value) (s1 : TTaskScheduler),
    getResult fuel s T j = (r, s1) → GetOk s T j r s1 := by
  intro fuel
  induction fuel with
  | zero =>
    intro s T j r s1 h
    simp only [getResult, Prod.mk.injEq] at h
    obtain ⟨rfl, rfl⟩ := h
    exact ⟨Relation.ReflTransGen.refl, by simp, by simp, by simp, by simp, FailedLast.refl _ _⟩
  | succ fuel ih =>
    intro s T j r s1 h
    simp only [getResult] at h
    cases ht : s.tasks[j]? with
    | none =>
      simp only [ht, Prod.mk.injEq] at h
      obtain ⟨rfl, rfl⟩ := h
      exact ⟨Relation.ReflTransGen.refl, by simp, by simp, by simp, by simp, FailedLast.refl _ _⟩
    | some t =>
      simp only [ht] at h
      cases hc : t.completed with
      | true =>
        simp only [hc, if_true, ht] at h
        cases hg : t.result.get T with
        | none =>
          simp only [hg, Prod.mk.injEq] at h
          obtain ⟨rfl, rfl⟩ := h
          exact ⟨Relation.ReflTransGen.refl, by simp, by simp, by simp, by simp, FailedLast.refl _ _⟩
        | some v =>
          simp only [hg, Prod.mk.injEq] at h
          obtain ⟨rfl, rfl⟩ := h
          refine ⟨Relation.ReflTransGen.refl, by simp, ?_, ?_, by simp, FailedLast.refl _ _⟩
          · intro v' hv'
            have : v = v' := by simpa using hv'
            subst this
            exact ⟨t, ht, hc, hg⟩
          · intro v' _ hp
            exact absurd ⟨t, ht, hc⟩ (not_done_of_pending hp)
      | false =>
        simp only [hc, Bool.false_eq_true, if_false] at h
        cases he : execute (getResult fuel) s j t with
        | mk r1 sa =>
          have ex := execute_ok fuel ih s j t ht hc r1 sa he
          rw [he] at h
          cases r1 with
          | error e =>
            simp only [Prod.mk.injEq] at h
            obtain ⟨rfl, rfl⟩ := h
            refine ⟨ex.steps, ?_, by simp, by simp, ?_, ex.failed.error_congr⟩
            · intro hcy; apply ex.not_cyclic; simpa using hcy
            · intro e' he'
              exact ex.thrown e' (by simpa using he')
          | ok u =>
            simp only at h
            obtain ⟨hlast, t1, h1, h2⟩ := ex.ok rfl
            simp only [h1] at h
            cases hg : t1.result.get T with
            | none =>
              simp only [hg, Prod.mk.injEq] at h
              obtain ⟨rfl, rfl⟩ := h
              refine ⟨ex.steps, by simp, by simp, by simp, by simp, ?_⟩
              intro c hc e he
              exact Except.noConfusion (ex.failed c hc e he).1
            | some v =>
              simp only [hg, Prod.mk.injEq] at h
              obtain ⟨rfl, rfl⟩ := h
              refine ⟨ex.steps, by simp, ?_, ?_, by simp, ?_⟩
              · intro v' hv'
                have : v = v' := by simpa using hv'
                subst this
                exact ⟨t1, h1, h2, hg⟩
              · intro v' _ _
                exact hlast
              · intro c hc e he
                exact Except.noConfusion (ex.failed c hc e he).1

theorem runOrder_ok (fuel : Nat) : ∀ (order : List Nat) (s : TTaskScheduler)
    (r : Except Fault Unit) (s1 : TTaskScheduler), runOrder fuel order s = (r, s1) →
    StepsIn (fun _ => True) s s1 ∧ r ≠ .error .cyclic ∧ FailedLast s s1 r := by
  intro order
  induction order with
  | nil =>
    intro s r s1 h
    simp only [runOrder, Prod.mk.injEq] at h
    obtain ⟨rfl, rfl⟩ := h
    exact ⟨Relation.ReflTransGen.refl, by simp, FailedLast.refl _ _⟩
  | cons id rest ih =>
    intro s r s1 h
    simp only [runOrder] at h
    cases ht : s.tasks[id]? with
    | none =>
      simp only [ht, Prod.mk.injEq] at h
      obtain ⟨rfl, rfl⟩ := h
      exact ⟨Relation.ReflTransGen.refl, by simp, FailedLast.refl _ _⟩
    | some t =>
      simp only [ht] at h
      cases hc : t.completed with
      | true =>
        simp only [hc, if_true] at h
        exact ih s r s1 h
      | false =>
        simp only [hc, Bool.false_eq_true, if_false] at h
        cases he : execute (getResult fuel) s id t with
        | mk r1 sa =>
          have ex := execute_ok fuel (getResult_ok fuel) s id t ht hc r1 sa he
          rw [he] at h
          cases r1 with
          | error e =>
            simp only [Prod.mk.injEq] at h
            obtain ⟨rfl, rfl⟩ := h
            exact ⟨ex.steps.mono (fun _ _ => trivial), ex.not_cyclic, ex.failed⟩
          | ok u =>
            simp only at h
            obtain ⟨h1, h2, h3⟩ := ih sa r s1 h
            exact ⟨(ex.steps.mono (fun _ _ => trivial)).trans h1, h2,
              FailedLast.after ex.steps h1 ex.failed h3⟩

theorem executeAll_cases (fuel : Nat) (s : TTaskScheduler) :
    (∃ e, kahnOrder s.tasks = .error e ∧ executeAll fuel s = (.error e, s)) ∨
    (∃ order, kahnOrder s.tasks = .ok order ∧ order.length ≠ s.tasks.length ∧
      executeAll fuel s = (.error .cyclic, s)) ∨
    (∃ order, kahnOrder s.tasks = .ok order ∧ order.length = s.tasks.length ∧
      executeAll fuel s = runOrder fuel order s) := by
  cases hk : kahnOrder s.tasks with
  | error e => exact Or.inl ⟨e, rfl, by simp [executeAll, hk]⟩
  | ok order =>
    by_cases hl : order.length = s.tasks.length
    · exact Or.inr (Or.inr ⟨order, rfl, hl, by simp [executeAll, hk, hl]⟩)
    · exact Or.inr (Or.inl ⟨order, rfl, hl, by simp [executeAll, hk, hl]⟩)

theorem executeAll_steps (fuel : Nat) (s : TTaskScheduler) :
    StepsIn (fun _ => True) s (executeAll fuel s).2 := by
  rcases executeAll_cases fuel s with ⟨e, _, h⟩ | ⟨o, _, _, h⟩ | ⟨o, _, _, h⟩
  · rw [h]; exact Relation.ReflTransGen.refl
  · rw [h]; exact Relation.ReflTransGen.refl
  · rw [h]
    exact (runOrder_ok fuel o s _ _ rfl).1

/-- During `executeAll`, a callable that throws ends the call with its exception. -/
theorem executeAll_failed (fuel : Nat) (s : TTaskScheduler) :
    FailedLast s (executeAll fuel s).2 (executeAll fuel s).1 := by
  rcases executeAll_cases fuel s with ⟨e, _, h⟩ | ⟨o, _, _, h⟩ | ⟨o, _, _, h⟩
  · rw [h]; exact FailedLast.refl _ _
  · rw [h]; exact FailedLast.refl _ _
  · rw [h]
    exact (runOrder_ok fuel o s _ _ rfl).2.2

/-- Tasks outside `P` are not touched by a run of invocations of tasks in `P`. -/
theorem StepsIn.frame {P : Nat → Prop} {s s1 : TTaskScheduler} (h : StepsIn P s s1) {x : Nat}
    (hx : ¬ P x) : s1.tasks[x]? = s.tasks[x]? := by
  induction h with
  | refl => rfl
  | tail _ hstep ih =>
    obtain ⟨y, hy, hs⟩ := hstep
    have : x ≠ y := by rintro rfl; exact hx hy
    rw [hs.tasks_ne this, ih]

/-- A task that is still not completed after a run has its record untouched. -/
theorem StepsIn.pending_eq {P : Nat → Prop} {s s1 : TTaskScheduler} (h : StepsIn P s s1)
    {x : Nat} (hp : Pending s1 x) : s1.tasks[x]? = s.tasks[x]? := by
  obtain ⟨t1, h1, hc1⟩ := hp
  obtain ⟨t, ht⟩ := h.tasks_none h1
  obtain ⟨t', ht', _, _, hor⟩ := h.task ht
  rw [h1] at ht'
  cases ht'
  rcases hor with e | e
  · rw [h1, ht, e]
  · rw [hc1] at e; exact Bool.noConfusion e

theorem Reach.transGen {s : TTaskScheduler} {j x : Nat} (h : Reach s j x) :
    x = j ∨ Relation.TransGen (Edge s.tasks) x j := by
  obtain ⟨_, hr⟩ := h
  induction hr with
  | refl => exact Or.inl rfl
  | @tail b c _ hbc ih =>
    have hedge : Edge s.tasks c b := hbc.2.1
    rcases ih with e | e
    · subst e; exact Or.inr (Relation.TransGen.single hedge)
    · exact Or.inr (Relation.TransGen.head hedge e)

theorem Reach.eq_of_deps_done {s : TTaskScheduler} {id x : Nat}
    (hd : ∀ d ∈ depsOf s.tasks id, Done s d) (h : Reach s id x) : x = id := by
  obtain ⟨_, hr⟩ := h
  cases Relation.ReflTransGen.cases_head hr with
  | inl e => exact e.symm
  | inr e =>
    obtain ⟨b, hb, _⟩ := e
    exact absurd (hd b hb.2.1) (not_done_of_pending hb.2.2)

theorem backward_transGen {ts : List Task} (hb : Backward ts) {a b : Nat}
    (h : Relation.TransGen (Edge ts) a b) : a < b := by
  induction h with
  | single h => exact hb _ (depsOf_lt h) _ h
  | tail _ h ih => exact lt_trans ih (hb _ (depsOf_lt h) _ h)

theorem acyclic_of_backward {ts : List Task} (hb : Backward ts) : ¬ HasCycle ts := by
  rintro ⟨v, hv⟩
  exact lt_irrefl v (backward_transGen hb hv)

theorem inRange_of_backward {ts : List Task} (hb : Backward ts) : InRange ts := by
  intro t ht d hd
  obtain ⟨i, hi, e⟩ := List.getElem_of_mem ht
  have : d ∈ depsOf ts i := by
    simp [depsOf, List.getElem?_eq_getElem hi, e, hd]
  have := hb i hi d this
  omega

theorem getElem?_index_of_mem_take {order : List Nat} {j a : Nat} (h : a ∈ order.take j) :
    ∃ i : Nat, i < j ∧ order[i]? = some a := by
  obtain ⟨i, hi, e⟩ := List.getElem_of_mem h
  have hi' : i < j ∧ i < order.length := by simpa using hi
  refine ⟨i, hi'.1, ?_⟩
  rw [List.getElem?_eq_getElem hi'.2]
  rw [List.getElem_take] at e
  exact congrArg some e

/-- C2. With in-range dependencies, the order computed by Kahn's algorithm is
shorter than the task count exactly when the dependency graph has a directed
cycle, `executeAll` raises the cyclic-dependency error exactly then, and
without a cycle the order is a permutation of the ids `0..n-1`. -/
theorem C2_cycle_detected_iff_cycle (s : TTaskScheduler) (hr : InRange s.tasks) :
    ∃ order, kahnOrder s.tasks = .ok order ∧
      (order.length < s.tasks.length ↔ HasCycle s.tasks) ∧
      (∀ fuel, (executeAll fuel s).1 = .error .cyclic ↔ HasCycle s.tasks) ∧
      (¬ HasCycle s.tasks → order.Perm (List.range s.tasks.length)) := by
  obtain ⟨order, hk, ho⟩ := kahnOrder_ok s.tasks hr
  have hiff := ho.length_eq_iff hr
  have hle := ho.length_le
  refine ⟨order, hk, ?_, ?_, fun hac => ho.perm_of_length (hiff.2 hac)⟩
  · constructor
    · intro hlt
      by_contra hac
      have := hiff.2 hac
      omega
    · intro hc
      have : ¬ order.length = s.tasks.length := fun h => hiff.1 h hc
      omega
  · intro fuel
    constructor
    · intro he
      by_contra hac
      have hl := hiff.2 hac
      have hrun : executeAll fuel s = runOrder fuel order s := by simp [executeAll, hk, hl]
      rw [hrun] at he
      exact (runOrder_ok fuel order s _ _ rfl).2.1 he
    · intro hc
      have : ¬ order.length = s.tasks.length := fun h => hiff.1 h hc
      simp [executeAll, hk, this]

theorem C2_cycle_detected_iff_cycle_witness :
    InRange circularDependency.tasks ∧
    ∃ order, kahnOrder circularDependency.tasks = .ok order ∧
      (order.length < circularDependency.tasks.length ↔ HasCycle circularDependency.tasks) ∧
      (∀ fuel, (executeAll fuel circularDependency).1 = .error .cyclic ↔
        HasCycle circularDependency.tasks) ∧
      (¬ HasCycle circularDependency.tasks →
        order.Perm (List.range circularDependency.tasks.length)) :=
  ⟨by decide, C2_cycle_detected_iff_cycle circularDependency (by decide)⟩

/-- C3. When `executeAll` fails with the cyclic-dependency error, no callable
has been invoked (the log is as before) and every task record is as before. -/
theorem C3_cyclic_error_changes_nothing (fuel : Nat) (s s1 : TTaskScheduler)
    (h : executeAll fuel s = (.error .cyclic, s1)) :
    s1.log = s.log ∧ s1.tasks = s.tasks := by
  rcases executeAll_cases fuel s with ⟨e, _, he⟩ | ⟨o, _, _, he⟩ | ⟨o, _, _, he⟩
  · rw [he] at h
    simp only [Prod.mk.injEq] at h
    rw [← h.2]; exact ⟨rfl, rfl⟩
  · rw [he] at h
    simp only [Prod.mk.injEq] at h
    rw [← h.2]; exact ⟨rfl, rfl⟩
  · rw [he] at h
    exact absurd rfl ((runOrder_ok fuel o s _ _ h).2.1)

theorem C3_cyclic_error_changes_nothing_witness :
    executeAll 1 circularDependency = (.error .cyclic, circularDependency) ∧
    circularDependency.log = circularDependency.log ∧
    circularDependency.tasks = circularDependency.tasks :=
  ⟨rfl, C3_cyclic_error_changes_nothing 1 circularDependency circularDependency rfl⟩

/-- C6. When `getResult<T>(id)` returns a value, a second `getResult<T>(id)`
returns the same value, invokes no callable and leaves the scheduler as it is. -/
theorem C6_getResult_idempotent (fuel fuel2 : Nat) (s s1 : TTaskScheduler) (T : Ty) (id : Nat)
    (v : Value) (h : getResult fuel s T id = (.ok v, s1)) :
    getResult (fuel2 + 1) s1 T id = (.ok v, s1) := by
  obtain ⟨t1, h1, h2, h3⟩ := (getResult_ok fuel s T id _ _ h).value v rfl
  simp [getResult, h1, h2, h3]

theorem C6_getResult_idempotent_witness :
    getResult 3 multipleDependencies .int 3
      = (.ok (.int 4), (getResult 3 multipleDependencies .int 3).2) ∧
    getResult (0 + 1) (getResult 3 multipleDependencies .int 3).2 .int 3
      = (.ok (.int 4), (getResult 3 multipleDependencies .int 3).2) :=
  ⟨rfl, C6_getResult_idempotent 3 0 multipleDependencies _ .int 3 (.int 4) rfl⟩

/-- C7. A call `getResult(id)` invokes only callables of tasks that were not
completed and are reached from `id` through dependency edges between
not-completed tasks (`id` itself included); every other task record is
untouched, and every task so reached is `id` or one that `id` transitively
depends on. -/
theorem C7_getResult_runs_only_needed_tasks (fuel : Nat) (s : TTaskScheduler) (T : Ty)
    (id : Nat) :
    (getResult fuel s T id).2.log = s.log ++ (getResult fuel s T id).2.callsSince s ∧
    (∀ c ∈ (getResult fuel s T id).2.callsSince s, Reach s id c.id) ∧
    (∀ x, ¬ Reach s id x → (getResult fuel s T id).2.tasks[x]? = s.tasks[x]?) ∧
    (∀ x, Reach s id x → x = id ∨ Relation.TransGen (Edge s.tasks) x id) := by
  have h := (getResult_ok fuel s T id _ _ rfl).steps
  exact ⟨h.logOk.ext, h.logOk.inP, fun x hx => h.frame hx, fun x hx => hx.transGen⟩

/-- C8, at the failing input: asking the completed `int` task of the test
`TaskWithNoDependencies` for a `std::string` dereferences the null result of
`dynamic_cast`; no `TypeMismatch` failure is reported. -/
theorem C8_type_mismatch_is_null_dereference :
    (getResult 1 (executeAll 1 taskWithNoDependencies).2 .string 0).1 = .error .nullDeref ∧
    (getResult 1 (executeAll 1 taskWithNoDependencies).2 .int 0).1 = .ok (.int 42) :=
  ⟨rfl, rfl⟩

theorem registerAll_ids (bs : List Body) : ∀ s : TTaskScheduler,
    (registerAll s bs).1 = (List.range' s.tasks.length bs.length) ∧
    (registerAll s bs).2.tasks.length = s.tasks.length + bs.length := by
  induction bs with
  | nil => intro s; simp [registerAll]
  | cons b rest ih =>
    intro s
    have h1 : (register s b).1 = s.tasks.length := by
      cases b <;> simp [register, add, add1, add2, emplace]
    have h2 : (register s b).2.tasks.length = s.tasks.length + 1 := by
      cases b <;> simp [register, add, add1, add2, emplace]
    obtain ⟨i1, i2⟩ := ih (register s b).2
    constructor
    · simp only [registerAll, i1, h1, h2, List.length_cons, List.range'_succ]
    · simp only [registerAll, i2, h2, List.length_cons]
      omega

/-- C10. On a scheduler holding `n` tasks each `add` overload returns `n`,
leaves `n + 1` tasks and keeps the records at ids `0..n-1`; so registering
`k` tasks on a fresh scheduler returns the ids `0, 1, ..., k-1` in order. -/
theorem C10_add_returns_next_id (s : TTaskScheduler) (b : Body) :
    (register s b).1 = s.tasks.length ∧
    (register s b).2.tasks.length = s.tasks.length + 1 ∧
    (∀ i, i < s.tasks.length → (register s b).2.tasks[i]? = s.tasks[i]?) ∧
    (∀ func, add s func = register s (.zero_args func)) ∧
    (∀ func arg1, add1 s func arg1 = register s (.one_args func arg1)) ∧
    (∀ func arg1 arg2, add2 s func arg1 arg2 = register s (.two_args func arg1 arg2)) ∧
    (∀ bs : List Body, (registerAll TTaskScheduler.empty bs).1 = List.range bs.length) := by
  refine ⟨?_, ?_, ?_, fun _ => rfl, fun _ _ => rfl, fun _ _ _ => rfl, ?_⟩
  · cases b <;> simp [register, add, add1, add2, emplace]
  · cases b <;> simp [register, add, add1, add2, emplace]
  · intro i hi
    cases b <;> simp [register, add, add1, add2, emplace, List.getElem?_append_left hi]
  · intro bs
    have := (registerAll_ids bs TTaskScheduler.empty).1
    simpa [TTaskScheduler.empty, List.range_eq_range'] using this

theorem runOrder_thrown (fuel : Nat) (s0 s1 : TTaskScheduler) (order : List Nat) (e : String)
    (ho : OrderOk s0.tasks order) :
    ∀ (rest pre : List Nat) (s : TTaskScheduler), order = pre ++ rest →
      StepsIn (fun x => x ∈ pre) s0 s → (∀ x ∈ pre, Done s x) →
      runOrder fuel rest s = (.error (.thrown e), s1) →
      ∃ k id t, FailedAt s0 s1 order e k id t := by
  intro rest
  induction rest with
  | nil =>
    intro pre s _ _ _ h
    simp [runOrder] at h
  | cons id rest ih =>
    intro pre s hord hst hdone h
    have hnd : id ∉ pre := by
      have := ho.nodup
      rw [hord, List.nodup_append] at this
      intro hm
      exact this.2.2 hm (List.mem_cons_self _ _)
    have hpos : order[pre.length]? = some id := by
      rw [hord, List.getElem?_append_right (le_refl _)]; simp
    have htake : order.take pre.length = pre := by
      rw [hord]; simp
    have htake1 : order.take (pre.length + 1) = pre ++ [id] := by
      rw [hord, List.take_append_eq_append_take]; simp
    have hord' : order = (pre ++ [id]) ++ rest := by rw [hord]; simp
    simp only [runOrder] at h
    cases ht : s.tasks[id]? with
    | none => simp [ht] at h
    | some t =>
      have ht0 : s0.tasks[id]? = some t := by rw [← hst.frame hnd]; exact ht
      simp only [ht] at h
      cases hc : t.completed with
      | true =>
        simp only [hc, if_true] at h
        refine ih (pre ++ [id]) s hord' (hst.mono (fun x hx => by simp [hx])) ?_ h
        intro x hx
        rw [List.mem_append] at hx
        rcases hx with hx | hx
        · exact hdone x hx
        · simp at hx; subst hx; exact ⟨t, ht, hc⟩
      | false =>
        simp only [hc, Bool.false_eq_true, if_false] at h
        cases he : execute (getResult fuel) s id t with
        | mk r1 sa =>
          have ex := execute_ok fuel (getResult_ok fuel) s id t ht hc r1 sa he
          have hdeps : ∀ d ∈ depsOf s.tasks id, Done s d := by
            intro d hd
            rw [hst.depsOf] at hd
            have := ho.topo pre.length id hpos d hd
            rw [htake] at this
            exact hdone d this
          have honly : ∀ x, Reach s id x → x = id := fun x hx => hx.eq_of_deps_done hdeps
          rw [he] at h
          cases r1 with
          | ok u =>
            simp only at h
            have hsa : StepsIn (fun x => x ∈ pre ++ [id]) s0 sa :=
              (hst.mono (fun x hx => by simp [hx])).trans
                (ex.steps.mono (fun x hx => by simp [honly x hx]))
            refine ih (pre ++ [id]) sa hord' hsa ?_ h
            intro x hx
            rw [List.mem_append] at hx
            rcases hx with hx | hx
            · exact ex.steps.done (hdone x hx)
            · simp at hx; subst hx; exact (ex.ok rfl).2
          | error e1 =>
            simp only [Prod.mk.injEq] at h
            obtain ⟨h1, rfl⟩ := h
            have h1' : e1 = .thrown e := by simpa using h1
            subst h1'
            obtain ⟨s', x, hs', hx, hstep, hsa⟩ := ex.thrown e rfl
            have hxid := honly x hx
            subst hxid
            have htasks : sa.tasks = s'.tasks := by rw [hsa]
            refine ⟨pre.length, x, t, hpos, ht0, hc, ⟨s'.log, by rw [hsa]⟩, ?_, ?_, ?_⟩
            · rw [htake1]
              exact (hst.mono (fun y hy => by simp [hy])).trans
                (ex.steps.mono (fun y hy => by simp [honly y hy]))
            · rw [htake]
              intro y hy
              exact ex.steps.done (hdone y hy)
            · rw [htake]
              intro y hy
              by_cases hyx : y = x
              · subst hyx
                rw [htasks, hs'.pending_eq hstep.was_pending, ht, ht0]
              · have : ¬ Reach s x y := fun hr => hyx (honly y hr)
                rw [ex.steps.frame this, hst.frame hy]

/-- When `executeAll` ends with an exception, it was thrown by the last logged
call, made for the task at some position of the computed order. -/
theorem executeAll_thrown (fuel : Nat) (s s1 : TTaskScheduler) (e : String)
    (hr : InRange s.tasks) (h : executeAll fuel s = (.error (.thrown e), s1)) :
    ¬ HasCycle s.tasks ∧
    ∃ (order : List Nat) (k id : Nat) (t : Task), kahnOrder s.tasks = .ok order ∧
      order[k]? = some id ∧
      (∃ l, s1.log = l ++ [⟨id, .error e⟩]) ∧
      s.tasks[id]? = some t ∧ t.completed = false ∧ s1.tasks[id]? = some t ∧
      (∀ (j x : Nat), k < j → order[j]? = some x → s1.tasks[x]? = s.tasks[x]?) ∧
      (∀ (j x : Nat), j < k → order[j]? = some x → Done s1 x) ∧
      (∀ c ∈ s1.callsSince s, ∃ j : Nat, j ≤ k ∧ order[j]? = some c.id) := by
  obtain ⟨order, hk, ho⟩ := kahnOrder_ok s.tasks hr
  have hl : order.length = s.tasks.length := by
    by_contra hne
    simp [executeAll, hk, hne] at h
  have hrun : runOrder fuel order s = (.error (.thrown e), s1) := by
    simpa [executeAll, hk, hl] using h
  obtain ⟨k, id, t, hf⟩ := runOrder_thrown fuel s s1 order e ho order [] s (by simp)
    Relation.ReflTransGen.refl (by simp) hrun
  have hklt : k < order.length := by
    by_contra hc
    have := hf.pos
    rw [List.getElem?_eq_none (by omega)] at this
    exact Option.noConfusion this
  have hnotin : ∀ (j x : Nat), k ≤ j → order[j]? = some x → x ∉ order.take k := by
    intro j x hkj hj hx
    obtain ⟨i, hi, hix⟩ := getElem?_index_of_mem_take hx
    have hjl : j < order.length := by
      by_contra hc
      rw [List.getElem?_eq_none (by omega)] at hj
      exact Option.noConfusion hj
    have hil : i < order.length := by omega
    rw [List.getElem?_eq_getElem hjl] at hj
    rw [List.getElem?_eq_getElem hil] at hix
    have heq : order[i] = order[j] := by
      rw [Option.some.inj hj, Option.some.inj hix]
    have := (List.Nodup.getElem_inj_iff ho.nodup).1 heq
    omega
  refine ⟨(ho.length_eq_iff hr).1 hl, order, k, id, t, hk, hf.pos, hf.last_call, hf.task0,
    hf.pending0, ?_, ?_, ?_, ?_⟩
  · rw [hf.others id (hnotin k id (le_refl _) hf.pos)]
    exact hf.task0
  · intro j x hkj hj
    exact hf.others x (hnotin j x (by omega) hj)
  · intro j x hjk hj
    apply hf.earlier
    have hjl : j < order.length := by omega
    rw [List.getElem?_eq_getElem hjl] at hj
    have := Option.some.inj hj
    subst this
    exact List.mem_take_iff_getElem.2 ⟨j, by simp; omega, rfl⟩
  · intro c hc
    have hin := hf.steps.logOk.inP c hc
    obtain ⟨i, hi, hix⟩ := getElem?_index_of_mem_take hin
    exact ⟨i, by omega, hix⟩

/-- C9. With in-range dependencies, when during `executeAll` a call `c` of a
callable throws `e`: `executeAll` ends with that exception, the graph has no
cycle, `c` is the last call logged, its task sits at some position `k` of the
computed order, was and stays not completed with its record as before, every
task at a later position has its record as before, every task at an earlier
position is completed, and only tasks at positions up to `k` were invoked. -/
theorem C9_task_failure_is_fail_fast (fuel : Nat) (s : TTaskScheduler) (c : Call) (e : String)
    (hr : InRange s.tasks) (hc : c ∈ (executeAll fuel s).2.callsSince s)
    (he : c.outcome = .error e) :
    (executeAll fuel s).1 = .error (.thrown e) ∧ ¬ HasCycle s.tasks ∧
    ∃ (order : List Nat) (k : Nat) (t : Task), kahnOrder s.tasks = .ok order ∧
      order[k]? = some c.id ∧
      (∃ l, (executeAll fuel s).2.log = l ++ [c]) ∧
      s.tasks[c.id]? = some t ∧ t.completed = false ∧
      (executeAll fuel s).2.tasks[c.id]? = some t ∧
      (∀ (j x : Nat), k < j → order[j]? = some x →
        (executeAll fuel s).2.tasks[x]? = s.tasks[x]?) ∧
      (∀ (j x : Nat), j < k → order[j]? = some x → Done (executeAll fuel s).2 x) ∧
      (∀ c' ∈ (executeAll fuel s).2.callsSince s, ∃ j : Nat, j ≤ k ∧ order[j]? = some c'.id) := by
  obtain ⟨hres, l, hl⟩ := executeAll_failed fuel s c hc e he
  have h : executeAll fuel s = (.error (.thrown e), (executeAll fuel s).2) := by
    rw [← hres]
  obtain ⟨hac, order, k, id, t, h1, h2, ⟨l', hl'⟩, h4, h5, h6, h7, h8, h9⟩ :=
    executeAll_thrown fuel s _ e hr h
  have hceq : c = ⟨id, .error e⟩ := by
    rw [hl] at hl'
    have := List.append_inj' hl' rfl
    simpa using this.2
  have hid : c.id = id := by rw [hceq]
  rw [hid]
  exact ⟨hres, hac, order, k, t, h1, h2, ⟨l, hl⟩, h4, h5, h6, h7, h8, h9⟩

theorem failingBatch_calls : (executeAll 1 failingBatch).2.callsSince failingBatch =
    [⟨0, .ok (some (.int 1))⟩, ⟨1, .error "Error"⟩] := rfl

theorem C9_task_failure_is_fail_fast_witness :
    InRange failingBatch.tasks ∧
    (⟨1, .error "Error"⟩ : Call) ∈ (executeAll 1 failingBatch).2.callsSince failingBatch ∧
    (executeAll 1 failingBatch).1 = .error (.thrown "Error") ∧ ¬ HasCycle failingBatch.tasks ∧
    ∃ (order : List Nat) (k : Nat) (t : Task), kahnOrder failingBatch.tasks = .ok order ∧
      order[k]? = some 1 ∧
      (∃ l, (executeAll 1 failingBatch).2.log = l ++ [⟨1, .error "Error"⟩]) ∧
      failingBatch.tasks[1]? = some t ∧ t.completed = false ∧
      (executeAll 1 failingBatch).2.tasks[1]? = some t ∧
      (∀ (j x : Nat), k < j → order[j]? = some x →
        (executeAll 1 failingBatch).2.tasks[x]? = failingBatch.tasks[x]?) ∧
      (∀ (j x : Nat), j < k → order[j]? = some x → Done (executeAll 1 failingBatch).2 x) ∧
      (∀ c' ∈ (executeAll 1 failingBatch).2.callsSince failingBatch,
        ∃ j : Nat, j ≤ k ∧ order[j]? = some c'.id) :=
  ⟨by decide, by rw [failingBatch_calls]; simp,
    C9_task_failure_is_fail_fast 1 failingBatch ⟨1, .error "Error"⟩ "Error" (by decide)
      (by rw [failingBatch_calls]; simp) rfl⟩

theorem getResult_done (fuel : Nat) (s : TTaskScheduler) (T : Ty) (j : Nat) (t : Task)
    (ht : s.tasks[j]? = some t) (hc : t.completed = true) (hty : t.result.ptr.ty = T) :
    getResult (fuel + 1) s T j = (.ok t.result.ptr, s) := by
  simp [getResult, ht, hc, MyAny.get, hty]

theorem Arg.valueIn_congr {s s' : TTaskScheduler} (a : Arg)
    (h : ∀ j T, a = .future j T → s'.tasks[j]? = s.tasks[j]?) : a.valueIn s' = a.valueIn s := by
  cases a with
  | value v => rfl
  | future j T => simp [Arg.valueIn, h j T rfl]

theorem mem_deps_one {t : Task} {func : Value → Except String Value} {arg1 : Arg}
    (hb : t.body = .one_args func arg1) {j : Nat} {T : Ty} (e : arg1 = .future j T) :
    j ∈ t.getDependencies := by
  subst e; simp [Task.getDependencies, hb, collect_dependency]

theorem mem_deps_two_left {t : Task} {func : Value → Value → Except String Value}
    {arg1 arg2 : Arg} (hb : t.body = .two_args func arg1 arg2) {j : Nat} {T : Ty}
    (e : arg1 = .future j T) : j ∈ t.getDependencies := by
  subst e; cases arg2 <;> simp [Task.getDependencies, hb, collect_dependency]

theorem mem_deps_two_right {t : Task} {func : Value → Value → Except String Value}
    {arg1 arg2 : Arg} (hb : t.body = .two_args func arg1 arg2) {j : Nat} {T : Ty}
    (e : arg2 = .future j T) : j ∈ t.getDependencies := by
  subst e; cases arg1 <;> simp [Task.getDependencies, hb, collect_dependency]

theorem Task.outputOk_congr {s s' : TTaskScheduler} {t : Task}
    (h : ∀ j ∈ t.getDependencies, s'.tasks[j]? = s.tasks[j]?) (ho : t.outputOk s) :
    t.outputOk s' := by
  unfold Task.outputOk at ho ⊢
  cases hb : t.body with
  | zero_args func => simpa [hb] using ho
  | one_args func arg1 =>
    simp only [hb] at ho ⊢
    rw [Arg.valueIn_congr arg1 (fun j T e => h j (mem_deps_one hb e))]
    exact ho
  | two_args func arg1 arg2 =>
    simp only [hb] at ho ⊢
    rw [Arg.valueIn_congr arg1 (fun j T e => h j (mem_deps_two_left hb e)),
      Arg.valueIn_congr arg2 (fun j T e => h j (mem_deps_two_right hb e))]
    exact ho

/-- Resolving an argument whose target has run returns the stored output and
changes nothing. -/
theorem resolve_done (fuel : Nat) (τ : Nat → Ty) (s0 s : TTaskScheduler) (pre : List Nat)
    (hinv : RanOk τ s0 s pre) (a : Arg) (hty : a.typed τ)
    (hpre : ∀ j T, a = .future j T → j ∈ pre) :
    ∃ v, resolve_argument (getResult (fuel + 1)) s a = (.ok v, s) ∧ a.valueIn s = some v ∧
      v.ty = a.ty := by
  cases a with
  | value v => exact ⟨v, rfl, rfl, rfl⟩
  | future j T =>
    obtain ⟨t, ht, hc, htt, _⟩ := hinv.ran j (hpre j T rfl)
    have hT : T = τ j := hty
    refine ⟨t.result.ptr, ?_, by simp [Arg.valueIn, ht], by simp [Arg.ty, htt, hT]⟩
    simp only [resolve_argument]
    exact getResult_done fuel s T j t ht hc (by rw [htt, hT])

theorem finish_returned (s : TTaskScheduler) (id : Nat) (out : Option Value) :
    finish s id (.ok out) =
      (.ok (), ⟨s.tasks.modify (Task.complete out) id, s.log ++ [⟨id, .ok out⟩]⟩) := rfl

theorem depsOf_eq {ts : List Task} {i : Nat} {t : Task} (h : ts[i]? = some t) :
    depsOf ts i = t.getDependencies := by
  simp [depsOf, h]

theorem OrderOk.deps_in_pre {ts : List Task} {order pre rest : List Nat}
    (ho : OrderOk ts order) (hord : order = pre ++ rest) {i x : Nat} (hi : i ≤ pre.length)
    (hx : order[i]? = some x) {d : Nat} (hd : d ∈ depsOf ts x) : d ∈ pre := by
  obtain ⟨i0, h0, e0⟩ := getElem?_index_of_mem_take (ho.topo i x hx d hd)
  have hlt : i0 < pre.length := by omega
  rw [hord, List.getElem?_append_left hlt] at e0
  exact List.getElem?_mem e0

/-- Executing a task of a fresh scheduler whose dependencies have all run:
the callable returns and the task stores its value. -/
theorem execute_fresh (fuel : Nat) (τ : Nat → Ty) (s0 s : TTaskScheduler) (pre : List Nat)
    (hinv : RanOk τ s0 s pre) (id : Nat) (t : Task) (ht0 : s0.tasks[id]? = some t)
    (hfresh : t.result = ⟨.int 0⟩)
    (hpt : PlaceholdersTyped τ s0.tasks) (hct : CallablesTotal τ s0.tasks)
    (hdeps : ∀ d ∈ t.getDependencies, d ∈ pre) :
    ∃ out, execute (getResult (fuel + 1)) s id t
        = (.ok (), ⟨s.tasks.modify (Task.complete out) id, s.log ++ [⟨id, .ok out⟩]⟩) ∧
      (t.complete out).result.ptr.ty = τ id ∧ (t.complete out).outputOk s := by
  have hp := hpt t (List.getElem?_mem ht0)
  have hc := hct id t ht0
  cases hb : t.body with
  | zero_args func =>
    simp only [hb] at hc
    rcases hc with ⟨v, hv, hty⟩ | ⟨hv, hty⟩
    · refine ⟨some v, by simp only [execute, hb, hv, finish_returned], hty, ?_⟩
      simp [Task.outputOk, Task.complete, hb, hv]
    · refine ⟨none, by simp only [execute, hb, hv, finish_returned], ?_, ?_⟩
      · simp [Task.complete, hfresh, hty, Value.ty]
      · simp [Task.outputOk, Task.complete, hb, hv, hfresh]
  | one_args func arg1 =>
    simp only [hb] at hc hp
    obtain ⟨v1, hres, hval, hty1⟩ := resolve_done fuel τ s0 s pre hinv arg1 hp
      (fun j T e => hdeps j (mem_deps_one hb e))
    obtain ⟨v, hv, hty⟩ := hc v1 hty1
    refine ⟨some v, ?_, hty, ?_⟩
    · simp only [execute, hb, hres, hv, Except.map, finish_returned]
    · simp only [Task.outputOk, Task.complete, hb]
      exact ⟨v1, hval, hv⟩
  | two_args func arg1 arg2 =>
    simp only [hb] at hc hp
    obtain ⟨v1, hres1, hval1, hty1⟩ := resolve_done fuel τ s0 s pre hinv arg1 hp.1
      (fun j T e => hdeps j (mem_deps_two_left hb e))
    obtain ⟨v2, hres2, hval2, hty2⟩ := resolve_done fuel τ s0 s pre hinv arg2 hp.2
      (fun j T e => hdeps j (mem_deps_two_right hb e))
    obtain ⟨v, hv, hty⟩ := hc v1 v2 hty1 hty2
    refine ⟨some v, ?_, hty, ?_⟩
    · simp only [execute, hb, hres1, hres2, hv, Except.map, finish_returned]
    · simp only [Task.outputOk, Task.complete, hb]
      exact ⟨v1, v2, hval1, hval2, hv⟩

theorem runOrder_fresh (fuel : Nat) (τ : Nat → Ty) (s0 : TTaskScheduler) (order : List Nat)
    (hf : Fresh s0) (hpt : PlaceholdersTyped τ s0.tasks) (hct : CallablesTotal τ s0.tasks)
    (ho : OrderOk s0.tasks order) :
    ∀ (rest pre : List Nat) (s : TTaskScheduler), order = pre ++ rest → RanOk τ s0 s pre →
      ∃ s1, runOrder (fuel + 1) rest s = (.ok (), s1) ∧ RanOk τ s0 s1 order := by
  intro rest
  induction rest with
  | nil =>
    intro pre s hord hinv
    have : order = pre := by simpa using hord
    subst this
    exact ⟨s, rfl, hinv⟩
  | cons id rest ih =>
    intro pre s hord hinv
    have hnd : id ∉ pre := by
      have := ho.nodup
      rw [hord, List.nodup_append] at this
      intro hm
      exact this.2.2 hm (List.mem_cons_self _ _)
    have hpos : order[pre.length]? = some id := by
      rw [hord, List.getElem?_append_right (le_refl _)]; simp
    have hord' : order = (pre ++ [id]) ++ rest := by rw [hord]; simp
    have hidlt : id < s0.tasks.length := ho.lt id (List.getElem?_mem hpos)
    have ht0 : s0.tasks[id]? = some s0.tasks[id] := List.getElem?_eq_getElem hidlt
    have ht : s.tasks[id]? = some s0.tasks[id] := by rw [hinv.steps.frame hnd]; exact ht0
    obtain ⟨hc, hres⟩ := hf _ (List.getElem?_mem ht0)
    have hdeps : ∀ d ∈ (s0.tasks[id]).getDependencies, d ∈ pre := by
      intro d hd
      rw [← depsOf_eq ht0] at hd
      exact ho.deps_in_pre hord (le_refl _) hpos hd
    obtain ⟨out, hex, hty, hout⟩ := execute_fresh fuel τ s0 s pre hinv id _ ht0 hres hpt hct hdeps
    have hstep := Step.returned s _ out ht hc
      (fun d hd => by
        obtain ⟨t, h1, h2, _⟩ := hinv.ran d (hdeps d hd)
        exact ⟨t, h1, h2⟩)
    have hne : ∀ x ∈ pre, x ≠ id := fun x hx e => hnd (e ▸ hx)
    have hinv' : RanOk τ s0 ⟨s.tasks.modify (Task.complete out) id, s.log ++ [⟨id, .ok out⟩]⟩
        (pre ++ [id]) := by
      refine ⟨(hinv.steps.mono (fun x hx => by simp [hx])).trans
        (StepsIn.single (by simp) hstep), ?_⟩
      intro x hx
      rw [List.mem_append] at hx
      rcases hx with hx | hx
      · obtain ⟨t, h1, h2, h3, h4⟩ := hinv.ran x hx
        refine ⟨t, by rw [hstep.tasks_ne (hne x hx)]; exact h1, h2, h3, ?_⟩
        apply Task.outputOk_congr _ h4
        intro j hj
        apply hstep.tasks_ne
        intro hji
        subst hji
        obtain ⟨i, hi⟩ := List.mem_iff_getElem?.1 hx
        have hil : i < pre.length := by
          by_contra hcon
          rw [List.getElem?_eq_none (by omega)] at hi
          exact Option.noConfusion hi
        have hxo : order[i]? = some x := by
          rw [hord, List.getElem?_append_left hil]; exact hi
        have hx0 : ∃ t0, s0.tasks[x]? = some t0 := hinv.steps.tasks_none h1
        obtain ⟨t0, h0⟩ := hx0
        obtain ⟨t', h1', hb, _, _⟩ := hinv.steps.task h0
        rw [h1] at h1'
        cases h1'
        have : j ∈ depsOf s0.tasks x := by
          rw [depsOf_eq h0, ← getDependencies_congr hb]; exact hj
        exact hnd (ho.deps_in_pre hord (le_of_lt hil) hxo this)
      · simp at hx
        subst hx
        refine ⟨(s0.tasks[x]).complete out, ?_, Task.complete_completed _ _, hty, ?_⟩
        · simp [List.getElem?_modify, ht]
        · apply Task.outputOk_congr _ hout
          intro j hj
          apply hstep.tasks_ne
          intro hji
          subst hji
          rw [getDependencies_congr (Task.complete_body _ _)] at hj
          exact hnd (hdeps j hj)
    obtain ⟨s1, hrun, hfin⟩ := ih (pre ++ [id]) _ hord' hinv'
    refine ⟨s1, ?_, hfin⟩
    simp only [runOrder, ht, hc, Bool.false_eq_true, if_false, hex]
    exact hrun

/-- C4. On a freshly built scheduler with in-range dependencies, no cycle,
correctly typed placeholders and callables that do not fail, `executeAll`
returns normally; afterwards every task is completed, keeps its callable and
arguments, and its stored output is its callable applied to its arguments,
with every placeholder replaced by the stored output of its target. -/
theorem C4_executeAll_computes_outputs (fuel : Nat) (τ : Nat → Ty) (s : TTaskScheduler)
    (hf : Fresh s) (hr : InRange s.tasks) (hac : ¬ HasCycle s.tasks)
    (hpt : PlaceholdersTyped τ s.tasks) (hct : CallablesTotal τ s.tasks) :
    ∃ s1, executeAll (fuel + 1) s = (.ok (), s1) ∧
      ∀ (i : Nat) (t : Task), s.tasks[i]? = some t →
        ∃ t1, s1.tasks[i]? = some t1 ∧ t1.body = t.body ∧ t1.completed = true ∧
          t1.outputOk s1 := by
  obtain ⟨order, hk, ho⟩ := kahnOrder_ok s.tasks hr
  have hl : order.length = s.tasks.length := (ho.length_eq_iff hr).2 hac
  have hp := ho.perm_of_length hl
  obtain ⟨s1, hrun, hfin⟩ := runOrder_fresh fuel τ s order hf hpt hct ho order [] s (by simp)
    ⟨Relation.ReflTransGen.refl, by simp⟩
  refine ⟨s1, by simp [executeAll, hk, hl, hrun], ?_⟩
  intro i t ht
  have hil : i < s.tasks.length := by
    by_contra hcon
    rw [List.getElem?_eq_none (by omega)] at ht
    exact Option.noConfusion ht
  obtain ⟨t1, h1, h2, _, h4⟩ := hfin.ran i (hp.mem_iff.2 (List.mem_range.2 hil))
  obtain ⟨t', h1', hb, _, _⟩ := hfin.steps.task ht
  rw [h1] at h1'
  cases h1'
  exact ⟨t1, h1, hb, h2, h4⟩

theorem complexOperations_tasks : complexOperations.tasks =
    [Task.fresh (.zero_args (fun _ => .ok (some (.double 3)))),
     Task.fresh (.zero_args (fun _ => .ok (some (.double 4)))),
     Task.fresh (.two_args mulDouble (.future 0 .double) (.future 1 .double)),
     Task.fresh (.one_args succDouble (.future 2 .double))] := rfl

theorem complexOperations_typed :
    PlaceholdersTyped (fun _ => Ty.double) complexOperations.tasks := by
  intro t ht
  rw [complexOperations_tasks] at ht
  simp only [List.mem_cons, List.mem_singleton, List.not_mem_nil, or_false] at ht
  rcases ht with rfl | rfl | rfl | rfl <;> simp [Task.fresh, Arg.typed]

theorem complexOperations_total :
    CallablesTotal (fun _ => Ty.double) complexOperations.tasks := by
  intro i t ht
  rw [complexOperations_tasks] at ht
  rcases i with _ | _ | _ | _ | i
  · simp at ht; subst ht; simp [Task.fresh, Value.ty]
  · simp at ht; subst ht; simp [Task.fresh, Value.ty]
  · simp at ht; subst ht
    simp only [Task.fresh]
    intro v1 v2 h1 h2
    cases v1 <;> cases v2 <;> simp_all [Arg.ty, Value.ty, mulDouble]
  · simp at ht; subst ht
    simp only [Task.fresh]
    intro v1 h1
    cases v1 <;> simp_all [Arg.ty, Value.ty, succDouble]
  · simp at ht

theorem C4_executeAll_computes_outputs_witness :
    Fresh complexOperations ∧ InRange complexOperations.tasks ∧
    ¬ HasCycle complexOperations.tasks ∧
    PlaceholdersTyped (fun _ => Ty.double) complexOperations.tasks ∧
    CallablesTotal (fun _ => Ty.double) complexOperations.tasks ∧
    ∃ s1, executeAll (0 + 1) complexOperations = (.ok (), s1) ∧
      (∀ (i : Nat) (t : Task), complexOperations.tasks[i]? = some t →
        ∃ t1, s1.tasks[i]? = some t1 ∧ t1.body = t.body ∧ t1.completed = true ∧
          t1.outputOk s1) ∧
      s1.tasks[3]?.map (fun t => t.result) = some ⟨.double 13⟩ := by
  refine ⟨by decide, by decide, acyclic_of_backward (by decide), complexOperations_typed,
    complexOperations_total, ?_⟩
  obtain ⟨s1, hrun, hall⟩ := C4_executeAll_computes_outputs 0 (fun _ => Ty.double)
    complexOperations (by decide) (by decide) (acyclic_of_backward (by decide))
    complexOperations_typed complexOperations_total
  refine ⟨s1, hrun, hall, ?_⟩
  obtain ⟨t0, e0, b0, _, o0⟩ := hall 0 _ rfl
  obtain ⟨t1, e1, b1, _, o1⟩ := hall 1 _ rfl
  obtain ⟨t2, e2, b2, _, o2⟩ := hall 2 _ rfl
  obtain ⟨t3, e3, b3, _, o3⟩ := hall 3 _ rfl
  have b0 : t0.body = .zero_args (fun _ => .ok (some (.double 3))) := b0
  have b1 : t1.body = .zero_args (fun _ => .ok (some (.double 4))) := b1
  have b2 : t2.body = .two_args mulDouble (.future 0 .double) (.future 1 .double) := b2
  have b3 : t3.body = .one_args succDouble (.future 2 .double) := b3
  simp only [Task.outputOk, b0, b1, b2, b3, Task.fresh, Arg.valueIn, e0, e1, e2, Option.map_some',
    Option.some.injEq, exists_eq_left', Except.ok.injEq, false_and, or_false,
    exists_and_left, exists_eq_left] at o0 o1 o2 o3
  have o0 : Value.double 3 = t0.result.ptr := by simpa using o0
  have o1 : Value.double 4 = t1.result.ptr := by simpa using o1
  rw [← o0, ← o1] at o2
  simp only [mulDouble, Except.ok.injEq] at o2
  rw [← o2] at o3
  simp only [succDouble, Except.ok.injEq] at o3
  rw [e3]
  simp only [Option.map_some', Option.some.injEq]
  cases h : t3.result with
  | mk p =>
    rw [h] at o3
    simp only at o3
    rw [← o3]
    norm_num

theorem register_log (s : TTaskScheduler) (b : Body) : (register s b).2.log = s.log := by
  cases b <;> rfl

theorem register_tasks (s : TTaskScheduler) (b : Body) :
    (register s b).2.tasks = s.tasks ++ [Task.fresh b] := by
  cases b <;> rfl

theorem register_old (s : TTaskScheduler) (b : Body) {i : Nat} {t : Task}
    (h : s.tasks[i]? = some t) : (register s b).2.tasks[i]? = some t := by
  have hi : i < s.tasks.length := by
    by_contra hc
    rw [List.getElem?_eq_none (by omega)] at h
    exact Option.noConfusion h
  rw [register_tasks, List.getElem?_append_left hi]
  exact h

/-- C11. Registration through any `add` overload invokes no callable (the log
is as before), keeps every existing task record, and stores a new record that
is not completed; `getFutureResult` only builds the placeholder and does not
touch the scheduler. -/
theorem C11_registration_executes_nothing (s : TTaskScheduler) (b : Body) :
    (register s b).2.log = s.log ∧
    (∀ (i : Nat) (t : Task), s.tasks[i]? = some t → (register s b).2.tasks[i]? = some t) ∧
    (register s b).2.tasks[s.tasks.length]? = some (Task.fresh b) ∧
    (Task.fresh b).completed = false ∧
    (∀ func, add s func = register s (.zero_args func)) ∧
    (∀ func arg1, add1 s func arg1 = register s (.one_args func arg1)) ∧
    (∀ func arg1 arg2, add2 s func arg1 arg2 = register s (.two_args func arg1 arg2)) ∧
    (∀ (T : Ty) (id : Nat), getFutureResult T id = .future id T) := by
  refine ⟨register_log s b, fun i t h => register_old s b h, ?_, rfl, fun _ => rfl,
    fun _ _ => rfl, fun _ _ _ => rfl, fun _ _ => rfl⟩
  rw [register_tasks, List.getElem?_append_right (le_refl _)]
  simp

/-- C12, at the failing input: `getResult<int>(0)` on a task that takes its own
future output re-enters itself at every recursion depth; no depth suffices
for it to return or to report a failure. -/
theorem C12_self_reference_recurses_forever (fuel : Nat) :
    getResult fuel selfReference .int 0 = (.error .diverged, selfReference) := by
  induction fuel with
  | zero => rfl
  | succ fuel ih =>
    have h0 : selfReference.tasks[0]? =
        some (Task.fresh (.one_args (fun a => .ok a) (.future 0 .int))) := rfl
    simp only [getResult, h0, Task.fresh, execute, resolve_argument, ih]
    rfl

/-- C13. When every dependency id of task `i` is below `i`, the dependency
graph has no cycle and `executeAll` never raises the cyclic-dependency error. -/
theorem C13_backward_references_are_acyclic (s : TTaskScheduler) (hb : Backward s.tasks) :
    ¬ HasCycle s.tasks ∧ ∀ fuel, (executeAll fuel s).1 ≠ .error .cyclic := by
  have hac := acyclic_of_backward hb
  have hr := inRange_of_backward hb
  refine ⟨hac, ?_⟩
  intro fuel
  obtain ⟨order, hk, ho⟩ := kahnOrder_ok s.tasks hr
  have hl : order.length = s.tasks.length := (ho.length_eq_iff hr).2 hac
  have hrun : executeAll fuel s = runOrder fuel order s := by simp [executeAll, hk, hl]
  rw [hrun]
  exact (runOrder_ok fuel order s _ _ rfl).2.1

theorem C13_backward_references_are_acyclic_witness :
    Backward duplicateDependency.tasks ∧ ¬ HasCycle duplicateDependency.tasks ∧
    ∀ fuel, (executeAll fuel duplicateDependency).1 ≠ .error .cyclic :=
  ⟨by decide, C13_backward_references_are_acyclic duplicateDependency (by decide)⟩

/-- C14. A task that is completed before a call to `add`, `getResult` or
`executeAll` has the very same record after the call, whatever the outcome:
it is still completed and its output is the same value. -/
theorem C14_completed_records_are_final (s : TTaskScheduler) (i : Nat) (t : Task)
    (h : s.tasks[i]? = some t) (hc : t.completed = true) :
    (∀ b, (register s b).2.tasks[i]? = some t) ∧
    (∀ fuel T id, (getResult fuel s T id).2.tasks[i]? = some t) ∧
    (∀ fuel, (executeAll fuel s).2.tasks[i]? = some t) := by
  refine ⟨fun b => register_old s b h, ?_, ?_⟩
  · intro fuel T id
    obtain ⟨t', h1, _, h2, _⟩ := (getResult_ok fuel s T id _ _ rfl).steps.task h
    rw [h1, h2 hc]
  · intro fuel
    obtain ⟨t', h1, _, h2, _⟩ := (executeAll_steps fuel s).task h
    rw [h1, h2 hc]

theorem C14_completed_records_are_final_witness :
    (executeAll 1 taskWithNoDependencies).2.tasks[0]? =
      some ⟨.zero_args (fun _ => .ok (some (.int 42))), ⟨.int 42⟩, true⟩ ∧
    (∀ b, (register (executeAll 1 taskWithNoDependencies).2 b).2.tasks[0]? =
      some ⟨.zero_args (fun _ => .ok (some (.int 42))), ⟨.int 42⟩, true⟩) ∧
    (∀ fuel T id, (getResult fuel (executeAll 1 taskWithNoDependencies).2 T id).2.tasks[0]? =
      some ⟨.zero_args (fun _ => .ok (some (.int 42))), ⟨.int 42⟩, true⟩) ∧
    (∀ fuel, (executeAll fuel (executeAll 1 taskWithNoDependencies).2).2.tasks[0]? =
      some ⟨.zero_args (fun _ => .ok (some (.int 42))), ⟨.int 42⟩, true⟩) :=
  ⟨rfl, C14_completed_records_are_final (executeAll 1 taskWithNoDependencies).2 0 _ rfl rfl⟩

theorem StepsIn.depsClosed {P : Nat → Prop} {s s1 : TTaskScheduler} (h : StepsIn P s s1)
    (hc : DepsClosed s) : DepsClosed s1 := by
  induction h with
  | refl => exact hc
  | @tail m s2 hsm hstep ih =>
    obtain ⟨x, hx, hs⟩ := hstep
    have hone : StepsIn P m s2 := StepsIn.single hx hs
    intro i t2 h2 hcomp d hd
    obtain ⟨tm, hm⟩ := hone.tasks_none h2
    obtain ⟨t', h', hb, heq, _⟩ := hone.task hm
    rw [h2] at h'
    cases h'
    have hdm : d ∈ tm.getDependencies := by rw [← getDependencies_congr hb]; exact hd
    by_cases hcm : tm.completed = true
    · exact hone.done (ih i tm hm hcm d hdm)
    · have hix : i = x := by
        by_contra hne
        rw [hs.tasks_ne hne, hm] at h2
        cases h2
        exact hcm hcomp
      subst hix
      exact hone.done (hs.deps_done hm d hdm)

/-- C18. In every state reached from an empty scheduler by `add`, `getResult`
and `executeAll` calls, whatever their outcomes, every dependency of every
completed task is itself completed. -/
theorem C18_completed_closed_under_dependencies (s : TTaskScheduler) (h : Reachable s) :
    DepsClosed s := by
  induction h with
  | empty =>
    intro i t ht
    simp [TTaskScheduler.empty] at ht
  | add s b _ ih =>
    intro i t ht hc d hd
    rw [register_tasks] at ht
    by_cases hi : i < s.tasks.length
    · rw [List.getElem?_append_left hi] at ht
      obtain ⟨td, h1, h2⟩ := ih i t ht hc d hd
      exact ⟨td, register_old s b h1, h2⟩
    · rw [List.getElem?_append_right (by omega)] at ht
      have hlt : i - s.tasks.length < 1 := by
        by_contra hcon
        rw [List.getElem?_eq_none (by simp; omega)] at ht
        exact Option.noConfusion ht
      have : i - s.tasks.length = 0 := by omega
      rw [this] at ht
      simp at ht
      subst ht
      simp [Task.fresh] at hc
  | getResult s fuel T id _ ih =>
    exact (getResult_ok fuel s T id _ _ rfl).steps.depsClosed ih
  | executeAll s fuel _ ih =>
    exact (executeAll_steps fuel s).depsClosed ih

theorem C18_completed_closed_under_dependencies_witness :
    Reachable (getResult 2 (register (register TTaskScheduler.empty
      (.zero_args (fun _ => .ok (some (.int 1))))).2
      (.one_args (fun a => .ok a) (.future 0 .int))).2 .int 1).2 ∧
    DepsClosed (getResult 2 (register (register TTaskScheduler.empty
      (.zero_args (fun _ => .ok (some (.int 1))))).2
      (.one_args (fun a => .ok a) (.future 0 .int))).2 .int 1).2 :=
  ⟨Reachable.getResult _ 2 .int 1 (Reachable.add _ _ (Reachable.add _ _ Reachable.empty)),
    C18_completed_closed_under_dependencies _
      (Reachable.getResult _ 2 .int 1 (Reachable.add _ _ (Reachable.add _ _ Reachable.empty)))⟩

theorem StepsIn.inRange {P : Nat → Prop} {s s1 : TTaskScheduler} (h : StepsIn P s s1)
    (hr : InRange s.tasks) : InRange s1.tasks := by
  intro t1 ht1 d hd
  obtain ⟨i, hi⟩ := List.mem_iff_getElem?.1 ht1
  obtain ⟨t, ht⟩ := h.tasks_none hi
  obtain ⟨t', ht', hb, _, _⟩ := h.task ht
  rw [hi] at ht'
  cases ht'
  rw [h.tasks_length]
  rw [getDependencies_congr hb] at hd
  exact hr t (List.getElem?_mem ht) d hd

theorem StepsIn.orderOk {P : Nat → Prop} {s s1 : TTaskScheduler} (h : StepsIn P s s1)
    {order : List Nat} (ho : OrderOk s.tasks order) : OrderOk s1.tasks order := by
  refine ⟨ho.nodup, ?_, ?_, ?_⟩
  · intro x hx; rw [h.tasks_length]; exact ho.lt x hx
  · intro v hv
    rw [h.tasks_length] at hv
    rw [h.depsOf]
    exact ho.ready v hv
  · intro i x hx d hd
    rw [h.depsOf] at hd
    exact ho.topo i x hx d hd

theorem finish_fault (s : TTaskScheduler) (id : Nat) (c : Except String (Option Value)) :
    (finish s id c).1 ≠ .error .outOfRange ∧ (finish s id c).1 ≠ .error .diverged := by
  cases c <;> simp [finish]

/-- Resolving an argument whose target is registered never indexes out of
range, and does not exhaust the recursion depth when the target sits at a
position of `order` below the depth. -/
theorem resolve_safe (order : List Nat) (fuel : Nat)
    (ih : ∀ (s : TTaskScheduler) (T : Ty) (j : Nat), InRange s.tasks → j < s.tasks.length →
      (getResult fuel s T j).1 ≠ .error .outOfRange ∧
      (OrderOk s.tasks order → ∀ k : Nat, order[k]? = some j → k < fuel →
        (getResult fuel s T j).1 ≠ .error .diverged))
    (s : TTaskScheduler) (hr : InRange s.tasks) (a : Arg)
    (ha : ∀ d T, a = .future d T → d < s.tasks.length) :
    (resolve_argument (getResult fuel) s a).1 ≠ .error .outOfRange ∧
    (OrderOk s.tasks order →
      (∀ d T, a = .future d T → ∃ k : Nat, order[k]? = some d ∧ k < fuel) →
      (resolve_argument (getResult fuel) s a).1 ≠ .error .diverged) ∧
    StepsIn (fun _ => True) s (resolve_argument (getResult fuel) s a).2 := by
  cases a with
  | value v => exact ⟨by simp [resolve_argument], fun _ _ => by simp [resolve_argument],
      Relation.ReflTransGen.refl⟩
  | future d T =>
    simp only [resolve_argument]
    obtain ⟨h1, h2⟩ := ih s T d hr (ha d T rfl)
    refine ⟨h1, ?_, (getResult_ok fuel s T d _ _ rfl).steps.mono (fun _ _ => trivial)⟩
    intro ho hk
    obtain ⟨k, hk1, hk2⟩ := hk d T rfl
    exact h2 ho k hk1 hk2

theorem execute_safe (order : List Nat) (fuel : Nat)
    (ih : ∀ (s : TTaskScheduler) (T : Ty) (j : Nat), InRange s.tasks → j < s.tasks.length →
      (getResult fuel s T j).1 ≠ .error .outOfRange ∧
      (OrderOk s.tasks order → ∀ k : Nat, order[k]? = some j → k < fuel →
        (getResult fuel s T j).1 ≠ .error .diverged))
    (s : TTaskScheduler) (id : Nat) (t : Task) (ht : s.tasks[id]? = some t)
    (hr : InRange s.tasks) :
    (execute (getResult fuel) s id t).1 ≠ .error .outOfRange ∧
    (OrderOk s.tasks order → ∀ k : Nat, order[k]? = some id → k ≤ fuel →
      (execute (getResult fuel) s id t).1 ≠ .error .diverged) := by
  have hdlt : ∀ d ∈ t.getDependencies, d < s.tasks.length :=
    fun d hd => hr t (List.getElem?_mem ht) d hd
  have hpos : OrderOk s.tasks order → ∀ k : Nat, order[k]? = some id → k ≤ fuel →
      ∀ d ∈ t.getDependencies, ∃ k' : Nat, order[k']? = some d ∧ k' < fuel := by
    intro ho k hk hkf d hd
    have hd' : d ∈ depsOf s.tasks id := by rw [depsOf_eq ht]; exact hd
    obtain ⟨k', h1, h2⟩ := getElem?_index_of_mem_take (ho.topo k id hk d hd')
    exact ⟨k', h2, by omega⟩
  cases hb : t.body with
  | zero_args func =>
    simp only [execute, hb]
    exact ⟨(finish_fault _ _ _).1, fun _ _ _ _ => (finish_fault _ _ _).2⟩
  | one_args func arg1 =>
    simp only [execute, hb]
    obtain ⟨h1, h2, _⟩ := resolve_safe order fuel ih s hr arg1
      (fun d T e => hdlt d (mem_deps_one hb e))
    cases hres : resolve_argument (getResult fuel) s arg1 with
    | mk r1 sa =>
      rw [hres] at h1 h2
      cases r1 with
      | error e =>
        refine ⟨by simpa using h1, ?_⟩
        intro ho k hk hkf
        have := h2 ho (fun d T e => hpos ho k hk hkf d (mem_deps_one hb e))
        simpa using this
      | ok a1 =>
        exact ⟨(finish_fault _ _ _).1, fun _ _ _ _ => (finish_fault _ _ _).2⟩
  | two_args func arg1 arg2 =>
    simp only [execute, hb]
    obtain ⟨h1, h2, hst⟩ := resolve_safe order fuel ih s hr arg1
      (fun d T e => hdlt d (mem_deps_two_left hb e))
    cases hres : resolve_argument (getResult fuel) s arg1 with
    | mk r1 sa =>
      rw [hres] at h1 h2 hst
      cases r1 with
      | error e =>
        refine ⟨by simpa using h1, ?_⟩
        intro ho k hk hkf
        have := h2 ho (fun d T e => hpos ho k hk hkf d (mem_deps_two_left hb e))
        simpa using this
      | ok a1 =>
        simp only
        have hst' : StepsIn (fun _ => True) s sa := hst
        obtain ⟨g1, g2, _⟩ := resolve_safe order fuel ih sa (hst'.inRange hr) arg2
          (fun d T e => by rw [hst'.tasks_length]; exact hdlt d (mem_deps_two_right hb e))
        cases hres2 : resolve_argument (getResult fuel) sa arg2 with
        | mk r2 sb =>
          rw [hres2] at g1 g2
          cases r2 with
          | error e =>
            refine ⟨by simpa using g1, ?_⟩
            intro ho k hk hkf
            have := g2 (hst'.orderOk ho)
              (fun d T e => hpos ho k hk hkf d (mem_deps_two_right hb e))
            simpa using this
          | ok a2 =>
            exact ⟨(finish_fault _ _ _).1, fun _ _ _ _ => (finish_fault _ _ _).2⟩

/-- With in-range dependencies `getResult` of a registered id never indexes a
vector out of range; and it does not exhaust a recursion depth above the
position of the id in a topological order. -/
theorem getResult_safe (order : List Nat) : ∀ (fuel : Nat) (s : TTaskScheduler) (T : Ty)
    (j : Nat), InRange s.tasks → j < s.tasks.length →
    (getResult fuel s T j).1 ≠ .error .outOfRange ∧
    (OrderOk s.tasks order → ∀ k : Nat, order[k]? = some j → k < fuel →
      (getResult fuel s T j).1 ≠ .error .diverged) := by
  intro fuel
  induction fuel with
  | zero =>
    intro s T j _ _
    exact ⟨by simp [getResult], fun _ k _ hk => absurd hk (Nat.not_lt_zero k)⟩
  | succ fuel ih =>
    intro s T j hr hj
    have ht : s.tasks[j]? = some s.tasks[j] := List.getElem?_eq_getElem hj
    simp only [getResult, ht]
    cases hc : (s.tasks[j]).completed with
    | true =>
      simp only [if_true, ht]
      cases (s.tasks[j]).result.get T <;> simp
    | false =>
      simp only [Bool.false_eq_true, if_false]
      obtain ⟨h1, h2⟩ := execute_safe order fuel ih s j _ ht hr
      cases he : execute (getResult fuel) s j s.tasks[j] with
      | mk r1 sa =>
        rw [he] at h1 h2
        cases r1 with
        | error e =>
          refine ⟨by simpa using h1, ?_⟩
          intro ho k hk hkf
          have := h2 ho k hk (by omega)
          simpa using this
        | ok u =>
          simp only
          have ex := execute_ok fuel (getResult_ok fuel) s j _ ht hc _ sa he
          obtain ⟨_, t1, e1, _⟩ := ex.ok rfl
          simp only [e1]
          cases t1.result.get T <;> simp

theorem runOrder_safe (fuel : Nat) : ∀ (order : List Nat) (s : TTaskScheduler),
    InRange s.tasks → (∀ x ∈ order, x < s.tasks.length) →
    (runOrder fuel order s).1 ≠ .error .outOfRange := by
  intro order
  induction order with
  | nil => intro s _ _; simp [runOrder]
  | cons id rest ih =>
    intro s hr hlt
    have hid : id < s.tasks.length := hlt id (List.mem_cons_self _ _)
    have ht : s.tasks[id]? = some s.tasks[id] := List.getElem?_eq_getElem hid
    simp only [runOrder, ht]
    cases hc : (s.tasks[id]).completed with
    | true =>
      simp only [if_true]
      exact ih s hr (fun x hx => hlt x (List.mem_cons_of_mem _ hx))
    | false =>
      simp only [Bool.false_eq_true, if_false]
      have h1 := (execute_safe [] fuel (getResult_safe [] fuel) s id _ ht hr).1
      cases he : execute (getResult fuel) s id s.tasks[id] with
      | mk r1 sa =>
        rw [he] at h1
        cases r1 with
        | error e => simpa using h1
        | ok u =>
          simp only
          have ex := execute_ok fuel (getResult_ok fuel) s id _ ht hc _ sa he
          have hst : StepsIn (fun _ => True) s sa := ex.steps.mono (fun _ _ => trivial)
          exact ih sa (hst.inRange hr)
            (fun x hx => by rw [hst.tasks_length]; exact hlt x (List.mem_cons_of_mem _ hx))

theorem resolve_fuel_succ (f : Nat)
    (ih : ∀ (s : TTaskScheduler) (T : Ty) (j : Nat), (getResult f s T j).1 ≠ .error .diverged →
      getResult (f + 1) s T j = getResult f s T j)
    (s : TTaskScheduler) (a : Arg)
    (h : (resolve_argument (getResult f) s a).1 ≠ .error .diverged) :
    resolve_argument (getResult (f + 1)) s a = resolve_argument (getResult f) s a := by
  cases a with
  | value v => rfl
  | future d T => exact ih s T d h

theorem execute_fuel_succ (f : Nat)
    (ih : ∀ (s : TTaskScheduler) (T : Ty) (j : Nat), (getResult f s T j).1 ≠ .error .diverged →
      getResult (f + 1) s T j = getResult f s T j)
    (s : TTaskScheduler) (id : Nat) (t : Task)
    (h : (execute (getResult f) s id t).1 ≠ .error .diverged) :
    execute (getResult (f + 1)) s id t = execute (getResult f) s id t := by
  cases hb : t.body with
  | zero_args func => simp only [execute, hb]
  | one_args func arg1 =>
    simp only [execute, hb] at h ⊢
    have h1 : (resolve_argument (getResult f) s arg1).1 ≠ .error .diverged := by
      intro hc
      cases hres : resolve_argument (getResult f) s arg1 with
      | mk r1 sa =>
        rw [hres] at hc h
        simp only at hc
        subst hc
        exact h rfl
    rw [resolve_fuel_succ f ih s arg1 h1]
  | two_args func arg1 arg2 =>
    simp only [execute, hb] at h ⊢
    have h1 : (resolve_argument (getResult f) s arg1).1 ≠ .error .diverged := by
      intro hc
      cases hres : resolve_argument (getResult f) s arg1 with
      | mk r1 sa =>
        rw [hres] at hc h
        simp only at hc
        subst hc
        exact h rfl
    rw [resolve_fuel_succ f ih s arg1 h1]
    cases hres : resolve_argument (getResult f) s arg1 with
    | mk r1 sa =>
      rw [hres] at h
      cases r1 with
      | error e => rfl
      | ok a1 =>
        simp only at h ⊢
        have h2 : (resolve_argument (getResult f) sa arg2).1 ≠ .error .diverged := by
          intro hc
          cases hres2 : resolve_argument (getResult f) sa arg2 with
          | mk r2 sb =>
            rw [hres2] at hc h
            simp only at hc
            subst hc
            exact h rfl
        rw [resolve_fuel_succ f ih sa arg2 h2]

/-- A call that ends within recursion depth `f` ends the same way with more depth. -/
theorem getResult_fuel_succ : ∀ (f : Nat) (s : TTaskScheduler) (T : Ty) (j : Nat),
    (getResult f s T j).1 ≠ .error .diverged → getResult (f + 1) s T j = getResult f s T j := by
  intro f
  induction f with
  | zero => intro s T j h; exact absurd rfl h
  | succ f ih =>
    intro s T j h
    cases ht : s.tasks[j]? with
    | none => simp only [getResult, ht]
    | some t =>
      cases hc : t.completed with
      | true => simp only [getResult, ht, hc, if_true]
      | false =>
        have he : (execute (getResult f) s j t).1 ≠ .error .diverged := by
          intro hcon
          apply h
          simp only [getResult, ht, hc, Bool.false_eq_true, if_false]
          cases hx : execute (getResult f) s j t with
          | mk r1 sa =>
            rw [hx] at hcon
            simp only at hcon
            subst hcon
            rfl
        have := execute_fuel_succ f ih s j t he
        rw [getResult, getResult]
        simp only [ht, hc, Bool.false_eq_true, if_false, this]

theorem getResult_fuel_le (f : Nat) (s : TTaskScheduler) (T : Ty) (j : Nat)
    (h : (getResult f s T j).1 ≠ .error .diverged) :
    ∀ fuel, f ≤ fuel → getResult fuel s T j = getResult f s T j := by
  intro fuel hle
  induction fuel with
  | zero =>
    have : f = 0 := by omega
    subst this; rfl
  | succ fuel ih =>
    by_cases hf : f = fuel + 1
    · subst hf; rfl
    · have e := ih (by omega)
      rw [← e] at h
      rw [getResult_fuel_succ fuel s T j h, e]

/-- C19. With in-range dependencies and no cycle, `getResult` of a registered
id ends within recursion depth `tasks.size()`: with that much fuel the call
does not run out of fuel, and with any more fuel it gives the same result
and final state. -/
theorem C19_getResult_terminates (s : TTaskScheduler) (hr : InRange s.tasks)
    (hac : ¬ HasCycle s.tasks) (id : Nat) (hid : id < s.tasks.length) (T : Ty) :
    (getResult s.tasks.length s T id).1 ≠ .error .diverged ∧
    ∀ fuel, s.tasks.length ≤ fuel →
      getResult fuel s T id = getResult s.tasks.length s T id := by
  obtain ⟨order, _, ho⟩ := kahnOrder_ok s.tasks hr
  have hl : order.length = s.tasks.length := (ho.length_eq_iff hr).2 hac
  have hp := ho.perm_of_length hl
  obtain ⟨k, hk⟩ := List.mem_iff_getElem?.1 (hp.mem_iff.2 (List.mem_range.2 hid))
  have hkl : k < order.length := by
    by_contra hc
    rw [List.getElem?_eq_none (by omega)] at hk
    exact Option.noConfusion hk
  have h := (getResult_safe order s.tasks.length s T id hr hid).2 ho k hk (by omega)
  exact ⟨h, getResult_fuel_le _ s T id h⟩

theorem C19_getResult_terminates_witness :
    InRange multipleDependencies.tasks ∧ ¬ HasCycle multipleDependencies.tasks ∧
    3 < multipleDependencies.tasks.length ∧
    (getResult multipleDependencies.tasks.length multipleDependencies .int 3).1
      ≠ .error .diverged ∧
    ∀ fuel, multipleDependencies.tasks.length ≤ fuel →
      getResult fuel multipleDependencies .int 3
        = getResult multipleDependencies.tasks.length multipleDependencies .int 3 :=
  ⟨by decide, acyclic_of_backward (by decide), by decide,
    C19_getResult_terminates multipleDependencies (by decide) (acyclic_of_backward (by decide))
      3 (by decide) .int⟩

/-- One `if (--in_degree[v] == 0) q.push(v)` keeps the inner invariant. -/
theorem relax_step (ts : List Task) (order q1 done : List Nat) (in_degree : List Int)
    (pushed : List Nat) (v : Nat) (hv : v < ts.length)
    (hinv : InnerInv ts order done in_degree pushed)
    (hc : (done ++ [v]).count v ≤ remaining ts order v) :
    ∃ in_degree1 pushed1, relax (in_degree, q1 ++ pushed) v = .ok (in_degree1, q1 ++ pushed1) ∧
      InnerInv ts order (done ++ [v]) in_degree1 pushed1 := by
  have hdeg := hinv.deg v hv
  have hc1 : (done ++ [v]).count v = done.count v + 1 := by simp
  have hnp : v ∉ pushed := by
    intro h
    have := ((hinv.mem v).1 h).2
    omega
  refine ⟨in_degree.set v ((remaining ts order v : Int) - done.count v - 1),
    (if remaining ts order v = done.count v + 1 then pushed ++ [v] else pushed), ?_, ?_⟩
  · simp only [relax, hdeg]
    by_cases hz : remaining ts order v = done.count v + 1
    · have : ((remaining ts order v : Int) - done.count v - 1 = 0) := by omega
      simp [hz, this]
    · have : ¬ ((remaining ts order v : Int) - done.count v - 1 = 0) := by omega
      simp [hz, this]
  · refine ⟨by simp [hinv.len], ?_, ?_, ?_⟩
    · intro w hw
      by_cases hwv : v = w
      · subst hwv
        rw [hc1]
        simp [List.getElem?_set, hinv.len, hv]
        omega
      · have : (v == w) = false := by simpa using hwv
        simp [List.getElem?_set, hwv, hinv.deg w hw, List.count_append, List.count_cons, this]
    · split
      · exact List.Nodup.append hinv.nodup (List.nodup_singleton v) (by simpa using hnp)
      · exact hinv.nodup
    · intro w
      by_cases hwv : w = v
      · subst hwv
        rw [hc1]
        split
        · simp_all
        · simp only [List.mem_append, List.mem_singleton, or_true, true_and]
          constructor
          · intro h; exact absurd h hnp
          · intro h; omega
      · have : (v == w) = false := by simpa using (fun h : v = w => hwv h.symm)
        have hcw : (done ++ [v]).count w = done.count w := by
          simp [List.count_append, List.count_cons, this]
        rw [hcw]
        split
        · simp [hwv, hinv.mem w]
        · simp [hwv, hinv.mem w]

theorem InnerInv.nonneg {ts : List Task} {order done : List Nat} {in_degree : List Int}
    {pushed : List Nat} (hinv : InnerInv ts order done in_degree pushed)
    (hc : ∀ v, done.count v ≤ remaining ts order v) : ∀ x ∈ in_degree, 0 ≤ x := by
  intro x hx
  obtain ⟨w, hw⟩ := List.mem_iff_getElem?.1 hx
  have hwl : w < ts.length := by
    by_contra hcon
    rw [List.getElem?_eq_none (by rw [hinv.len]; omega)] at hw
    exact Option.noConfusion hw
  rw [hinv.deg w hwl] at hw
  have := hc w
  have hx' := Option.some.inj hw
  omega

theorem relaxAllStates_nonneg (ts : List Task) (order q1 vs : List Nat)
    (hlt : ∀ v ∈ vs, v < ts.length)
    (hcount : ∀ v, vs.count v ≤ remaining ts order v) :
    ∀ (rest done : List Nat) (in_degree : List Int) (pushed : List Nat),
      done ++ rest = vs → InnerInv ts order done in_degree pushed →
      ∀ st ∈ relaxAllStates rest (in_degree, q1 ++ pushed), ∀ x ∈ st, 0 ≤ x := by
  intro rest
  induction rest with
  | nil => intro done in_degree pushed _ _ st hst; simp [relaxAllStates] at hst
  | cons v rest ih =>
    intro done in_degree pushed hd hinv st hst
    have hv : v < ts.length := hlt v (by rw [← hd]; simp)
    have hpre : ∀ w, (done ++ [v]).count w ≤ vs.count w := by
      intro w
      have e : vs.count w = (done ++ [v]).count w + rest.count w := by
        rw [← hd, show done ++ v :: rest = (done ++ [v]) ++ rest by simp]
        exact List.count_append _ _ _
      omega
    obtain ⟨d1, p1, e1, i1⟩ := relax_step ts order q1 done in_degree pushed v hv hinv
      (le_trans (hpre v) (hcount v))
    simp only [relaxAllStates, e1, List.mem_cons] at hst
    rcases hst with rfl | hst
    · exact i1.nonneg (fun w => le_trans (hpre w) (hcount w))
    · exact ih (done ++ [v]) d1 p1 (by simp [← hd]) i1 st hst

theorem kahnLoopStates_nonneg (ts : List Task) (adj : List (List Nat))
    (hg : ∀ u, u < ts.length → ∀ v, (adj[u]?.getD []).count v = (depsOf ts v).count u)
    (hlen : adj.length = ts.length) :
    ∀ (fuel : Nat) (in_degree : List Int) (q order : List Nat),
      LoopInv ts in_degree q order →
      ∀ st ∈ kahnLoopStates fuel adj in_degree q, ∀ x ∈ st, 0 ≤ x := by
  intro fuel
  induction fuel with
  | zero =>
    intro in_degree q order _ st hst
    cases q <;> simp [kahnLoopStates] at hst
  | succ fuel ih =>
    intro in_degree q order hinv st hst
    cases q with
    | nil => simp [kahnLoopStates] at hst
    | cons u q1 =>
      obtain ⟨vs, d1, q2, hvs, e1, i1⟩ := loop_step ts adj in_degree hg hlen u q1 order hinv
      have hu : u < ts.length := hinv.lt u (by simp)
      have huo : u ∉ order := by
        have := hinv.nodup
        rw [List.nodup_append] at this
        intro h
        exact this.2.2 h (List.mem_cons_self _ _)
      have hcnt : ∀ v, vs.count v = (depsOf ts v).count u := by
        intro v
        have := hg u hu v
        rwa [hvs] at this
      have hlt : ∀ v ∈ vs, v < ts.length := by
        intro v hv
        have h1 : 0 < vs.count v := List.count_pos_iff.2 hv
        rw [hcnt v] at h1
        exact depsOf_lt (List.count_pos_iff.1 h1)
      have hcount : ∀ v, vs.count v ≤ remaining ts order v := by
        intro v
        have := remaining_snoc ts order u v huo
        rw [hcnt v]
        omega
      have h0 : InnerInv ts order [] in_degree [] :=
        ⟨hinv.len, by intro v hv; simpa using hinv.deg v hv, List.nodup_nil, by simp⟩
      have hin := relaxAllStates_nonneg ts order q1 vs hlt hcount vs [] in_degree [] (by simp) h0
      simp only [List.append_nil] at hin
      simp only [kahnLoopStates, hvs, e1, List.mem_append] at hst
      rcases hst with hst | hst
      · exact hin st hst
      · exact ih d1 q2 (order ++ [u]) i1 st hst

/-- C20. With in-range dependencies no vector access of `executeAll` is out of
range (the construction loops and the main loop succeed, neither they nor the
execution loop end in the out-of-range fault), no entry of `in_degree` ever
is below zero, and every id appended to the order is a registered id. -/
theorem C20_executeAll_index_safety (s : TTaskScheduler) (hr : InRange s.tasks) :
    (∃ adj in_degree, buildGraph s.tasks = .ok (adj, in_degree)) ∧
    (∃ order, kahnOrder s.tasks = .ok order ∧ ∀ x ∈ order, x < s.tasks.length) ∧
    (∀ fuel, (executeAll fuel s).1 ≠ .error .outOfRange) ∧
    (∀ st ∈ inDegreeStates s.tasks, ∀ x ∈ st, 0 ≤ x) := by
  obtain ⟨adj, in_degree, hb, hg⟩ := buildGraph_ok s.tasks hr
  obtain ⟨order, hk, ho⟩ := kahnOrder_ok s.tasks hr
  refine ⟨⟨adj, in_degree, hb⟩, ⟨order, hk, ho.lt⟩, ?_, ?_⟩
  · intro fuel
    rcases executeAll_cases fuel s with ⟨e, he, _⟩ | ⟨o, _, _, h⟩ | ⟨o, ho', _, h⟩
    · rw [hk] at he; exact Except.noConfusion he
    · rw [h]; simp
    · rw [h]
      rw [hk] at ho'
      cases ho'
      exact runOrder_safe fuel order s hr ho.lt
  · intro st hst
    simp only [inDegreeStates, hb, List.mem_cons] at hst
    rcases hst with rfl | hst
    · intro x hx
      obtain ⟨w, hw⟩ := List.mem_iff_getElem?.1 hx
      have hwl : w < s.tasks.length := by
        by_contra hcon
        rw [List.getElem?_eq_none (by rw [hg.deg_len]; omega)] at hw
        exact Option.noConfusion hw
      rw [hg.deg_eq w hwl] at hw
      have := Option.some.inj hw
      omega
    · exact kahnLoopStates_nonneg s.tasks adj hg.adj_count hg.adj_len s.tasks.length in_degree
        (seedQueue in_degree) [] (seedQueue_inv s.tasks adj in_degree hg) st hst

theorem C20_executeAll_index_safety_witness :
    InRange multipleDependencies.tasks ∧
    (∃ adj in_degree, buildGraph multipleDependencies.tasks = .ok (adj, in_degree)) ∧
    (∃ order, kahnOrder multipleDependencies.tasks = .ok order ∧
      ∀ x ∈ order, x < multipleDependencies.tasks.length) ∧
    (∀ fuel, (executeAll fuel multipleDependencies).1 ≠ .error .outOfRange) ∧
    (∀ st ∈ inDegreeStates multipleDependencies.tasks, ∀ x ∈ st, 0 ≤ x) :=
  ⟨by decide, C20_executeAll_index_safety multipleDependencies (by decide)⟩

theorem rowOf_sorted (u : Nat) (ts : List Task) : ∀ i, (rowOf u i ts).Sorted (· ≤ ·) := by
  induction ts with
  | nil => intro i; simp [rowOf]
  | cons t rest ih =>
    intro i
    simp only [rowOf, List.Sorted]
    rw [List.pairwise_append]
    refine ⟨by simp [List.pairwise_replicate], ih (i + 1), ?_⟩
    intro a ha b hb
    have ea := List.eq_of_mem_replicate ha
    have hb' := (mem_rowOf_lt u b rest (i + 1) hb).1
    omega

theorem buildGraph_rows (ts : List Task) (hr : InRange ts) (adj : List (List Nat))
    (in_degree : List Int) (hb : buildGraph ts = .ok (adj, in_degree)) :
    ∀ u, u < ts.length → adj[u]? = some (rowOf u 0 ts) := by
  obtain ⟨st1, e, l1, _, hadj, _⟩ :=
    buildFrom_ok ts.length ts 0 (List.replicate ts.length [], List.replicate ts.length 0)
      (by simp) (by simp) (by simp) hr
  have hst : st1 = (adj, in_degree) := by
    have : buildGraph ts = .ok st1 := by simpa [buildGraph] using e
    rw [this] at hb
    exact Except.ok.inj hb
  subst hst
  intro u hu
  have h := hadj u hu
  have hul : u < adj.length := by simp at l1; omega
  have e1 : adj[u]? = some adj[u] := List.getElem?_eq_getElem hul
  rw [e1] at h ⊢
  simp [List.getElem?_replicate, hu] at h
  rw [h]

theorem relaxAll_sublist (vs : List Nat) : ∀ (st st1 : List Int × List Nat),
    relaxAll vs st = .ok st1 → ∃ p, st1.2 = st.2 ++ p ∧ p.Sublist vs := by
  induction vs with
  | nil =>
    intro st st1 h
    simp only [relaxAll, Except.ok.injEq] at h
    subst h
    exact ⟨[], by simp, List.Sublist.refl _⟩
  | cons v rest ih =>
    intro st st1 h
    simp only [relaxAll] at h
    cases h1 : relax st v with
    | error e => rw [h1] at h; exact Except.noConfusion h
    | ok st2 =>
      rw [h1] at h
      obtain ⟨p, hp, hsub⟩ := ih st2 st1 h
      unfold relax at h1
      cases hd : st.1[v]? with
      | none => rw [hd] at h1; exact Except.noConfusion h1
      | some d =>
        rw [hd] at h1
        simp only [Except.ok.injEq] at h1
        subst h1
        by_cases hz : d - 1 = 0
        · simp only [hz, if_true] at hp
          exact ⟨v :: p, by rw [hp]; simp, hsub.cons₂ v⟩
        · simp only [hz, if_false] at hp
          exact ⟨p, hp, hsub.cons v⟩

theorem mem_readyWith {ts : List Task} {processed : List Nat} {u v : Nat} :
    v ∈ readyWith ts processed u ↔
      u ∈ depsOf ts v ∧ ∀ d ∈ depsOf ts v, d ∈ processed := by
  simp only [readyWith, List.mem_filter, List.mem_range, decide_eq_true_eq]
  constructor
  · exact fun h => h.2
  · exact fun h => ⟨depsOf_lt h.1, h⟩

theorem readyWith_sorted (ts : List Task) (processed : List Nat) (u : Nat) :
    (readyWith ts processed u).Sorted (· < ·) :=
  List.Sorted.filter _ (List.sorted_lt_range _)

/-- One iteration of the main loop appends to the queue exactly the tasks that
become ready by dequeuing `u`, in ascending id order. -/
theorem loop_step_fifo (ts : List Task) (adj : List (List Nat)) (in_degree : List Int)
    (hg : ∀ u, u < ts.length → ∀ v, (adj[u]?.getD []).count v = (depsOf ts v).count u)
    (hlen : adj.length = ts.length)
    (hrows : ∀ u, u < ts.length → adj[u]? = some (rowOf u 0 ts))
    (u : Nat) (q1 order : List Nat) (hinv : LoopInv ts in_degree (u :: q1) order) :
    ∃ vs in_degree1, adj[u]? = some vs ∧
      relaxAll vs (in_degree, q1) = .ok (in_degree1, q1 ++ readyWith ts (order ++ [u]) u) ∧
      LoopInv ts in_degree1 (q1 ++ readyWith ts (order ++ [u]) u) (order ++ [u]) := by
  obtain ⟨vs, d1, q2, hvs, e1, i1⟩ := loop_step ts adj in_degree hg hlen u q1 order hinv
  have hu : u < ts.length := hinv.lt u (by simp)
  have huo : u ∉ order := by
    have := hinv.nodup
    rw [List.nodup_append] at this
    intro h
    exact this.2.2 h (List.mem_cons_self _ _)
  have hvs' : vs = rowOf u 0 ts := by
    have := hrows u hu
    rw [hvs] at this
    exact Option.some.inj this
  have hcnt : ∀ v, vs.count v = (depsOf ts v).count u := by
    intro v
    have := hg u hu v
    rwa [hvs] at this
  obtain ⟨p, hp, hsub⟩ := relaxAll_sublist vs _ _ e1
  simp only at hp
  subst hp
  have hpn : p.Nodup := by
    have := i1.nodup
    rw [← List.append_assoc] at this
    exact (List.nodup_append.1 this).2.1
  have hps : p.Sorted (· < ·) := by
    have h1 : p.Sorted (· ≤ ·) := List.Pairwise.sublist hsub (hvs' ▸ rowOf_sorted u ts 0)
    exact h1.lt_of_le hpn
  have hmem : ∀ v, v ∈ p ↔ v ∈ readyWith ts (order ++ [u]) u := by
    intro v
    rw [mem_readyWith]
    constructor
    · intro hv
      have hvv : v ∈ vs := hsub.subset hv
      have h1 : 0 < vs.count v := List.count_pos_iff.2 hvv
      rw [hcnt v] at h1
      have hud : u ∈ depsOf ts v := List.count_pos_iff.1 h1
      have hvl : v < ts.length := depsOf_lt hud
      have := (i1.ready v hvl).1 (by simp [hv])
      exact ⟨hud, remaining_eq_zero.1 this⟩
    · rintro ⟨hud, hall⟩
      have hvl : v < ts.length := depsOf_lt hud
      have h0 : remaining ts (order ++ [u]) v = 0 := remaining_eq_zero.2 hall
      have hin := (i1.ready v hvl).2 h0
      have hnot : v ∉ order ++ u :: q1 := by
        intro hc
        have := remaining_eq_zero.1 ((hinv.ready v hvl).1 hc) u hud
        exact huo this
      rcases List.mem_append.1 hin with h | h
      · rcases List.mem_append.1 h with h | h
        · exact absurd (List.mem_append_left _ h) hnot
        · have hvu : v = u := List.mem_singleton.1 h
          exact absurd (List.mem_append_right _ (hvu ▸ List.mem_cons_self _ _)) hnot
      · rcases List.mem_append.1 h with h | h
        · exact absurd (List.mem_append_right _ (List.mem_cons_of_mem _ h)) hnot
        · exact h
  have hpeq : p = readyWith ts (order ++ [u]) u :=
    List.eq_of_perm_of_sorted
      ((List.perm_ext_iff_of_nodup hpn (readyWith_sorted ts _ u).nodup).2 hmem) hps
      (readyWith_sorted ts _ u)
  rw [← hpeq]
  exact ⟨vs, d1, hvs, e1, i1⟩

theorem readyAfter_append {ts : List Task} {order : List Nat} (u : Nat) {k : Nat}
    (hk : k < order.length) : readyAfter ts (order ++ [u]) k = readyAfter ts order k := by
  simp only [readyAfter, List.getElem?_append_left hk,
    List.take_append_of_le_length (show k + 1 ≤ order.length by omega)]

theorem readyAfter_last (ts : List Task) (order : List Nat) (u : Nat) :
    readyAfter ts (order ++ [u]) order.length = readyWith ts (order ++ [u]) u := by
  have h1 : (order ++ [u])[order.length]? = some u := by
    rw [List.getElem?_append_right (le_refl _)]; simp
  have h2 : (order ++ [u]).take (order.length + 1) = order ++ [u] := by
    apply List.take_of_length_le; simp
  simp only [readyAfter, h1, h2]

theorem kahnLoop_fifo (ts : List Task) (adj : List (List Nat))
    (hg : ∀ u, u < ts.length → ∀ v, (adj[u]?.getD []).count v = (depsOf ts v).count u)
    (hlen : adj.length = ts.length)
    (hrows : ∀ u, u < ts.length → adj[u]? = some (rowOf u 0 ts)) (seed : List Nat) :
    ∀ (fuel : Nat) (in_degree : List Int) (q order : List Nat),
      LoopInv ts in_degree q order → ts.length ≤ fuel + order.length →
      order ++ q = seed ++ (List.range order.length).flatMap (readyAfter ts order) →
      ∃ final, kahnLoop fuel adj in_degree q order = .ok final ∧
        final = seed ++ (List.range final.length).flatMap (readyAfter ts final) := by
  intro fuel
  induction fuel with
  | zero =>
    intro in_degree q order hinv hf hshape
    cases q with
    | nil => exact ⟨order, by simp [kahnLoop], by simpa using hshape⟩
    | cons u q1 =>
      exfalso
      have h1 : (order ++ u :: q1).length ≤ ts.length := by
        have hsub : (order ++ u :: q1) ⊆ List.range ts.length := by
          intro x hx; exact List.mem_range.2 (hinv.lt x hx)
        have := (List.subperm_of_subset hinv.nodup hsub).length_le
        simpa using this
      simp at h1
      omega
  | succ fuel ih =>
    intro in_degree q order hinv hf hshape
    cases q with
    | nil => exact ⟨order, by simp [kahnLoop], by simpa using hshape⟩
    | cons u q1 =>
      obtain ⟨vs, d1, hvs, e1, i1⟩ :=
        loop_step_fifo ts adj in_degree hg hlen hrows u q1 order hinv
      have hshape' : (order ++ [u]) ++ (q1 ++ readyWith ts (order ++ [u]) u) =
          seed ++ (List.range (order ++ [u]).length).flatMap (readyAfter ts (order ++ [u])) := by
        have e : (order ++ [u]) ++ (q1 ++ readyWith ts (order ++ [u]) u) =
            (order ++ u :: q1) ++ readyWith ts (order ++ [u]) u := by simp
        rw [e, hshape, List.length_append, List.length_singleton, List.range_succ,
          List.flatMap_append, List.flatMap_singleton, readyAfter_last, List.append_assoc]
        congr 2
        apply List.flatMap_congr
        intro k hk
        exact (readyAfter_append u (List.mem_range.1 hk)).symm
      obtain ⟨final, e2, hfin⟩ := ih d1 _ (order ++ [u]) i1 (by simp; omega) hshape'
      exact ⟨final, by simp [kahnLoop, hvs, e1, e2], hfin⟩

theorem seedQueue_eq (ts : List Task) (adj : List (List Nat)) (in_degree : List Int)
    (hg : GraphOk ts adj in_degree) : seedQueue in_degree = noDependencies ts := by
  simp only [seedQueue, noDependencies, hg.deg_len]
  apply List.filter_congr
  intro v hv
  have hvl : v < ts.length := List.mem_range.1 hv
  rw [hg.deg_eq v hvl]
  cases hd : depsOf ts v with
  | nil => simp
  | cons a l =>
    simp only [List.length_cons, Option.some.injEq, reduceCtorEq, decide_False,
      decide_eq_false_iff_not]
    push_cast
    omega

/-- C15. With in-range dependencies the computed order is the FIFO order of
Kahn's algorithm: first the tasks without dependencies in ascending id order,
then, for each position `k` of the order in turn, the tasks that become ready
when the task at position `k` is dequeued, consecutively and in ascending id
order; a scheduler of independent tasks is ordered `0, 1, ..., n-1`. -/
theorem C15_order_is_fifo_lowest_id_first (s : TTaskScheduler) (hr : InRange s.tasks) :
    ∃ order, kahnOrder s.tasks = .ok order ∧
      order = noDependencies s.tasks ++
        (List.range order.length).flatMap (readyAfter s.tasks order) ∧
      (noDependencies s.tasks).Sorted (· < ·) ∧
      (∀ k, (readyAfter s.tasks order k).Sorted (· < ·)) ∧
      ((∀ t ∈ s.tasks, t.getDependencies = []) → order = List.range s.tasks.length) := by
  obtain ⟨adj, in_degree, hb, hg⟩ := buildGraph_ok s.tasks hr
  have hrows := buildGraph_rows s.tasks hr adj in_degree hb
  obtain ⟨order, e, hshape⟩ := kahnLoop_fifo s.tasks adj hg.adj_count hg.adj_len hrows
    (noDependencies s.tasks) s.tasks.length in_degree (seedQueue in_degree) []
    (seedQueue_inv s.tasks adj in_degree hg) (by simp)
    (by simp [seedQueue_eq s.tasks adj in_degree hg])
  have hk : kahnOrder s.tasks = .ok order := by simp [kahnOrder, hb, e]
  refine ⟨order, hk, hshape, List.Sorted.filter _ (List.sorted_lt_range _), ?_, ?_⟩
  · intro k
    unfold readyAfter
    cases order[k]? with
    | none => exact List.sorted_nil
    | some u => exact readyWith_sorted _ _ u
  · intro hall
    have hdeps : ∀ v, depsOf s.tasks v = [] := by
      intro v
      unfold depsOf
      cases hv : s.tasks[v]? with
      | none => rfl
      | some t => simp [hall t (List.getElem?_mem hv)]
    have h1 : noDependencies s.tasks = List.range s.tasks.length := by
      simp [noDependencies, hdeps]
    have h2 : (List.range order.length).flatMap (readyAfter s.tasks order) = [] := by
      rw [List.flatMap_eq_nil_iff]
      intro k _
      unfold readyAfter
      cases order[k]? with
      | none => rfl
      | some u => simp [readyWith, hdeps]
    rw [hshape, h2, h1]
    simp

theorem C15_order_is_fifo_lowest_id_first_witness :
    InRange multipleDependencies.tasks ∧
    ∃ order, kahnOrder multipleDependencies.tasks = .ok order ∧
      order = noDependencies multipleDependencies.tasks ++
        (List.range order.length).flatMap (readyAfter multipleDependencies.tasks order) ∧
      (noDependencies multipleDependencies.tasks).Sorted (· < ·) ∧
      (∀ k, (readyAfter multipleDependencies.tasks order k).Sorted (· < ·)) ∧
      ((∀ t ∈ multipleDependencies.tasks, t.getDependencies = []) →
        order = List.range multipleDependencies.tasks.length) :=
  ⟨by decide, C15_order_is_fifo_lowest_id_first multipleDependencies (by decide)⟩

theorem Task.ext_fields {t1 t2 : Task} (hb : t1.body = t2.body) (hr : t1.result = t2.result)
    (hc : t1.completed = t2.completed) : t1 = t2 := by
  cases t1; cases t2; simp_all

theorem MyAny.ext_ptr {a b : MyAny} (h : a.ptr = b.ptr) : a = b := by
  cases a; cases b; simp_all

theorem Between.store {s s1 s' : TTaskScheduler} (hbt : Between s s1 s') {j : Nat} {t1 : Task}
    (h1 : s1.tasks[j]? = some t1) (hc : t1.completed = true) (f : Task → Task) {t' : Task}
    (ht' : s'.tasks[j]? = some t') (hf : f t' = t1) (log : List Call) :
    Between s s1 ⟨s'.tasks.modify f j, log⟩ ∧
      (⟨s'.tasks.modify f j, log⟩ : TTaskScheduler).tasks[j]? = some t1 := by
  have hj : (s'.tasks.modify f j)[j]? = some t1 := by
    simp [List.getElem?_modify, ht', hf]
  refine ⟨⟨by simp [hbt.len], ?_, ?_⟩, hj⟩
  · intro i ti hi hci
    by_cases hij : i = j
    · subst hij
      simp only at hi
      rw [hj] at hi
      cases hi
      exact h1
    · have : (s'.tasks.modify f j)[i]? = s'.tasks[i]? := by
        simp [List.getElem?_modify, Ne.symm hij]
      simp only at hi
      rw [this] at hi
      exact hbt.done i ti hi hci
  · intro i ti hi hci
    by_cases hij : i = j
    · subst hij
      simp only at hi
      rw [hj] at hi
      cases hi
      rw [hc] at hci
      exact Bool.noConfusion hci
    · have : (s'.tasks.modify f j)[i]? = s'.tasks[i]? := by
        simp [List.getElem?_modify, Ne.symm hij]
      simp only at hi
      rw [this] at hi
      exact hbt.pending i ti hi hci

/-- Lazy resolution of an argument of the not-completed task at `id` returns the
value the argument stands for in the fully executed state. -/
theorem resolve_between (τ : Nat → Ty) (s s1 : TTaskScheduler) (hfin : AllRan τ s s1)
    (order : List Nat) (fuel : Nat)
    (ih : ∀ (s' : TTaskScheduler) (T : Ty) (j k : Nat), Between s s1 s' →
      order[k]? = some j → k < fuel →
      ∃ t1, s1.tasks[j]? = some t1 ∧ Between s s1 (getResult fuel s' T j).2 ∧
        (getResult fuel s' T j).2.tasks[j]? = some t1 ∧
        (getResult fuel s' T j).1 = t1.result.fetch T)
    (s' : TTaskScheduler) (hbt : Between s s1 s') (id : Nat) (t : Task)
    (ht : s'.tasks[id]? = some t) (hc : t.completed = false) (a : Arg) (hty : a.typed τ)
    (hdep : ∀ d T, a = .future d T → d ∈ t.getDependencies)
    (hpos : ∀ d T, a = .future d T → ∃ k : Nat, order[k]? = some d ∧ k < fuel) :
    ∃ v sa, resolve_argument (getResult fuel) s' a = (.ok v, sa) ∧ Between s s1 sa ∧
      sa.tasks[id]? = some t ∧ a.valueIn s1 = some v ∧ v.ty = a.ty := by
  cases a with
  | value v => exact ⟨v, s', rfl, hbt, ht, rfl, rfl⟩
  | future d T =>
    obtain ⟨k, hk, hkf⟩ := hpos d T rfl
    obtain ⟨td, h1, h2, h3, h4⟩ := ih s' T d k hbt hk hkf
    have hT : T = τ d := hty
    obtain ⟨t0, ht0⟩ : ∃ t0, s.tasks[d]? = some t0 := by
      have hlt : d < s1.tasks.length := by
        by_contra hcon
        rw [List.getElem?_eq_none (by omega)] at h1
        exact Option.noConfusion h1
      have hd : d < s.tasks.length := by rw [← hfin.len]; exact hlt
      exact ⟨s.tasks[d], List.getElem?_eq_getElem hd⟩
    obtain ⟨td', e1, _, _, hty1, _⟩ := hfin.ran d t0 ht0
    rw [h1] at e1
    cases e1
    have hget : td.result.get T = some td.result.ptr := by
      simp [MyAny.get, hty1, hT]
    have hres : (getResult fuel s' T d).1 = .ok td.result.ptr := by
      rw [h4]; simp [MyAny.fetch, hget]
    have hkeep := (resolve_ok fuel (getResult_ok fuel) s' id t ht hc (.future d T) hdep
      (getResult fuel s' T d).1 (getResult fuel s' T d).2 rfl).2.2.1 td.result.ptr hres
    refine ⟨td.result.ptr, (getResult fuel s' T d).2, ?_, h2, hkeep.1, ?_, ?_⟩
    · simp only [resolve_argument]
      exact Prod.ext hres rfl
    · simp [Arg.valueIn, h1]
    · simp [Arg.ty, hty1, hT]

/-- Lazy execution of a not-completed task stores the record of the fully
executed state. -/
theorem execute_between (τ : Nat → Ty) (s s1 : TTaskScheduler) (hfin : AllRan τ s s1)
    (hf : Fresh s) (hpt : PlaceholdersTyped τ s.tasks) (hct : CallablesTotal τ s.tasks)
    (order : List Nat) (ho : OrderOk s.tasks order) (fuel : Nat)
    (ih : ∀ (s' : TTaskScheduler) (T : Ty) (j k : Nat), Between s s1 s' →
      order[k]? = some j → k < fuel →
      ∃ t1, s1.tasks[j]? = some t1 ∧ Between s s1 (getResult fuel s' T j).2 ∧
        (getResult fuel s' T j).2.tasks[j]? = some t1 ∧
        (getResult fuel s' T j).1 = t1.result.fetch T)
    (s' : TTaskScheduler) (hbt : Between s s1 s') (id k : Nat) (t : Task)
    (ht : s'.tasks[id]? = some t) (hc : t.completed = false)
    (hk : order[k]? = some id) (hkf : k ≤ fuel) :
    ∃ t1 sa, s1.tasks[id]? = some t1 ∧ execute (getResult fuel) s' id t = (.ok (), sa) ∧
      Between s s1 sa ∧ sa.tasks[id]? = some t1 := by
  have ht0 : s.tasks[id]? = some t := hbt.pending id t ht hc
  obtain ⟨t1, h1, hb1, hc1, _, hout⟩ := hfin.ran id t ht0
  have hfresh := (hf t (List.getElem?_mem ht0)).2
  have hp := hpt t (List.getElem?_mem ht0)
  have hcall := hct id t ht0
  have hpos : ∀ d ∈ t.getDependencies, ∃ k' : Nat, order[k']? = some d ∧ k' < fuel := by
    intro d hd
    have hd' : d ∈ depsOf s.tasks id := by rw [depsOf_eq ht0]; exact hd
    obtain ⟨k', h1, h2⟩ := getElem?_index_of_mem_take (ho.topo k id hk d hd')
    exact ⟨k', h2, by omega⟩
  unfold Task.outputOk at hout
  cases hb : t.body with
  | zero_args func =>
    rw [hb1, hb] at hout
    simp only [hb] at hcall
    simp only at hout
    rcases hcall with ⟨v, hv, _⟩ | ⟨hv, _⟩
    · have hr : t1.result.ptr = v := by
        rcases hout with h | h
        · rw [hv] at h
          simpa using h.symm
        · rw [hv] at h
          exact absurd h.1 (by simp)
      have heq : Task.complete (some v) t = t1 :=
        Task.ext_fields (by rw [Task.complete_body, hb1])
          (MyAny.ext_ptr (by simp [Task.complete, hr]))
          (by rw [Task.complete_completed, hc1])
      obtain ⟨b1, b2⟩ := hbt.store h1 hc1 (Task.complete (some v)) ht heq
        (s'.log ++ [⟨id, .ok (some v)⟩])
      exact ⟨t1, _, h1, by simp only [execute, hb, hv, finish_returned], b1, b2⟩
    · have hr : t1.result = ⟨.int 0⟩ := by
        rcases hout with h | h
        · rw [hv] at h
          exact absurd h (by simp)
        · exact h.2
      have heq : Task.complete none t = t1 :=
        Task.ext_fields (by rw [Task.complete_body, hb1])
          (by simp [Task.complete, hr, hfresh])
          (by rw [Task.complete_completed, hc1])
      obtain ⟨b1, b2⟩ := hbt.store h1 hc1 (Task.complete none) ht heq
        (s'.log ++ [⟨id, .ok none⟩])
      exact ⟨t1, _, h1, by simp only [execute, hb, hv, finish_returned], b1, b2⟩
  | one_args func arg1 =>
    rw [hb1, hb] at hout
    simp only [hb] at hcall hp
    simp only at hout
    obtain ⟨v1, sa, hres, hbta, hta, hval, hty⟩ := resolve_between τ s s1 hfin order fuel ih
      s' hbt id t ht hc arg1 hp (fun d T e => mem_deps_one hb e)
      (fun d T e => hpos d (mem_deps_one hb e))
    obtain ⟨w, hw, _⟩ := hcall v1 hty
    obtain ⟨v1', hval', hw'⟩ := hout
    rw [hval] at hval'
    cases hval'
    have hr : t1.result.ptr = w := by rw [hw] at hw'; simpa using hw'.symm
    have heq : Task.complete (some w) t = t1 :=
      Task.ext_fields (by rw [Task.complete_body, hb1])
        (MyAny.ext_ptr (by simp [Task.complete, hr]))
        (by rw [Task.complete_completed, hc1])
    obtain ⟨b1, b2⟩ := hbta.store h1 hc1 (Task.complete (some w)) hta heq
      (sa.log ++ [⟨id, .ok (some w)⟩])
    exact ⟨t1, _, h1, by simp only [execute, hb, hres, hw, Except.map, finish_returned], b1, b2⟩
  | two_args func arg1 arg2 =>
    rw [hb1, hb] at hout
    simp only [hb] at hcall hp
    simp only at hout
    obtain ⟨v1, sa, hres1, hbta, hta, hval1, hty1⟩ := resolve_between τ s s1 hfin order fuel ih
      s' hbt id t ht hc arg1 hp.1 (fun d T e => mem_deps_two_left hb e)
      (fun d T e => hpos d (mem_deps_two_left hb e))
    obtain ⟨v2, sb, hres2, hbtb, htb, hval2, hty2⟩ := resolve_between τ s s1 hfin order fuel ih
      sa hbta id t hta hc arg2 hp.2 (fun d T e => mem_deps_two_right hb e)
      (fun d T e => hpos d (mem_deps_two_right hb e))
    obtain ⟨w, hw, _⟩ := hcall v1 v2 hty1 hty2
    obtain ⟨v1', v2', hval1', hval2', hw'⟩ := hout
    rw [hval1] at hval1'
    rw [hval2] at hval2'
    cases hval1'
    cases hval2'
    have hr : t1.result.ptr = w := by rw [hw] at hw'; simpa using hw'.symm
    have heq : Task.complete (some w) t = t1 :=
      Task.ext_fields (by rw [Task.complete_body, hb1])
        (MyAny.ext_ptr (by simp [Task.complete, hr]))
        (by rw [Task.complete_completed, hc1])
    obtain ⟨b1, b2⟩ := hbtb.store h1 hc1 (Task.complete (some w)) htb heq
      (sb.log ++ [⟨id, .ok (some w)⟩])
    exact ⟨t1, _, h1,
      by simp only [execute, hb, hres1, hres2, hw, Except.map, finish_returned], b1, b2⟩

/-- Lazy `getResult` on a state between the fresh and the fully executed one
leaves such a state, with the requested record as in the fully executed state,
and returns what that record gives. -/
theorem getResult_between (τ : Nat → Ty) (s s1 : TTaskScheduler) (hfin : AllRan τ s s1)
    (hf : Fresh s) (hpt : PlaceholdersTyped τ s.tasks) (hct : CallablesTotal τ s.tasks)
    (order : List Nat) (ho : OrderOk s.tasks order) :
    ∀ (fuel : Nat) (s' : TTaskScheduler) (T : Ty) (j k : Nat), Between s s1 s' →
      order[k]? = some j → k < fuel →
      ∃ t1, s1.tasks[j]? = some t1 ∧ Between s s1 (getResult fuel s' T j).2 ∧
        (getResult fuel s' T j).2.tasks[j]? = some t1 ∧
        (getResult fuel s' T j).1 = t1.result.fetch T := by
  intro fuel
  induction fuel with
  | zero => intro s' T j k _ _ hk; exact absurd hk (Nat.not_lt_zero k)
  | succ fuel ih =>
    intro s' T j k hbt hk hkf
    have hj : j < s'.tasks.length := by
      rw [hbt.len]; exact ho.lt j (List.getElem?_mem hk)
    have ht : s'.tasks[j]? = some s'.tasks[j] := List.getElem?_eq_getElem hj
    cases hc : (s'.tasks[j]).completed with
    | true =>
      have h1 := hbt.done j _ ht hc
      refine ⟨s'.tasks[j], h1, ?_, ?_, ?_⟩
      · simp only [getResult, ht, hc, if_true]
        cases (s'.tasks[j]).result.get T <;> exact hbt
      · simp only [getResult, ht, hc, if_true]
        cases (s'.tasks[j]).result.get T <;> exact ht
      · simp only [getResult, ht, hc, if_true, MyAny.fetch]
        cases (s'.tasks[j]).result.get T <;> rfl
    | false =>
      obtain ⟨t1, sa, h1, hex, hbta, hta⟩ := execute_between τ s s1 hfin hf hpt hct order ho fuel
        ih s' hbt j k _ ht hc hk (by omega)
      refine ⟨t1, h1, ?_, ?_, ?_⟩
      · simp only [getResult, ht, hc, Bool.false_eq_true, if_false, hex, hta]
        cases t1.result.get T <;> exact hbta
      · simp only [getResult, ht, hc, Bool.false_eq_true, if_false, hex, hta]
        cases t1.result.get T <;> exact hta
      · simp only [getResult, ht, hc, Bool.false_eq_true, if_false, hex, hta, MyAny.fetch]
        cases t1.result.get T <;> rfl

/-- C17. On a freshly built scheduler with in-range dependencies, no cycle,
correctly typed placeholders and callables that do not fail, `getResult<T>(id)`
called directly (with recursion depth `tasks.size()` or more) and called after
`executeAll` give the same result, which is a value when `T` is the type of
the task's output. -/
theorem C17_lazy_and_bulk_agree (τ : Nat → Ty) (s : TTaskScheduler)
    (hf : Fresh s) (hr : InRange s.tasks) (hac : ¬ HasCycle s.tasks)
    (hpt : PlaceholdersTyped τ s.tasks) (hct : CallablesTotal τ s.tasks)
    (id : Nat) (hid : id < s.tasks.length) (T : Ty) (fuel fuel1 fuel2 : Nat)
    (hfuel : s.tasks.length ≤ fuel) :
    (executeAll (fuel1 + 1) s).1 = .ok () ∧
    (getResult fuel s T id).1 = (getResult (fuel2 + 1) (executeAll (fuel1 + 1) s).2 T id).1 ∧
    (T = τ id → ∃ v, (getResult fuel s T id).1 = .ok v) := by
  obtain ⟨order, hk, ho⟩ := kahnOrder_ok s.tasks hr
  have hl : order.length = s.tasks.length := (ho.length_eq_iff hr).2 hac
  have hp := ho.perm_of_length hl
  obtain ⟨s1, hrun, hran⟩ := runOrder_fresh fuel1 τ s order hf hpt hct ho order [] s (by simp)
    ⟨Relation.ReflTransGen.refl, by simp⟩
  have hexe : executeAll (fuel1 + 1) s = (.ok (), s1) := by simp [executeAll, hk, hl, hrun]
  have hfin : AllRan τ s s1 := by
    refine ⟨hran.steps.tasks_length, ?_⟩
    intro j t ht
    have hjl : j < s.tasks.length := by
      by_contra hcon
      rw [List.getElem?_eq_none (by omega)] at ht
      exact Option.noConfusion ht
    obtain ⟨t1, h1, h2, h3, h4⟩ := hran.ran j (hp.mem_iff.2 (List.mem_range.2 hjl))
    obtain ⟨t', h1', hb, _, _⟩ := hran.steps.task ht
    rw [h1] at h1'
    cases h1'
    exact ⟨t1, h1, hb, h2, h3, h4⟩
  have hbt : Between s s1 s := by
    refine ⟨rfl, ?_, fun i t' hi _ => hi⟩
    intro i t' hi hc
    rw [(hf t' (List.getElem?_mem hi)).1] at hc
    exact Bool.noConfusion hc
  obtain ⟨k, hkpos⟩ := List.mem_iff_getElem?.1 (hp.mem_iff.2 (List.mem_range.2 hid))
  have hkl : k < order.length := by
    by_contra hc
    rw [List.getElem?_eq_none (by omega)] at hkpos
    exact Option.noConfusion hkpos
  obtain ⟨t1, h1, _, _, hres⟩ := getResult_between τ s s1 hfin hf hpt hct order ho fuel s T id k
    hbt hkpos (by omega)
  obtain ⟨t0, ht0⟩ : ∃ t0, s.tasks[id]? = some t0 := ⟨s.tasks[id], List.getElem?_eq_getElem hid⟩
  obtain ⟨t1', e1, _, hc1, hty1, _⟩ := hfin.ran id t0 ht0
  rw [h1] at e1
  cases e1
  rw [hexe]
  refine ⟨rfl, ?_, ?_⟩
  · rw [hres]
    simp only [getResult, h1, hc1, if_true, MyAny.fetch]
    cases t1.result.get T <;> rfl
  · intro hT
    refine ⟨t1.result.ptr, ?_⟩
    rw [hres]
    simp [MyAny.fetch, MyAny.get, hty1, hT]

theorem C17_lazy_and_bulk_agree_witness :
    Fresh complexOperations ∧ InRange complexOperations.tasks ∧
    ¬ HasCycle complexOperations.tasks ∧
    PlaceholdersTyped (fun _ => Ty.double) complexOperations.tasks ∧
    CallablesTotal (fun _ => Ty.double) complexOperations.tasks ∧
    3 < complexOperations.tasks.length ∧ complexOperations.tasks.length ≤ 4 ∧
    (executeAll (0 + 1) complexOperations).1 = .ok () ∧
    (getResult 4 complexOperations .double 3).1 =
      (getResult (0 + 1) (executeAll (0 + 1) complexOperations).2 .double 3).1 ∧
    (Ty.double = Ty.double → ∃ v, (getResult 4 complexOperations .double 3).1 = .ok v) :=
  ⟨by decide, by decide, acyclic_of_backward (by decide), complexOperations_typed,
    complexOperations_total, by decide, by decide,
    C17_lazy_and_bulk_agree (fun _ => Ty.double) complexOperations (by decide) (by decide)
      (acyclic_of_backward (by decide)) complexOperations_typed complexOperations_total
      3 (by decide) .double 4 0 0 (by decide)⟩

theorem resolve_invokes (fuel : Nat)
    (ih : ∀ (s : TTaskScheduler) (T : Ty) (j : Nat),
      Relation.ReflTransGen Invoke s (getResult fuel s T j).2)
    (s : TTaskScheduler) (a : Arg) :
    Relation.ReflTransGen Invoke s (resolve_argument (getResult fuel) s a).2 := by
  cases a with
  | value v => exact Relation.ReflTransGen.refl
  | future d T => exact ih s T d

theorem finish_invoke (s : TTaskScheduler) (id : Nat) (t : Task)
    (c : Except String (Option Value)) (ht : s.tasks[id]? = some t)
    (hc : t.completed = false) (hp : t.produces c) : Invoke s (finish s id c).2 :=
  ⟨id, t, c, ht, hc, hp, rfl⟩

theorem execute_invokes (fuel : Nat)
    (ih : ∀ (s : TTaskScheduler) (T : Ty) (j : Nat),
      Relation.ReflTransGen Invoke s (getResult fuel s T j).2)
    (s : TTaskScheduler) (id : Nat) (t : Task) (ht : s.tasks[id]? = some t)
    (hc : t.completed = false) :
    Relation.ReflTransGen Invoke s (execute (getResult fuel) s id t).2 := by
  cases hb : t.body with
  | zero_args func =>
    simp only [execute, hb]
    exact Relation.ReflTransGen.single
      (finish_invoke s id t _ ht hc (by simp [Task.produces, hb]))
  | one_args func arg1 =>
    simp only [execute, hb]
    have h1 := resolve_invokes fuel ih s arg1
    cases hres : resolve_argument (getResult fuel) s arg1 with
    | mk r1 sa =>
      have k1 := resolve_ok fuel (getResult_ok fuel) s id t ht hc arg1
        (fun j T e => mem_deps_one hb e) r1 sa hres
      rw [hres] at h1
      cases r1 with
      | error e => exact h1
      | ok a1 =>
        have hta := (k1.2.2.1 a1 rfl).1
        exact h1.tail (finish_invoke sa id t _ hta hc (by simp only [Task.produces, hb]; exact ⟨a1, rfl⟩))
  | two_args func arg1 arg2 =>
    simp only [execute, hb]
    have h1 := resolve_invokes fuel ih s arg1
    cases hres : resolve_argument (getResult fuel) s arg1 with
    | mk r1 sa =>
      have k1 := resolve_ok fuel (getResult_ok fuel) s id t ht hc arg1
        (fun j T e => mem_deps_two_left hb e) r1 sa hres
      rw [hres] at h1
      cases r1 with
      | error e => exact h1
      | ok a1 =>
        have hta := (k1.2.2.1 a1 rfl).1
        have h2 := resolve_invokes fuel ih sa arg2
        simp only
        cases hres2 : resolve_argument (getResult fuel) sa arg2 with
        | mk r2 sb =>
          have k2 := resolve_ok fuel (getResult_ok fuel) sa id t hta hc arg2
            (fun j T e => mem_deps_two_right hb e) r2 sb hres2
          rw [hres2] at h2
          cases r2 with
          | error e => exact h1.trans h2
          | ok a2 =>
            have htb := (k2.2.2.1 a2 rfl).1
            exact (h1.trans h2).tail (finish_invoke sb id t _ htb hc
              (by simp only [Task.produces, hb]; exact ⟨a1, a2, rfl⟩))

/-- Every call of `getResult` changes the scheduler only through invocations of
callables of not-completed tasks, each storing what the callable produced. -/
theorem getResult_invokes : ∀ (fuel : Nat) (s : TTaskScheduler) (T : Ty) (j : Nat),
    Relation.ReflTransGen Invoke s (getResult fuel s T j).2 := by
  intro fuel
  induction fuel with
  | zero => intro s T j; exact Relation.ReflTransGen.refl
  | succ fuel ih =>
    intro s T j
    rw [getResult]
    cases ht : s.tasks[j]? with
    | none => exact Relation.ReflTransGen.refl
    | some t =>
      simp only
      cases hc : t.completed with
      | true =>
        simp only [if_true, ht]
        cases t.result.get T <;> exact Relation.ReflTransGen.refl
      | false =>
        simp only [Bool.false_eq_true, if_false]
        have h := execute_invokes fuel ih s j t ht hc
        cases hex : execute (getResult fuel) s j t with
        | mk r1 sa =>
          rw [hex] at h
          cases r1 with
          | error e => exact h
          | ok u =>
            simp only
            cases sa.tasks[j]? with
            | none => exact h
            | some t1 =>
              simp only
              cases t1.result.get T <;> exact h

theorem runOrder_invokes (fuel : Nat) : ∀ (order : List Nat) (s : TTaskScheduler),
    Relation.ReflTransGen Invoke s (runOrder fuel order s).2 := by
  intro order
  induction order with
  | nil => intro s; exact Relation.ReflTransGen.refl
  | cons id rest ih =>
    intro s
    simp only [runOrder]
    cases ht : s.tasks[id]? with
    | none => exact Relation.ReflTransGen.refl
    | some t =>
      simp only
      cases hc : t.completed with
      | true => simp only [if_true]; exact ih s
      | false =>
        simp only [Bool.false_eq_true, if_false]
        have h := execute_invokes fuel (getResult_invokes fuel) s id t ht hc
        cases hex : execute (getResult fuel) s id t with
        | mk r1 sa =>
          rw [hex] at h
          cases r1 with
          | error e => exact h
          | ok u => exact h.trans (ih sa)

theorem executeAll_invokes (fuel : Nat) (s : TTaskScheduler) :
    Relation.ReflTransGen Invoke s (executeAll fuel s).2 := by
  rcases executeAll_cases fuel s with ⟨e, _, h⟩ | ⟨o, _, _, h⟩ | ⟨o, _, _, h⟩
  · rw [h]
  · rw [h]
  · rw [h]; exact runOrder_invokes fuel o s

theorem runOrder_done (fuel : Nat) : ∀ (order : List Nat) (s s1 : TTaskScheduler),
    runOrder fuel order s = (.ok (), s1) → ∀ x ∈ order, Done s1 x := by
  intro order
  induction order with
  | nil => intro s s1 _ x hx; simp at hx
  | cons id rest ih =>
    intro s s1 h x hx
    simp only [runOrder] at h
    cases ht : s.tasks[id]? with
    | none => simp [ht] at h
    | some t =>
      simp only [ht] at h
      cases hc : t.completed with
      | true =>
        simp only [hc, if_true] at h
        rcases List.mem_cons.1 hx with rfl | hx
        · exact (runOrder_ok fuel rest s _ _ h).1.done ⟨t, ht, hc⟩
        · exact ih s s1 h x hx
      | false =>
        simp only [hc, Bool.false_eq_true, if_false] at h
        cases hex : execute (getResult fuel) s id t with
        | mk r1 sa =>
          have ex := execute_ok fuel (getResult_ok fuel) s id t ht hc r1 sa hex
          rw [hex] at h
          cases r1 with
          | error e => simp at h
          | ok u =>
            simp only at h
            rcases List.mem_cons.1 hx with rfl | hx
            · exact (runOrder_ok fuel rest sa _ _ h).1.done (ex.ok rfl).2
            · exact ih sa s1 h x hx

/-- After an `executeAll` that returns normally every registered task is completed. -/
theorem executeAll_done (fuel : Nat) (s : TTaskScheduler) (h : (executeAll fuel s).1 = .ok ())
    (x : Nat) (hx : x < s.tasks.length) : Done (executeAll fuel s).2 x := by
  rcases executeAll_cases fuel s with ⟨e, _, he⟩ | ⟨o, _, _, he⟩ | ⟨o, hk, hl, he⟩
  · simp [he] at h
  · simp [he] at h
  · have hr : InRange s.tasks := by
      rcases kahnOrder_total s.tasks with ⟨hr, _⟩ | ⟨_, hbad⟩
      · exact hr
      · rw [hbad] at hk; exact Except.noConfusion hk
    obtain ⟨order, hk', ho⟩ := kahnOrder_ok s.tasks hr
    rw [hk] at hk'
    cases hk'
    have hp := ho.perm_of_length hl
    rw [he] at h ⊢
    exact runOrder_done fuel o s _ (Prod.ext h rfl) x (hp.mem_iff.2 (List.mem_range.2 hx))

theorem Invoke.voidRan {s0 s s1 : TTaskScheduler} {id : Nat} {t : Task}
    {func : Unit → Except String (Option Value)} (hb : t.body = .zero_args func)
    (hv : func () = .ok none)
    (h : VoidRan s0 id t s) (hi : Invoke s s1) : VoidRan s0 id t s1 := by
  obtain ⟨calls, hlog, hcase⟩ := h
  obtain ⟨j, tj, c, htj, hcj, hp, rfl⟩ := hi
  have hlog' : ∀ c, (finish s j c).2.log = s0.log ++ (calls ++ [⟨j, c⟩]) := by
    intro c
    cases c <;> simp [finish, hlog]
  have hne : ∀ c, j ≠ id → (finish s j c).2.tasks[id]? = s.tasks[id]? := by
    intro c hji
    cases c with
    | error e => rfl
    | ok out => simp [finish, List.getElem?_modify, hji]
  refine ⟨calls ++ [⟨j, c⟩], hlog' c, ?_⟩
  by_cases hji : j = id
  · subst hji
    rcases hcase with h1 | ⟨h1, _⟩
    · rw [htj] at h1
      cases h1
      have hcv : c = .ok none := by
        simp only [Task.produces, hb] at hp
        rw [hp, hv]
      subst hcv
      refine Or.inr ⟨?_, ⟨j, .ok none⟩, by simp, rfl, rfl⟩
      simp [finish, List.getElem?_modify, htj, Task.complete]
    · rw [htj] at h1
      cases h1
      simp at hcj
  · rcases hcase with h1 | ⟨h1, c', hc', hid, hout⟩
    · exact Or.inl (by rw [hne c hji]; exact h1)
    · exact Or.inr ⟨by rw [hne c hji]; exact h1, c', by simp [hc'], hid, hout⟩

theorem voidRan_of_invokes {s s1 : TTaskScheduler} {id : Nat} {t : Task}
    {func : Unit → Except String (Option Value)} (ht : s.tasks[id]? = some t)
    (hb : t.body = .zero_args func) (hv : func () = .ok none)
    (h : Relation.ReflTransGen Invoke s s1) : VoidRan s id t s1 := by
  induction h with
  | refl => exact ⟨[], by simp, Or.inl ht⟩
  | tail _ hstep ih => exact Invoke.voidRan hb hv ih hstep

/-- C16 as stated fails: after `executeAll` the record of the `void` task of the
test `VoidTask` holds the `int` 0 it was initialised with, and
`getResult<int>` returns it. -/
theorem C16_counterexample :
    (executeAll 1 voidTask).2.tasks.map (fun t => (t.result, t.completed))
      = [(⟨.int 0⟩, true)] ∧
    (getResult 1 (executeAll 1 voidTask).2 .int 0).1 = .ok (.int 0) :=
  ⟨by decide, rfl⟩

/-- C16, amended. Executing a not-completed zero-argument task whose callable
returns `void`: `getResult` invokes the callable (one call logged, returning
no value) and marks the task completed, and after an `executeAll` that
returns normally the callable has been invoked and the task is completed; in
both cases the output is the value the record held before (`MyAny result = 0`
for a fresh record), not an empty box. -/
theorem C16_void_task_keeps_initial_output (s : TTaskScheduler) (id : Nat) (t : Task)
    (func : Unit → Except String (Option Value)) (ht : s.tasks[id]? = some t)
    (hb : t.body = .zero_args func) (hv : func () = .ok none) (hc : t.completed = false) :
    (∀ fuel T, (getResult (fuel + 1) s T id).2 =
      ⟨s.tasks.modify (Task.complete none) id, s.log ++ [⟨id, .ok none⟩]⟩) ∧
    (∀ fuel T, (getResult (fuel + 1) s T id).2.tasks[id]? = some { t with completed := true }) ∧
    (∀ fuel T, (getResult (fuel + 1) s T id).1 = t.result.fetch T) ∧
    (∀ fuel, (executeAll fuel s).1 = .ok () →
      (executeAll fuel s).2.tasks[id]? = some { t with completed := true } ∧
      ∃ c ∈ (executeAll fuel s).2.callsSince s, c.id = id ∧ c.outcome = .ok none) ∧
    (t.result = ⟨.int 0⟩ → ({ t with completed := true } : Task).result.get .int
      = some (.int 0)) := by
  have hex : ∀ fuel, execute (getResult fuel) s id t =
      (.ok (), ⟨s.tasks.modify (Task.complete none) id, s.log ++ [⟨id, .ok none⟩]⟩) := by
    intro fuel
    simp only [execute, hb, hv, finish_returned]
  have hnew : (s.tasks.modify (Task.complete none) id)[id]? = some { t with completed := true } := by
    simp [List.getElem?_modify, ht, Task.complete]
  refine ⟨?_, ?_, ?_, ?_, ?_⟩
  · intro fuel T
    simp only [getResult, ht, hc, Bool.false_eq_true, if_false, hex, hnew]
    cases ({ t with completed := true } : Task).result.get T <;> rfl
  · intro fuel T
    simp only [getResult, ht, hc, Bool.false_eq_true, if_false, hex, hnew]
    cases ({ t with completed := true } : Task).result.get T <;> exact hnew
  · intro fuel T
    simp only [getResult, ht, hc, Bool.false_eq_true, if_false, hex, hnew, MyAny.fetch]
    cases t.result.get T <;> rfl
  · intro fuel hok
    have hidl : id < s.tasks.length := by
      by_contra hcon
      rw [List.getElem?_eq_none (by omega)] at ht
      exact Option.noConfusion ht
    obtain ⟨td, htd, hcd⟩ := executeAll_done fuel s hok id hidl
    obtain ⟨calls, hlog, hcase⟩ := voidRan_of_invokes ht hb hv (executeAll_invokes fuel s)
    have hcalls : (executeAll fuel s).2.callsSince s = calls := by
      simp [TTaskScheduler.callsSince, hlog]
    rcases hcase with h1 | ⟨h1, hcall⟩
    · rw [htd] at h1
      cases h1
      rw [hc] at hcd
      exact Bool.noConfusion hcd
    · exact ⟨h1, by rw [hcalls]; exact hcall⟩
  · intro hr
    simp [MyAny.get, hr, Value.ty]

theorem C16_void_task_keeps_initial_output_witness :
    voidTask.tasks[0]? = some (Task.fresh (.zero_args (fun _ => .ok none))) ∧
    (∀ fuel T, (getResult (fuel + 1) voidTask T 0).2 =
      ⟨voidTask.tasks.modify (Task.complete none) 0, voidTask.log ++ [⟨0, .ok none⟩]⟩) ∧
    (∀ fuel T, (getResult (fuel + 1) voidTask T 0).2.tasks[0]? =
      some { Task.fresh (.zero_args (fun _ => .ok none)) with completed := true }) ∧
    (∀ fuel T, (getResult (fuel + 1) voidTask T 0).1 =
      (Task.fresh (.zero_args (fun _ => .ok none))).result.fetch T) ∧
    (∀ fuel, (executeAll fuel voidTask).1 = .ok () →
      (executeAll fuel voidTask).2.tasks[0]? =
        some { Task.fresh (.zero_args (fun _ => .ok none)) with completed := true } ∧
      ∃ c ∈ (executeAll fuel voidTask).2.callsSince voidTask, c.id = 0 ∧ c.outcome = .ok none) ∧
    ((Task.fresh (.zero_args (fun _ => .ok none))).result = ⟨.int 0⟩ →
      ({ Task.fresh (.zero_args (fun _ => .ok none)) with completed := true } : Task).result.get
        .int = some (.int 0)) :=
  ⟨rfl, C16_void_task_keeps_initial_output voidTask 0
    (Task.fresh (.zero_args (fun _ => .ok none))) (fun _ => .ok none) rfl rfl rfl rfl⟩

theorem Step.calls {id : Nat} {s s' : TTaskScheduler} (h : Step id s s') :
    ∃ c, s'.callsSince s = [c] ∧ c.id = id ∧ (c.returned = true ↔ Done s' id) := by
  have hp := h.was_pending
  cases h with
  | returned t out h1 h2 h3 =>
    refine ⟨⟨id, .ok out⟩, by simp [TTaskScheduler.callsSince], rfl, ?_⟩
    constructor
    · intro _
      exact ⟨t.complete out, by simp [List.getElem?_modify, h1], Task.complete_completed _ _⟩
    · intro _; rfl
  | threw t what h1 h2 h3 =>
    refine ⟨⟨id, .error what⟩, by simp [TTaskScheduler.callsSince], rfl, ?_⟩
    constructor
    · intro h; simp [Call.returned] at h
    · intro hd; exact absurd hd (not_done_of_pending hp)

end TaskScheduler
